import Mathlib

/-!
Shallow embedding of the `pool` package of jeevic/go-redis (file containing
`ConnPool`, its `Get`/`Put`/`Remove`/`Close` protocol, the dial-error circuit,
the min-idle filler and the reaper).

Modelling conventions:
* Go pointers to `Conn` are modelled as `Conn` values carrying a unique `id`
  (pointer identity = id equality); fresh connections draw `id` from the
  pool state's `nextId` counter, mirroring allocation.
* `time.Time` values are `Nat` timestamps; `time.Duration` configuration
  fields are `Nat` (0 disables the corresponding check, as in the source).
* Go `int` counters (`poolSize`, `idleConnsLen`) are `Int` so that the
  rollback decrements of the source can go below zero exactly as in Go.
* The `uint32` stat counters are `Nat` (they are only ever incremented by
  small amounts in the properties considered here).
* `container/list.List` fields that the source sets to `nil` in `Close` are
  `Option (List Conn)`; an operation of the source that would dereference a
  nil list (a Go runtime panic) is modelled by returning `none`.
* Channel operations: `queueLen` is the occupancy of the `queue` channel.
  A send that would block forever in a sequential execution (and a receive
  from an empty channel) make the operation return `none`.
* Goroutines spawned by the source (`go p.tryDial()`, the min-idle filler,
  asynchronous closes) are modelled by instrumentation: `proberSpawns`
  counts prober spawns, `pendingFillers` counts outstanding filler tasks
  (run later by `runFiller`), and a connection close is recorded by
  appending the connection id to `closeLog` at dispatch time.
* The user `Dialer`, `ctx.Done()`, the `select` races of `waitTurn` and the
  `connCheck` socket probe are external nondeterminism; they enter the
  model as explicit oracle arguments (`DialOutcome`, Booleans, `RaceEvent`,
  and per-iteration `(now, connCheckOk)` oracles).
-/

namespace GoRedisPool

/-- Errors surfaced by the pool. `ctxErr`/`dialErr` carry an opaque token
standing for the concrete Go error value. `nilErr` stands for the `nil`
error returned by `getLastDialError` when no dial error was ever stored
(unreachable from a fresh pool). -/
inductive Err where
  | errClosed
  | errPoolTimeout
  | ctxErr (token : Nat)
  | dialErr (token : Nat)
  | nilErr
deriving DecidableEq

/-- The attributes of a `*Conn` that the pool observes: pointer identity
(`id`), `createdAt`, `usedAt`, the `pooled` flag and `rd.Buffered()`. -/
structure Conn where
  id : Nat
  createdAt : Nat
  usedAt : Nat
  pooled : Bool
  buffered : Nat
deriving DecidableEq

/-- The `Options` fields the modelled code reads (the `Dialer` itself is an
oracle, `PoolTimeout` only feeds the timer race). -/
structure Options where
  poolFIFO : Bool
  poolSize : Nat
  minIdleConns : Nat
  maxIdleConns : Nat
  connMaxIdleTime : Nat
  connMaxLifetime : Nat
deriving DecidableEq

/-- State of a `ConnPool`, plus instrumentation (`pendingFillers`,
`proberSpawns`, `closeLog`, `nextId`). -/
structure PoolState where
  cfg : Options
  dialErrorsNum : Nat
  lastDialError : Option Err
  queueLen : Nat
  conns : Option (List Conn)
  idleConns : Option (List Conn)
  poolSize : Int
  idleConnsLen : Int
  hits : Nat
  misses : Nat
  timeouts : Nat
  staleConns : Nat
  closedFlag : Bool
  pendingFillers : Nat
  proberSpawns : Nat
  closeLog : List Nat
  nextId : Nat
deriving DecidableEq

/-- Outcome of one invocation of the user-supplied dialer. -/
inductive DialOutcome where
  | ok (now : Nat)
  | fail (token : Nat)
deriving DecidableEq

/-- Which `select` arm wins in the blocking wait of `waitTurn`. -/
inductive RaceEvent where
  | ctxDone
  | queueReady
  | timerFired
deriving DecidableEq

/-- The reservation loop of `checkMinIdleConns`:
`for poolSize < PoolSize && idleConnsLen < MinIdleConns` increment both
counters and spawn one filler goroutine per iteration. `fuel` is the loop
variant `MinIdleConns - idleConnsLen` (the guard is re-checked every
iteration, and each iteration increments `idleLen`, so the variant is
exact: the guard is false whenever the variant is zero). -/
def checkMinLoop (cfg : Options) (fuel : Nat) (poolSize idleLen : Int)
    (pending : Nat) : Int × Int × Nat :=
  match fuel with
  | 0 => (poolSize, idleLen, pending)
  | fuel + 1 =>
    if poolSize < (cfg.poolSize : Int) ∧ idleLen < (cfg.minIdleConns : Int) then
      checkMinLoop cfg fuel (poolSize + 1) (idleLen + 1) (pending + 1)
    else
      (poolSize, idleLen, pending)

/-- `ConnPool.checkMinIdleConns`: no-op when `MinIdleConns == 0`, otherwise
reserve slots synchronously and record the spawned filler tasks. -/
def checkMinIdleConns (s : PoolState) : PoolState :=
  if s.cfg.minIdleConns == 0 then s
  else
    let r := checkMinLoop s.cfg ((s.cfg.minIdleConns : Int) - s.idleConnsLen).toNat
      s.poolSize s.idleConnsLen s.pendingFillers
    { s with poolSize := r.1, idleConnsLen := r.2.1, pendingFillers := r.2.2 }

/-- Remove the first list element whose id matches (Go removes the first
`*list.Element` whose value is pointer-equal to `cn`, then breaks). -/
def removeFirstById : List Conn → Nat → List Conn
  | [], _ => []
  | c :: rest, i => if c.id == i then rest else c :: removeFirstById rest i

/-- `ConnPool.removeConn`: scan `conns` for the pointer, remove it, and when
`cn.pooled` decrement `poolSize` and run `checkMinIdleConns`. -/
def removeConn (s : PoolState) (cn : Conn) : Option PoolState :=
  match s.conns with
  | none => none
  | some l =>
    if l.any (fun c => c.id == cn.id) then
      let s1 : PoolState := { s with conns := some (removeFirstById l cn.id) }
      if cn.pooled then
        some (checkMinIdleConns { s1 with poolSize := s1.poolSize - 1 })
      else some s1
    else some s

/-- Record the dispatch of `cn.Close()` (directly or via a `go` closure). -/
def closeConnLog (s : PoolState) (cn : Conn) : PoolState :=
  { s with closeLog := s.closeLog ++ [cn.id] }

/-- `ConnPool.freeTurn`: `<-p.queue`. Receiving from an empty channel in a
sequential execution blocks forever, modelled as `none`. -/
def freeTurn (s : PoolState) : Option PoolState :=
  if s.queueLen == 0 then none
  else some { s with queueLen := s.queueLen - 1 }

/-- `ConnPool.getTurn`: `p.queue <- struct{}{}`; blocks when full. -/
def getTurn (s : PoolState) : Option PoolState :=
  if s.queueLen < s.cfg.poolSize then some { s with queueLen := s.queueLen + 1 }
  else none

/-- `ConnPool.Remove`: remove under lock, release the ticket, close. -/
def removeOp (s : PoolState) (cn : Conn) : Option PoolState :=
  (removeConn s cn).bind fun s1 => (freeTurn s1).map fun s2 => closeConnLog s2 cn

/-- `ConnPool.AsyncRemove`: as `Remove` but the close runs in a goroutine. -/
def asyncRemove (s : PoolState) (cn : Conn) : Option PoolState :=
  (removeConn s cn).bind fun s1 => (freeTurn s1).map fun s2 => closeConnLog s2 cn

/-- `ConnPool.CloseConn`: remove under lock, bump `stats.StaleConns`, close;
no ticket is released. -/
def closeConnOp (s : PoolState) (cn : Conn) : Option PoolState :=
  (removeConn s cn).map fun s1 =>
    closeConnLog { s1 with staleConns := s1.staleConns + 1 } cn

/-- `ConnPool.AsyncCloseConn`: as `CloseConn` with the close dispatched to a
goroutine. -/
def asyncCloseConn (s : PoolState) (cn : Conn) : Option PoolState :=
  (removeConn s cn).map fun s1 =>
    closeConnLog { s1 with staleConns := s1.staleConns + 1 } cn

/-- `ConnPool.popIdle`: `ErrClosed` when closed; `(nil, nil)` when the idle
list is empty; otherwise take front (FIFO) or back (LIFO), decrement
`idleConnsLen` and run `checkMinIdleConns`. -/
def popIdle (s : PoolState) : Option (Except Err (Option Conn) × PoolState) :=
  if s.closedFlag then some (Except.error Err.errClosed, s)
  else
    match s.idleConns with
    | none => none
    | some [] => some (Except.ok none, s)
    | some (c :: rest) =>
      let cn := if s.cfg.poolFIFO then c else (c :: rest).getLast (List.cons_ne_nil c rest)
      let l2 := if s.cfg.poolFIFO then rest else (c :: rest).dropLast
      some (Except.ok (some cn),
        checkMinIdleConns { s with idleConns := some l2, idleConnsLen := s.idleConnsLen - 1 })

/-- `ConnPool.getLastDialError` (`nilErr` models the `nil` returned when the
atomic slot was never written). -/
def getLastDialError (s : PoolState) : Err :=
  match s.lastDialError with
  | some e => e
  | none => Err.nilErr

/-- `ConnPool.dialConn`. Besides the result and new state it reports whether
the user `Dialer` was invoked. A failure stores the error, increments
`dialErrorsNum`, and spawns the prober exactly when the incremented counter
equals `PoolSize`. -/
def dialConn (s : PoolState) (pooled : Bool) (d : DialOutcome) :
    Except Err Conn × Bool × PoolState :=
  if s.closedFlag then (Except.error Err.errClosed, false, s)
  else if s.cfg.poolSize ≤ s.dialErrorsNum then
    (Except.error (getLastDialError s), false, s)
  else
    match d with
    | DialOutcome.fail e =>
      let n := s.dialErrorsNum + 1
      (Except.error (Err.dialErr e), true,
        { s with lastDialError := some (Err.dialErr e),
                 dialErrorsNum := n,
                 proberSpawns :=
                   if n == s.cfg.poolSize then s.proberSpawns + 1 else s.proberSpawns })
    | DialOutcome.ok now =>
      let cn : Conn :=
        { id := s.nextId, createdAt := now, usedAt := now, pooled := pooled, buffered := 0 }
      (Except.ok cn, true, { s with nextId := s.nextId + 1 })

/-- `ConnPool.newConn`: dial, re-check `closed` (closing the fresh socket if
so), push onto `conns`; when `pooled` and the pool is already full, clear the
`pooled` flag instead of incrementing `poolSize`. -/
def newConn (s : PoolState) (pooled : Bool) (d : DialOutcome) :
    Option (Except Err Conn × PoolState) :=
  match dialConn s pooled d with
  | (Except.error e, _, s1) => some (Except.error e, s1)
  | (Except.ok cn, _, s1) =>
    if s1.closedFlag then some (Except.error Err.errClosed, closeConnLog s1 cn)
    else
      match s1.conns with
      | none => none
      | some l =>
        if pooled then
          if (s1.cfg.poolSize : Int) ≤ s1.poolSize then
            let cn2 := { cn with pooled := false }
            some (Except.ok cn2, { s1 with conns := some (l ++ [cn2]) })
          else
            some (Except.ok cn,
              { s1 with conns := some (l ++ [cn]), poolSize := s1.poolSize + 1 })
        else
          some (Except.ok cn, { s1 with conns := some (l ++ [cn]) })

/-- One filler goroutine spawned by `checkMinIdleConns`: run `addIdleConn`
and roll the reserved counters back on a dial error other than `ErrClosed`. -/
def runFiller (s : PoolState) (d : DialOutcome) : Option PoolState :=
  if s.pendingFillers == 0 then none
  else
    match dialConn { s with pendingFillers := s.pendingFillers - 1 } true d with
    | (Except.error e, _, s1) =>
      if e == Err.errClosed then some s1
      else some { s1 with poolSize := s1.poolSize - 1, idleConnsLen := s1.idleConnsLen - 1 }
    | (Except.ok cn, _, s1) =>
      if s1.closedFlag then some (closeConnLog s1 cn)
      else
        match s1.conns, s1.idleConns with
        | some cl, some il =>
          some { s1 with conns := some (cl ++ [cn]), idleConns := some (il ++ [cn]) }
        | _, _ => none

/-- `ConnPool.waitTurn`: check the context, try a non-blocking reservation,
otherwise race the context, the channel and the `PoolTimeout` timer. -/
def waitTurn (s : PoolState) (ctxDoneAtEntry : Bool) (ctxToken : Nat)
    (race : RaceEvent) : Except Err Unit × PoolState :=
  if ctxDoneAtEntry then (Except.error (Err.ctxErr ctxToken), s)
  else if s.queueLen < s.cfg.poolSize then
    (Except.ok (), { s with queueLen := s.queueLen + 1 })
  else
    match race with
    | RaceEvent.ctxDone => (Except.error (Err.ctxErr ctxToken), s)
    | RaceEvent.queueReady => (Except.ok (), { s with queueLen := s.queueLen + 1 })
    | RaceEvent.timerFired =>
      (Except.error Err.errPoolTimeout, { s with timeouts := s.timeouts + 1 })

/-- `ConnPool.isHealthyConn` with `now` and the `connCheck` verdict supplied
by the oracle; refreshes `usedAt` on success. -/
def isHealthyConn (cfg : Options) (now : Nat) (connCheckOk : Bool) (cn : Conn) :
    Bool × Conn :=
  if 0 < cfg.connMaxLifetime ∧ cfg.connMaxLifetime ≤ now - cn.createdAt then (false, cn)
  else if 0 < cfg.connMaxIdleTime ∧ cfg.connMaxIdleTime ≤ now - cn.usedAt then (false, cn)
  else if connCheckOk then (true, { cn with usedAt := now })
  else (false, cn)

/-- `ConnPool.isStaleConn` with oracle inputs. -/
def isStaleConn (cfg : Options) (now : Nat) (connCheckOk : Bool) (cn : Conn) : Bool :=
  if 0 < cfg.connMaxLifetime ∧ cfg.connMaxLifetime ≤ now - cn.createdAt then true
  else if 0 < cfg.connMaxIdleTime ∧ cfg.connMaxIdleTime ≤ now - cn.usedAt then true
  else !connCheckOk

/-- Length of the idle list (0 when the list is nil). -/
def idleLenList (s : PoolState) : Nat := (s.idleConns.getD []).length

/-- Result of the idle-candidate loop in `Get`. -/
inductive LoopRes where
  | found (cn : Conn)
  | broke
  | errRes (e : Err)
deriving DecidableEq

/-- Instrumentation for the idle-candidate loop: total `popIdle` calls,
pops that found the list empty, unhealthy candidates evicted. -/
structure LoopStats where
  pops : Nat
  empties : Nat
  evicted : Nat
deriving DecidableEq

theorem checkMinIdleConns_idleConns (s : PoolState) :
    (checkMinIdleConns s).idleConns = s.idleConns := by
  unfold checkMinIdleConns
  split <;> rfl

theorem popIdle_ok_none (s s1 : PoolState)
    (h : popIdle s = some (Except.ok none, s1)) : s1 = s := by
  unfold popIdle at h
  split at h
  · simp at h
  · split at h
    · simp at h
    · simp at h; exact h.symm
    · simp at h

theorem popIdle_ok_some (s s1 : PoolState) (cn : Conn)
    (h : popIdle s = some (Except.ok (some cn), s1)) :
    idleLenList s1 + 1 = idleLenList s := by
  unfold popIdle at h
  split at h
  · simp at h
  · rename_i hcl
    split at h
    · simp at h
    · simp at h
    · rename_i c rest heq
      simp only [Option.some.injEq, Prod.mk.injEq, Except.ok.injEq] at h
      rcases h with ⟨-, h2⟩
      unfold idleLenList
      rw [← h2, checkMinIdleConns_idleConns]
      simp only [heq]
      split <;> simp [List.length_dropLast]

theorem removeConn_idleConns (s : PoolState) (cn : Conn) (s1 : PoolState)
    (h : removeConn s cn = some s1) : s1.idleConns = s.idleConns := by
  unfold removeConn at h
  split at h
  · simp at h
  · split at h
    · split at h
      · simp only [Option.some.injEq] at h
        rw [← h, checkMinIdleConns_idleConns]
      · simp only [Option.some.injEq] at h
        rw [← h]
    · simp only [Option.some.injEq] at h
      rw [← h]

theorem asyncCloseConn_idleConns (s : PoolState) (cn : Conn) (s1 : PoolState)
    (h : asyncCloseConn s cn = some s1) : s1.idleConns = s.idleConns := by
  unfold asyncCloseConn at h
  cases hr : removeConn s cn with
  | none => rw [hr] at h; simp at h
  | some s2 =>
    rw [hr] at h
    simp only [Option.map_some', Option.some.injEq] at h
    rw [← h]
    exact removeConn_idleConns s cn s2 hr

/-- The idle-candidate loop of `ConnPool.Get` (`attempt = 3`, `i` counts
empty pops only; unhealthy candidates are evicted via `AsyncCloseConn` and
the loop continues). `h` supplies `(now, connCheckOk)` per iteration.
`fuel` is the loop variant `3 * idleLenList + (3 - i)`: an empty pop
raises `i`, any other pop shrinks the idle list, so the variant strictly
decreases and the fuel passed by `get` is never exhausted (running out
would yield `none`, the marker already used for panics). -/
def getLoop (h : Nat → Nat × Bool) (fuel : Nat) (s : PoolState) (k : Nat)
    (i : Nat) (st : LoopStats) : Option (LoopRes × PoolState × LoopStats) :=
  match fuel with
  | 0 => none
  | fuel + 1 =>
    match popIdle s with
    | none => none
    | some (Except.error e, s1) =>
      some (LoopRes.errRes e, s1, { st with pops := st.pops + 1 })
    | some (Except.ok none, s1) =>
      let st1 := { st with pops := st.pops + 1, empties := st.empties + 1 }
      if 3 ≤ i + 1 then some (LoopRes.broke, s1, st1)
      else getLoop h fuel s1 (k + 1) (i + 1) st1
    | some (Except.ok (some cn), s1) =>
      let st1 := { st with pops := st.pops + 1 }
      match isHealthyConn s1.cfg (h k).1 (h k).2 cn with
      | (true, cn2) =>
        some (LoopRes.found cn2, { s1 with hits := s1.hits + 1 }, st1)
      | (false, _) =>
        match asyncCloseConn s1 cn with
        | none => none
        | some s2 => getLoop h fuel s2 (k + 1) i { st1 with evicted := st1.evicted + 1 }

/-- Result of `ConnPool.Get`, tagged by the path taken in the source. -/
inductive GetRes where
  | hitRes (cn : Conn)
  | missRes (cn : Conn)
  | preErr (e : Err)
  | postMissErr (e : Err)
deriving DecidableEq

/-- `ConnPool.Get` end to end. -/
def get (s : PoolState) (ctxDoneAtEntry : Bool) (ctxToken : Nat)
    (race : RaceEvent) (h : Nat → Nat × Bool) (d : DialOutcome) :
    Option (GetRes × PoolState) :=
  if s.closedFlag then some (GetRes.preErr Err.errClosed, s)
  else
    match waitTurn s ctxDoneAtEntry ctxToken race with
    | (Except.error e, s1) => some (GetRes.preErr e, s1)
    | (Except.ok _, s1) =>
      match getLoop h (3 * idleLenList s1 + 3) s1 0 0
          { pops := 0, empties := 0, evicted := 0 } with
      | none => none
      | some (LoopRes.errRes e, s2, _) => some (GetRes.preErr e, s2)
      | some (LoopRes.found cn, s2, _) => some (GetRes.hitRes cn, s2)
      | some (LoopRes.broke, s2, _) =>
        match newConn { s2 with misses := s2.misses + 1 } true d with
        | none => none
        | some (Except.error e, s4) =>
          (freeTurn s4).map fun s5 => (GetRes.postMissErr e, s5)
        | some (Except.ok cn, s4) => some (GetRes.missRes cn, s4)

/-- Branch taken by `ConnPool.Put`. -/
inductive PutRes where
  | evictedBad
  | evictedNonPooled
  | idled
  | overflowClosed
deriving DecidableEq

/-- `ConnPool.Put`. -/
def put (s : PoolState) (cn : Conn) : Option (PutRes × PoolState) :=
  if 0 < cn.buffered then
    (asyncRemove s cn).map fun s1 => (PutRes.evictedBad, s1)
  else if !cn.pooled then
    (asyncRemove s cn).map fun s1 => (PutRes.evictedNonPooled, s1)
  else
    match s.idleConns with
    | none => none
    | some l =>
      if s.cfg.maxIdleConns == 0 ∨ s.idleConnsLen < (s.cfg.maxIdleConns : Int) then
        (freeTurn { s with idleConns := some (l ++ [cn]),
                           idleConnsLen := s.idleConnsLen + 1 }).map
          fun s2 => (PutRes.idled, s2)
      else
        (removeConn s cn).bind fun s1 =>
          (freeTurn s1).map fun s2 => (PutRes.overflowClosed, closeConnLog s2 cn)

/-- `ConnPool.Close`: CAS on the closed flag, close every registered
connection, nil both lists and zero the counters. -/
def closePool (s : PoolState) : Option (Except Err Unit × PoolState) :=
  if s.closedFlag then some (Except.error Err.errClosed, s)
  else
    match s.conns with
    | none => none
    | some l =>
      some (Except.ok (),
        { s with closedFlag := true,
                 closeLog := s.closeLog ++ l.map (fun c => c.id),
                 conns := none, poolSize := 0,
                 idleConns := none, idleConnsLen := 0 })

/-- `ConnPool.Filter`: under the lock, close every connection matching the
predicate; nothing is removed from `conns`. -/
def filterOp (s : PoolState) (pred : Conn → Bool) :
    Option (Except Err Unit × PoolState) :=
  match s.conns with
  | none => none
  | some l =>
    some (Except.ok (),
      { s with closeLog := s.closeLog ++ (l.filter pred).map (fun c => c.id) })

/-- `ConnPool.Len` (dereferences `conns`, hence `none` after `Close`). -/
def lenOp (s : PoolState) : Option Nat := s.conns.map List.length

/-- `ConnPool.IdleLen` (reads the counter, not the list). -/
def idleLenOp (s : PoolState) : Int := s.idleConnsLen

/-- `ConnPool.reapStaleConn`: inspect the head of the idle list and remove
it when stale. -/
def reapStaleConn (s : PoolState) (now : Nat) (connCheckOk : Bool) :
    Option (Option Conn × PoolState) :=
  match s.idleConns with
  | none => none
  | some [] => some (none, s)
  | some (c :: rest) =>
    if isStaleConn s.cfg now connCheckOk c then
      (removeConn { s with idleConns := some rest, idleConnsLen := s.idleConnsLen - 1 } c).map
        fun s1 => (some c, s1)
    else some (none, s)

theorem getTurn_idleConns (s s1 : PoolState) (h : getTurn s = some s1) :
    s1.idleConns = s.idleConns := by
  unfold getTurn at h
  split at h
  · simp only [Option.some.injEq] at h; rw [← h]
  · simp at h

theorem freeTurn_idleConns (s s1 : PoolState) (h : freeTurn s = some s1) :
    s1.idleConns = s.idleConns := by
  unfold freeTurn at h
  split at h
  · simp at h
  · simp only [Option.some.injEq] at h; rw [← h]

theorem reapStaleConn_some_len (s : PoolState) (now : Nat) (ck : Bool)
    (cn : Conn) (s1 : PoolState)
    (h : reapStaleConn s now ck = some (some cn, s1)) :
    idleLenList s1 + 1 = idleLenList s := by
  unfold reapStaleConn at h
  split at h
  · simp at h
  · simp at h
  · rename_i c rest heq
    split at h
    · cases hr : removeConn
        { s with idleConns := some rest, idleConnsLen := s.idleConnsLen - 1 } c with
      | none => rw [hr] at h; simp at h
      | some s2 =>
        rw [hr] at h
        simp only [Option.map_some', Option.some.injEq, Prod.mk.injEq] at h
        have := removeConn_idleConns _ c s2 hr
        unfold idleLenList
        rw [← h.2, this]
        simp [heq]
    · simp at h

/-- The loop body of `ConnPool.ReapStaleConns`: `getTurn`, reap one stale
head, `freeTurn`, close it, repeat until nothing stale is found. `fuel` is
the loop variant `idleLenList + 1` (every iteration that recurses removes
one idle connection, so the fuel passed by `reapOp` is never exhausted;
running out would yield `none`, the marker already used for panics and
blocked channel operations). -/
def reapLoop (h : Nat → Nat × Bool) (fuel : Nat) (s : PoolState) (k : Nat)
    (n : Nat) : Option (Nat × PoolState) :=
  match fuel with
  | 0 => none
  | fuel + 1 =>
    match getTurn s with
    | none => none
    | some s1 =>
      match reapStaleConn s1 (h k).1 (h k).2 with
      | none => none
      | some (none, s2) =>
        match freeTurn s2 with
        | none => none
        | some s3 => some (n, s3)
      | some (some cn, s2) =>
        match freeTurn s2 with
        | none => none
        | some s3 => reapLoop h fuel (closeConnLog s3 cn) (k + 1) (n + 1)

/-- `ConnPool.ReapStaleConns`: run the loop, then add the number of reaped
connections to `stats.StaleConns`. -/
def reapOp (h : Nat → Nat × Bool) (s : PoolState) : Option (Nat × PoolState) :=
  (reapLoop h (idleLenList s + 1) s 0 0).map fun r =>
    (r.1, { r.2 with staleConns := r.2.staleConns + r.1 })

/-- `ConnPool.tryDial` (the background prober), driven by a finite list of
probe outcomes: exit if closed, retry on failure, and on the first success
reset `dialErrorsNum` and close the probe socket (which never becomes a
pool `Conn`). -/
def tryDial (s : PoolState) : List DialOutcome → PoolState
  | [] => s
  | d :: rest =>
    if s.closedFlag then s
    else
      match d with
      | DialOutcome.fail e => tryDial { s with lastDialError := some (Err.dialErr e) } rest
      | DialOutcome.ok _ => { s with dialErrorsNum := 0 }

/-- `NewConnPool`: fresh state followed by `checkMinIdleConns` under the
lock. -/
def newConnPool (cfg : Options) : PoolState :=
  checkMinIdleConns
    { cfg := cfg, dialErrorsNum := 0, lastDialError := none, queueLen := 0,
      conns := some [], idleConns := some [], poolSize := 0, idleConnsLen := 0,
      hits := 0, misses := 0, timeouts := 0, staleConns := 0,
      closedFlag := false, pendingFillers := 0, proberSpawns := 0,
      closeLog := [], nextId := 0 }

/-- One pool operation together with the oracle inputs it consumes. -/
inductive Op where
  | opGet (ctxDoneAtEntry : Bool) (ctxToken : Nat) (race : RaceEvent)
      (h : Nat → Nat × Bool) (d : DialOutcome)
  | opPut (cn : Conn)
  | opRemove (cn : Conn)
  | opAsyncRemove (cn : Conn)
  | opCloseConn (cn : Conn)
  | opAsyncCloseConn (cn : Conn)
  | opNewConn (d : DialOutcome)
  | opFilter (pred : Conn → Bool)
  | opClose
  | opReap (h : Nat → Nat × Bool)
  | opFiller (d : DialOutcome)

deriving instance DecidableEq for Except

/-- Observable result of one operation. -/
inductive Out where
  | got (r : GetRes)
  | putOut (r : PutRes)
  | unitOut
  | connRes (r : Except Err Conn)
  | closeRes (r : Except Err Unit)
  | reapedOut (n : Nat)
deriving DecidableEq

/-- Execute one operation from a quiescent state. `none` means the
operation does not complete normally (it blocks forever or panics). -/
def step (s : PoolState) : Op → Option (Out × PoolState)
  | Op.opGet c t r h d => (get s c t r h d).map fun p => (Out.got p.1, p.2)
  | Op.opPut cn => (put s cn).map fun p => (Out.putOut p.1, p.2)
  | Op.opRemove cn => (removeOp s cn).map fun s1 => (Out.unitOut, s1)
  | Op.opAsyncRemove cn => (asyncRemove s cn).map fun s1 => (Out.unitOut, s1)
  | Op.opCloseConn cn => (closeConnOp s cn).map fun s1 => (Out.unitOut, s1)
  | Op.opAsyncCloseConn cn => (asyncCloseConn s cn).map fun s1 => (Out.unitOut, s1)
  | Op.opNewConn d => (newConn s false d).map fun p => (Out.connRes p.1, p.2)
  | Op.opFilter pred => (filterOp s pred).map fun p => (Out.closeRes p.1, p.2)
  | Op.opClose => (closePool s).map fun p => (Out.closeRes p.1, p.2)
  | Op.opReap h => (reapOp h s).map fun p => (Out.reapedOut p.1, p.2)
  | Op.opFiller d => (runFiller s d).map fun s1 => (Out.unitOut, s1)

/-- Run a sequence of operations, collecting the outputs. -/
def runOuts (s : PoolState) : List Op → Option (List Out × PoolState)
  | [] => some ([], s)
  | op :: rest =>
    match step s op with
    | none => none
    | some (o, s1) =>
      match runOuts s1 rest with
      | none => none
      | some (os, s2) => some (o :: os, s2)

/-- Run a sequence of operations, keeping only the final state. -/
def runPool (s : PoolState) (ops : List Op) : Option PoolState :=
  (runOuts s ops).map Prod.snd

/-- Ghost bookkeeping for client discipline: which connections are
currently checked out of the pool via `Get`, and which were created ad hoc
via `NewConn`. -/
structure Ghost where
  checkedOut : List Conn
  adHoc : List Conn
deriving DecidableEq

/-- Drop a connection (by id) from a ghost list. -/
def removeGhost (l : List Conn) (cn : Conn) : List Conn :=
  l.filter (fun c => !(c.id == cn.id))

/-- Client discipline: return/removal operations may only target a
connection currently checked out (or created by `NewConn`), and `Filter`
is not used. -/
def wfOp (g : Ghost) : Op → Bool
  | Op.opPut cn => decide (cn ∈ g.checkedOut)
  | Op.opRemove cn => decide (cn ∈ g.checkedOut ∨ cn ∈ g.adHoc)
  | Op.opAsyncRemove cn => decide (cn ∈ g.checkedOut ∨ cn ∈ g.adHoc)
  | Op.opCloseConn cn => decide (cn ∈ g.checkedOut ∨ cn ∈ g.adHoc)
  | Op.opAsyncCloseConn cn => decide (cn ∈ g.checkedOut ∨ cn ∈ g.adHoc)
  | Op.opFilter _ => false
  | _ => true

/-- Ghost update after an operation completes with output `o`. -/
def ghostAfter (g : Ghost) (op : Op) (o : Out) : Ghost :=
  match op, o with
  | Op.opGet _ _ _ _ _, Out.got (GetRes.hitRes cn) =>
    { g with checkedOut := g.checkedOut ++ [cn] }
  | Op.opGet _ _ _ _ _, Out.got (GetRes.missRes cn) =>
    { g with checkedOut := g.checkedOut ++ [cn] }
  | Op.opPut cn, _ => { g with checkedOut := removeGhost g.checkedOut cn }
  | Op.opRemove cn, _ =>
    { checkedOut := removeGhost g.checkedOut cn, adHoc := removeGhost g.adHoc cn }
  | Op.opAsyncRemove cn, _ =>
    { checkedOut := removeGhost g.checkedOut cn, adHoc := removeGhost g.adHoc cn }
  | Op.opCloseConn cn, _ =>
    { checkedOut := removeGhost g.checkedOut cn, adHoc := removeGhost g.adHoc cn }
  | Op.opAsyncCloseConn cn, _ =>
    { checkedOut := removeGhost g.checkedOut cn, adHoc := removeGhost g.adHoc cn }
  | Op.opNewConn _, Out.connRes (Except.ok cn) => { g with adHoc := g.adHoc ++ [cn] }
  | _, _ => g

/-- Run a sequence under the client discipline of `wfOp`. -/
def runWF (s : PoolState) (g : Ghost) : List Op → Option (PoolState × Ghost)
  | [] => some (s, g)
  | op :: rest =>
    if wfOp g op then
      match step s op with
      | none => none
      | some (o, s1) => runWF s1 (ghostAfter g op o) rest
    else none

/-! Frame lemmas: which state components each auxiliary operation leaves
untouched. -/

theorem checkMinIdleConns_frame (s : PoolState) :
    (checkMinIdleConns s).cfg = s.cfg ∧
    (checkMinIdleConns s).closedFlag = s.closedFlag ∧
    (checkMinIdleConns s).nextId = s.nextId ∧
    (checkMinIdleConns s).hits = s.hits ∧
    (checkMinIdleConns s).misses = s.misses ∧
    (checkMinIdleConns s).timeouts = s.timeouts ∧
    (checkMinIdleConns s).staleConns = s.staleConns ∧
    (checkMinIdleConns s).queueLen = s.queueLen ∧
    (checkMinIdleConns s).closeLog = s.closeLog ∧
    (checkMinIdleConns s).conns = s.conns ∧
    (checkMinIdleConns s).idleConns = s.idleConns ∧
    (checkMinIdleConns s).dialErrorsNum = s.dialErrorsNum ∧
    (checkMinIdleConns s).lastDialError = s.lastDialError ∧
    (checkMinIdleConns s).proberSpawns = s.proberSpawns := by
  unfold checkMinIdleConns
  split <;> simp

theorem freeTurn_frame (s s1 : PoolState) (h : freeTurn s = some s1) :
    s1 = { s with queueLen := s.queueLen - 1 } := by
  unfold freeTurn at h
  split at h
  · simp at h
  · simpa using h.symm

theorem getTurn_frame (s s1 : PoolState) (h : getTurn s = some s1) :
    s1 = { s with queueLen := s.queueLen + 1 } := by
  unfold getTurn at h
  split at h
  · simpa using h.symm
  · simp at h

theorem removeConn_frame (s : PoolState) (cn : Conn) (s1 : PoolState)
    (h : removeConn s cn = some s1) :
    s1.cfg = s.cfg ∧
    s1.closedFlag = s.closedFlag ∧
    s1.nextId = s.nextId ∧
    s1.hits = s.hits ∧
    s1.misses = s.misses ∧
    s1.timeouts = s.timeouts ∧
    s1.staleConns = s.staleConns ∧
    s1.queueLen = s.queueLen ∧
    s1.closeLog = s.closeLog ∧
    s1.idleConns = s.idleConns ∧
    s1.dialErrorsNum = s.dialErrorsNum ∧
    s1.lastDialError = s.lastDialError ∧
    s1.proberSpawns = s.proberSpawns := by
  unfold removeConn at h
  split at h
  · simp at h
  · split at h
    · split at h
      · rename_i l heq hl hp
        simp only [Option.some.injEq] at h
        rw [← h]
        obtain ⟨c1, c2, c3, c4, c5, c6, c7, c8, c9, c10, c11, c12, c13, c14⟩ :=
          checkMinIdleConns_frame
            { s with conns := some (removeFirstById l cn.id), poolSize := s.poolSize - 1 }
        exact ⟨c1, c2, c3, c4, c5, c6, c7, c8, c9, c11, c12, c13, c14⟩
      · simp only [Option.some.injEq] at h
        rw [← h]
        simp
    · simp only [Option.some.injEq] at h
      rw [← h]
      simp

/-! Claim C7: `waitTurn` semantics. -/

/-- C7: `waitTurn` fails with the caller's context error — leaving
`stats.timeouts` untouched and consuming no ticket (the state is unchanged)
— exactly when the deadline is already expired on entry or the context
wins the race while waiting; and it fails with `ErrPoolTimeout`, then
incrementing `stats.timeouts` by exactly one and changing nothing else, if
and only if the `PoolTimeout` timer fires first (entry deadline not yet
expired, no free capacity, timer arm wins). -/
theorem waitTurn_ctx_and_timeout (s : PoolState) (cd : Bool) (t : Nat)
    (race : RaceEvent) :
    ((waitTurn s cd t race).1 = Except.error (Err.ctxErr t) ↔
      cd = true ∨ (s.cfg.poolSize ≤ s.queueLen ∧ race = RaceEvent.ctxDone)) ∧
    ((waitTurn s cd t race).1 = Except.error (Err.ctxErr t) →
      (waitTurn s cd t race).2 = s) ∧
    ((waitTurn s cd t race).1 = Except.error Err.errPoolTimeout ↔
      cd = false ∧ s.cfg.poolSize ≤ s.queueLen ∧ race = RaceEvent.timerFired) ∧
    ((waitTurn s cd t race).1 = Except.error Err.errPoolTimeout →
      (waitTurn s cd t race).2 = { s with timeouts := s.timeouts + 1 }) := by
  unfold waitTurn
  cases cd with
  | true => simp
  | false =>
    by_cases hq : s.queueLen < s.cfg.poolSize
    · simp only [hq, if_true, Bool.false_eq_true, if_false]
      refine ⟨?_, ?_, ?_, ?_⟩ <;> simp <;> omega
    · cases race <;>
        simp only [hq, if_false, Bool.false_eq_true] <;>
        refine ⟨?_, ?_, ?_, ?_⟩ <;> simp <;> omega

/-- Fixed concrete pool state with a full admission queue, used to witness
hypothesis-bearing theorems. -/
def fullQueueSt : PoolState :=
  { cfg := { poolFIFO := false, poolSize := 1, minIdleConns := 0,
             maxIdleConns := 0, connMaxIdleTime := 0, connMaxLifetime := 0 },
    dialErrorsNum := 0, lastDialError := none, queueLen := 1,
    conns := some [], idleConns := some [], poolSize := 1, idleConnsLen := 0,
    hits := 0, misses := 0, timeouts := 0, staleConns := 0,
    closedFlag := false, pendingFillers := 0, proberSpawns := 0,
    closeLog := [], nextId := 0 }

/-- Witness for C7 at a concrete full pool: a fired timer charges exactly
one timeout, and a context cancellation changes nothing. -/
theorem waitTurn_ctx_and_timeout_witness :
    (waitTurn fullQueueSt false 5 RaceEvent.timerFired).2 =
      { fullQueueSt with timeouts := fullQueueSt.timeouts + 1 } ∧
    (waitTurn fullQueueSt false 5 RaceEvent.ctxDone).2 = fullQueueSt :=
  ⟨(waitTurn_ctx_and_timeout fullQueueSt false 5 RaceEvent.timerFired).2.2.2 (by decide),
   (waitTurn_ctx_and_timeout fullQueueSt false 5 RaceEvent.ctxDone).2.1 (by decide)⟩

/-! Claim C6: the dial-error circuit and the background prober. -/

theorem tryDial_first_success (t : Nat) (rest : List DialOutcome)
    (fails : List Nat) :
    ∀ s : PoolState, s.closedFlag = false →
      tryDial s (fails.map DialOutcome.fail ++ DialOutcome.ok t :: rest) =
        tryDial s (fails.map DialOutcome.fail ++ [DialOutcome.ok t]) ∧
      (tryDial s (fails.map DialOutcome.fail ++ [DialOutcome.ok t])).dialErrorsNum = 0 ∧
      (tryDial s (fails.map DialOutcome.fail ++ [DialOutcome.ok t])).conns = s.conns ∧
      (tryDial s (fails.map DialOutcome.fail ++ [DialOutcome.ok t])).idleConns = s.idleConns ∧
      (tryDial s (fails.map DialOutcome.fail ++ [DialOutcome.ok t])).closeLog = s.closeLog ∧
      (tryDial s (fails.map DialOutcome.fail ++ [DialOutcome.ok t])).queueLen = s.queueLen ∧
      (tryDial s (fails.map DialOutcome.fail ++ [DialOutcome.ok t])).poolSize = s.poolSize := by
  induction fails with
  | nil =>
    intro s hs
    simp [tryDial, hs]
  | cons e fails ih =>
    intro s hs
    have hstep : ∀ l, tryDial s (DialOutcome.fail e :: l) =
        tryDial { s with lastDialError := some (Err.dialErr e) } l := by
      intro l
      simp [tryDial, hs]
    simpa [hstep] using ih { s with lastDialError := some (Err.dialErr e) } hs

/-- C6: on an open pool below the failure threshold, a dial failure stores
the error and increments `dialErrorsNum` by exactly one, spawning the
background prober exactly when the incremented counter reaches `PoolSize`;
once `dialErrorsNum ≥ PoolSize`, `dialConn` returns the last recorded dial
error without invoking the user dialer and without touching the state; and
the prober, on its first successful probe, resets `dialErrorsNum` to zero,
exits (the remaining outcomes are irrelevant), and does not add the probe
socket to the pool (`conns`, `idleConns`, `closeLog`, `queueLen` and
`poolSize` are untouched). -/
theorem dial_circuit (s : PoolState) (pooled : Bool) (e : Nat)
    (d : DialOutcome) (err : Err) (t : Nat) (rest : List DialOutcome)
    (fails : List Nat) :
    (s.closedFlag = false → s.dialErrorsNum < s.cfg.poolSize →
      dialConn s pooled (DialOutcome.fail e) =
        (Except.error (Err.dialErr e), true,
          { s with lastDialError := some (Err.dialErr e),
                   dialErrorsNum := s.dialErrorsNum + 1,
                   proberSpawns := if s.dialErrorsNum + 1 = s.cfg.poolSize
                     then s.proberSpawns + 1 else s.proberSpawns })) ∧
    (s.closedFlag = false → s.cfg.poolSize ≤ s.dialErrorsNum →
      s.lastDialError = some err →
      dialConn s pooled d = (Except.error err, false, s)) ∧
    (s.closedFlag = false →
      tryDial s (fails.map DialOutcome.fail ++ DialOutcome.ok t :: rest) =
        tryDial s (fails.map DialOutcome.fail ++ [DialOutcome.ok t]) ∧
      (tryDial s (fails.map DialOutcome.fail ++ [DialOutcome.ok t])).dialErrorsNum = 0 ∧
      (tryDial s (fails.map DialOutcome.fail ++ [DialOutcome.ok t])).conns = s.conns ∧
      (tryDial s (fails.map DialOutcome.fail ++ [DialOutcome.ok t])).idleConns = s.idleConns ∧
      (tryDial s (fails.map DialOutcome.fail ++ [DialOutcome.ok t])).closeLog = s.closeLog ∧
      (tryDial s (fails.map DialOutcome.fail ++ [DialOutcome.ok t])).queueLen = s.queueLen ∧
      (tryDial s (fails.map DialOutcome.fail ++ [DialOutcome.ok t])).poolSize = s.poolSize) := by
  refine ⟨?_, ?_, fun hs => tryDial_first_success t rest fails s hs⟩
  · intro hs hlt
    unfold dialConn
    simp only [hs, Bool.false_eq_true, if_false]
    rw [if_neg (by omega)]
    by_cases hb : s.dialErrorsNum + 1 = s.cfg.poolSize <;> simp [hb]
  · intro hs hge hlast
    unfold dialConn getLastDialError
    simp only [hs, Bool.false_eq_true, if_false, hlast]
    rw [if_pos hge]

/-- Concrete pool state with the circuit threshold reached
(`dialErrorsNum = PoolSize = 1`) and a recorded last dial error. -/
def circuitSt : PoolState :=
  { fullQueueSt with dialErrorsNum := 1, lastDialError := some (Err.dialErr 3) }

/-- Witness for C6 at concrete inputs: a pool of size 1 with one recorded
failure short-circuits and spawns the prober on the crossing failure, and
a probe sequence fail-then-success resets the counter. -/
theorem dial_circuit_witness :
    dialConn fullQueueSt true (DialOutcome.fail 3) =
      (Except.error (Err.dialErr 3), true,
        { fullQueueSt with lastDialError := some (Err.dialErr 3),
                           dialErrorsNum := 1, proberSpawns := 1 }) ∧
    dialConn circuitSt true (DialOutcome.ok 9) =
      (Except.error (Err.dialErr 3), false, circuitSt) ∧
    (tryDial circuitSt
        [DialOutcome.fail 4, DialOutcome.ok 9, DialOutcome.fail 5]).dialErrorsNum = 0 := by
  refine ⟨?_, ?_, ?_⟩
  · have h := (dial_circuit fullQueueSt true 3 (DialOutcome.ok 0) Err.nilErr 0 [] []).1
      (by decide) (by decide)
    simpa using h
  · exact (dial_circuit circuitSt true 0 (DialOutcome.ok 9)
      (Err.dialErr 3) 0 [] []).2.1 (by decide) (by decide) (by decide)
  · have h := ((dial_circuit circuitSt true 0 (DialOutcome.ok 9)
      (Err.dialErr 3) 9 [DialOutcome.fail 5] [4]).2.2 (by decide)).1
    have h2 := ((dial_circuit circuitSt true 0 (DialOutcome.ok 9)
      (Err.dialErr 3) 9 [DialOutcome.fail 5] [4]).2.2 (by decide)).2.1
    rw [show [DialOutcome.fail 4, DialOutcome.ok 9, DialOutcome.fail 5] =
        List.map DialOutcome.fail [4] ++ DialOutcome.ok 9 :: [DialOutcome.fail 5]
      from rfl, h]
    exact h2

/-! Claim C8: the `Put` protocol. -/

theorem freeTurn_some (s : PoolState) (hq : s.queueLen ≠ 0) :
    freeTurn s = some { s with queueLen := s.queueLen - 1 } := by
  unfold freeTurn
  rw [if_neg (by simpa using hq)]

theorem removeConn_isSome (s : PoolState) (cn : Conn) (cl : List Conn)
    (hconns : s.conns = some cl) : ∃ s2, removeConn s cn = some s2 := by
  unfold removeConn
  simp only [hconns]
  split
  · split
    · exact ⟨_, rfl⟩
    · exact ⟨_, rfl⟩
  · exact ⟨_, rfl⟩

theorem asyncRemove_spec (s : PoolState) (cn : Conn) (cl : List Conn)
    (hconns : s.conns = some cl) (hq : s.queueLen ≠ 0) :
    ∃ s1, asyncRemove s cn = some s1 ∧
      s1.closeLog = s.closeLog ++ [cn.id] ∧
      s1.queueLen = s.queueLen - 1 ∧
      s1.idleConns = s.idleConns ∧
      s1.staleConns = s.staleConns ∧
      s1.hits = s.hits ∧ s1.misses = s.misses := by
  obtain ⟨s2, hrm⟩ := removeConn_isSome s cn cl hconns
  obtain ⟨f1, f2, f3, f4, f5, f6, f7, f8, f9, f10, f11, f12, f13⟩ :=
    removeConn_frame s cn s2 hrm
  have ha : asyncRemove s cn =
      some (closeConnLog { s2 with queueLen := s2.queueLen - 1 } cn) := by
    unfold asyncRemove
    rw [hrm, Option.some_bind, freeTurn_some s2 (by omega), Option.map_some']
  exact ⟨_, ha, by simp [closeConnLog, f9], by simp [closeConnLog, f8],
    by simp [closeConnLog, f10], by simp [closeConnLog, f7],
    by simp [closeConnLog, f4], by simp [closeConnLog, f5]⟩

theorem asyncRemove_queueLen (s : PoolState) (cn : Conn) (s1 : PoolState)
    (h : asyncRemove s cn = some s1) : s1.queueLen = s.queueLen - 1 := by
  unfold asyncRemove at h
  cases hrm : removeConn s cn with
  | none => rw [hrm] at h; simp at h
  | some s2 =>
    rw [hrm, Option.some_bind] at h
    cases hft : freeTurn s2 with
    | none => rw [hft] at h; simp at h
    | some s3 =>
      rw [hft, Option.map_some'] at h
      have h2 := freeTurn_frame s2 s3 hft
      have h1 := (removeConn_frame s cn s2 hrm).2.2.2.2.2.2.2.1
      simp only [Option.some.injEq] at h
      rw [← h]
      simp [closeConnLog, h2, h1]

/-- C8: for a `Put` on an open registry (both lists live, caller holding a
ticket): a connection with buffered unread input is evicted on the
`BadConn` path (closed, one ticket released); a pooled one with
`MaxIdleConns == 0` or `idleLen < MaxIdleConns` is appended at the tail of
`idleConns` with `idleLen` incremented; a pooled one over the idle cap is
removed from `conns`, `poolSize` is decremented (the min-idle filler may
re-reserve the slot at once, as reflected by the `checkMinIdleConns`
wrapper), and it is closed asynchronously; and every completing `Put`
releases exactly one ticket. -/
theorem put_protocol (s : PoolState) (cn : Conn) (il cl : List Conn)
    (hidle : s.idleConns = some il) (hconns : s.conns = some cl)
    (hq : s.queueLen ≠ 0) :
    (0 < cn.buffered → ∃ s1, put s cn = some (PutRes.evictedBad, s1) ∧
      s1.closeLog = s.closeLog ++ [cn.id] ∧ s1.queueLen = s.queueLen - 1) ∧
    (cn.buffered = 0 → cn.pooled = true →
      (s.cfg.maxIdleConns = 0 ∨ s.idleConnsLen < (s.cfg.maxIdleConns : Int)) →
      put s cn = some (PutRes.idled,
        { s with idleConns := some (il ++ [cn]),
                 idleConnsLen := s.idleConnsLen + 1,
                 queueLen := s.queueLen - 1 })) ∧
    (cn.buffered = 0 → cn.pooled = true → s.cfg.maxIdleConns ≠ 0 →
      (s.cfg.maxIdleConns : Int) ≤ s.idleConnsLen →
      cn.id ∈ cl.map (fun c => c.id) →
      put s cn = some (PutRes.overflowClosed,
        { checkMinIdleConns
            { s with conns := some (removeFirstById cl cn.id),
                     poolSize := s.poolSize - 1 } with
          queueLen := s.queueLen - 1,
          closeLog := s.closeLog ++ [cn.id] })) ∧
    (∀ r s1, put s cn = some (r, s1) → s1.queueLen = s.queueLen - 1) := by
  refine ⟨?_, ?_, ?_, ?_⟩
  · intro hb
    obtain ⟨s1, ha, hlog, hqn, -⟩ := asyncRemove_spec s cn cl hconns hq
    refine ⟨s1, ?_, hlog, hqn⟩
    unfold put
    rw [if_pos hb, ha, Option.map_some']
  · intro hb hp hroom
    unfold put
    rw [if_neg (by omega), hp]
    simp only [hidle, Bool.not_true, Bool.false_eq_true, if_false]
    rw [if_pos (by
      rcases hroom with h0 | hlt
      · exact Or.inl (by simpa using h0)
      · exact Or.inr hlt)]
    rw [freeTurn_some _ (by simpa using hq), Option.map_some']
  · intro hb hp hmax hfull hin
    have hany : (cl.any fun c => c.id == cn.id) = true := by
      simp only [List.any_eq_true, beq_iff_eq]
      simp only [List.mem_map] at hin
      obtain ⟨c, hc, hid⟩ := hin
      exact ⟨c, hc, hid⟩
    unfold put
    rw [if_neg (by omega), hp]
    simp only [hidle, Bool.not_true, Bool.false_eq_true, if_false]
    rw [if_neg (by
      intro hor
      rcases hor with h0 | hlt
      · exact hmax (by simpa using h0)
      · omega)]
    unfold removeConn
    simp only [hconns, hany, if_true, hp]
    rw [Option.some_bind]
    have hfr := checkMinIdleConns_frame
      { s with conns := some (removeFirstById cl cn.id), poolSize := s.poolSize - 1 }
    rw [freeTurn_some _ (by
      have h8 := hfr.2.2.2.2.2.2.2.1
      simp at h8
      omega), Option.map_some']
    simp only [Option.some.injEq, Prod.mk.injEq, closeConnLog]
    refine ⟨trivial, ?_⟩
    have h8 := hfr.2.2.2.2.2.2.2.1
    have h9 := hfr.2.2.2.2.2.2.2.2.1
    simp at h8 h9
    rw [h8, h9, ← hidle]
  · intro r s1 hput
    unfold put at hput
    split at hput
    · cases ha : asyncRemove s cn with
      | none => rw [ha] at hput; simp at hput
      | some s2 =>
        rw [ha, Option.map_some'] at hput
        simp only [Option.some.injEq, Prod.mk.injEq] at hput
        rw [← hput.2]
        exact asyncRemove_queueLen s cn s2 ha
    · split at hput
      · cases ha : asyncRemove s cn with
        | none => rw [ha] at hput; simp at hput
        | some s2 =>
          rw [ha, Option.map_some'] at hput
          simp only [Option.some.injEq, Prod.mk.injEq] at hput
          rw [← hput.2]
          exact asyncRemove_queueLen s cn s2 ha
      · simp only [hidle] at hput
        split at hput
        · cases hft : freeTurn { s with idleConns := some (il ++ [cn]), idleConnsLen := s.idleConnsLen + 1 } with
          | none => rw [hft] at hput; simp at hput
          | some s3 =>
            rw [hft, Option.map_some'] at hput
            simp only [Option.some.injEq, Prod.mk.injEq] at hput
            rw [← hput.2]
            have h2 := freeTurn_frame _ s3 hft
            simp [h2]
        · cases hrm : removeConn s cn with
          | none => rw [hrm] at hput; simp at hput
          | some s2 =>
            rw [hrm, Option.some_bind] at hput
            cases hft : freeTurn s2 with
            | none => rw [hft] at hput; simp at hput
            | some s3 =>
              rw [hft, Option.map_some'] at hput
              simp only [Option.some.injEq, Prod.mk.injEq] at hput
              rw [← hput.2]
              have h2 := freeTurn_frame s2 s3 hft
              have h1 := (removeConn_frame s cn s2 hrm).2.2.2.2.2.2.2.1
              simp [closeConnLog, h2, h1]

/-- Concrete pooled connection without buffered input. -/
def pcn : Conn := { id := 70, createdAt := 0, usedAt := 0, pooled := true, buffered := 0 }

/-- Second concrete pooled connection. -/
def pcn2 : Conn := { id := 71, createdAt := 0, usedAt := 0, pooled := true, buffered := 0 }

/-- Concrete pool at the idle cap, with `pcn` checked out and `pcn2` idle. -/
def putSt : PoolState :=
  { fullQueueSt with
    conns := some [pcn, pcn2], idleConns := some [pcn2], idleConnsLen := 1,
    poolSize := 2, cfg := { fullQueueSt.cfg with maxIdleConns := 1 } }

/-- Witness for C8: on a concrete pool at the idle cap, putting back a
pooled buffered-free connection removes it from `conns`, closes it, and
releases the ticket. -/
theorem put_protocol_witness :
    put putSt pcn =
      some (PutRes.overflowClosed,
        { putSt with conns := some [pcn2], poolSize := 1, queueLen := 0,
                     closeLog := [70] }) := by
  have h := (put_protocol putSt pcn [pcn2] [pcn, pcn2]
      rfl rfl (by decide)).2.2.1
      (by decide) (by decide) (by decide) (by decide) (by decide)
  rw [h]
  decide

/-! Lemmas about `popIdle`, `asyncCloseConn` and the idle-candidate loop. -/

theorem popIdle_frame (s s1 : PoolState) (cn : Conn)
    (h : popIdle s = some (Except.ok (some cn), s1)) :
    s1.cfg = s.cfg ∧ s1.closedFlag = s.closedFlag ∧ s1.queueLen = s.queueLen ∧
    s1.hits = s.hits ∧ s1.misses = s.misses ∧ s1.timeouts = s.timeouts ∧
    s1.staleConns = s.staleConns ∧ s1.nextId = s.nextId ∧
    s1.conns = s.conns ∧ s1.closeLog = s.closeLog ∧
    s1.dialErrorsNum = s.dialErrorsNum ∧ s1.lastDialError = s.lastDialError ∧
    s1.proberSpawns = s.proberSpawns := by
  unfold popIdle at h
  split at h
  · simp at h
  · split at h
    · simp at h
    · simp at h
    · rename_i c rest heq
      simp only [Option.some.injEq, Prod.mk.injEq, Except.ok.injEq] at h
      rcases h with ⟨-, h2⟩
      rw [← h2]
      rename_i hcl x
      obtain ⟨c1, c2, c3, c4, c5, c6, c7, c8, c9, c10, c11, c12, c13, c14⟩ :=
        checkMinIdleConns_frame
          { s with idleConns := some (if s.cfg.poolFIFO then rest else (c :: rest).dropLast),
                   idleConnsLen := s.idleConnsLen - 1 }
      exact ⟨c1, c2, c8, c4, c5, c6, c7, c3, c10, c9, c12, c13, c14⟩

theorem popIdle_error (s s1 : PoolState) (e : Err)
    (h : popIdle s = some (Except.error e, s1)) :
    s1 = s ∧ e = Err.errClosed ∧ s.closedFlag = true := by
  unfold popIdle at h
  split at h
  · rename_i hcl
    simp only [Option.some.injEq, Prod.mk.injEq, Except.error.injEq] at h
    exact ⟨h.2.symm, h.1.symm, hcl⟩
  · split at h <;> simp at h

theorem asyncCloseConn_spec (s : PoolState) (cn : Conn) (s1 : PoolState)
    (h : asyncCloseConn s cn = some s1) :
    s1.staleConns = s.staleConns + 1 ∧ s1.queueLen = s.queueLen ∧
    s1.closeLog = s.closeLog ++ [cn.id] ∧ s1.hits = s.hits ∧
    s1.misses = s.misses ∧ s1.timeouts = s.timeouts ∧
    s1.idleConns = s.idleConns ∧ s1.cfg = s.cfg ∧
    s1.closedFlag = s.closedFlag ∧ s1.nextId = s.nextId := by
  unfold asyncCloseConn at h
  cases hrm : removeConn s cn with
  | none => rw [hrm] at h; simp at h
  | some s2 =>
    rw [hrm, Option.map_some'] at h
    obtain ⟨f1, f2, f3, f4, f5, f6, f7, f8, f9, f10, f11, f12, f13⟩ :=
      removeConn_frame s cn s2 hrm
    simp only [Option.some.injEq] at h
    rw [← h]
    simp [closeConnLog, f1, f2, f3, f4, f5, f6, f7, f8, f9, f10]

/-- Bookkeeping effects of the idle-candidate loop: configuration, closed
flag, queue occupancy, misses, timeouts and `nextId` untouched; hits
incremented exactly on a healthy find; `StaleConns` incremented once per
evicted unhealthy candidate. -/
theorem getLoop_effects (h : Nat → Nat × Bool) (fuel : Nat) :
    ∀ (s : PoolState) (k i : Nat) (st : LoopStats) (res : LoopRes)
      (s1 : PoolState) (st1 : LoopStats),
      getLoop h fuel s k i st = some (res, s1, st1) →
      s1.cfg = s.cfg ∧ s1.closedFlag = s.closedFlag ∧
      s1.queueLen = s.queueLen ∧ s1.misses = s.misses ∧
      s1.nextId = s.nextId ∧ s1.timeouts = s.timeouts ∧
      s1.hits = s.hits + (match res with | LoopRes.found _ => 1 | _ => 0) ∧
      s1.staleConns + st.evicted = s.staleConns + st1.evicted := by
  induction fuel with
  | zero => intro s k i st res s1 st1 hl; simp [getLoop] at hl
  | succ fuel ih =>
    intro s k i st res s1 st1 hl
    unfold getLoop at hl
    split at hl
    · simp at hl
    · rename_i e s2 hp
      simp only [Option.some.injEq, Prod.mk.injEq] at hl
      obtain ⟨he, hs, hst⟩ := hl
      obtain ⟨h2, -⟩ := popIdle_error s s2 e hp
      subst h2
      rw [← hs, ← hst, ← he]
      simp
    · rename_i s2 hp
      have h2 := popIdle_ok_none s s2 hp
      rw [h2] at hl
      split at hl
      · simp only [Option.some.injEq, Prod.mk.injEq] at hl
        obtain ⟨he, hs, hst⟩ := hl
        rw [← hs, ← hst, ← he]
        simp
      · have := ih s (k + 1) (i + 1) _ res s1 st1 hl
        simpa using this
    · rename_i cn s2 hp
      obtain ⟨p1, p2, p3, p4, p5, p6, p7, p8, p9, p10, p11, p12, p13⟩ :=
        popIdle_frame s s2 cn hp
      split at hl
      · rename_i cn2 hh
        simp only [Option.some.injEq, Prod.mk.injEq] at hl
        obtain ⟨he, hs, hst⟩ := hl
        rw [← hs, ← hst, ← he]
        simp [p1, p2, p3, p4, p5, p6, p7, p8]
      · rename_i hh
        split at hl
        · simp at hl
        · rename_i s3 hac
          obtain ⟨a1, a2, a3, a4, a5, a6, a7, a8, a9, a10⟩ :=
            asyncCloseConn_spec s2 cn s3 hac
          have := ih s3 (k + 1) i _ res s1 st1 hl
          obtain ⟨q1, q2, q3, q4, q5, q6, q7, q8⟩ := this
          refine ⟨by rw [q1, a8, p1], by rw [q2, a9, p2], by rw [q3, a2, p3],
            by rw [q4, a5, p5], by rw [q5, a10, p8], by rw [q6, a6, p6],
            by rw [q7, a4, p4], ?_⟩
          simp only [LoopStats] at q8 ⊢
          omega

/-- Pop accounting for the idle-candidate loop: every pop is an empty pop,
an eviction, or the terminal (found / error) pop; at most `3 - i` empty
pops happen; falling through to the miss path takes exactly `3 - i` empty
pops; and evictions (plus a found pop) consume idle-list elements. -/
theorem getLoop_counts (h : Nat → Nat × Bool) (fuel : Nat) :
    ∀ (s : PoolState) (k i : Nat) (st : LoopStats) (res : LoopRes)
      (s1 : PoolState) (st1 : LoopStats),
      i < 3 →
      getLoop h fuel s k i st = some (res, s1, st1) →
      (st1.pops + st.empties + st.evicted = st.pops + st1.empties + st1.evicted +
        (match res with | LoopRes.broke => 0 | _ => 1)) ∧
      (st.empties ≤ st1.empties ∧ st1.empties ≤ st.empties + (3 - i)) ∧
      (res = LoopRes.broke → st1.empties = st.empties + (3 - i)) ∧
      (st1.evicted + (match res with | LoopRes.found _ => 1 | _ => 0) ≤
        st.evicted + idleLenList s) := by
  induction fuel with
  | zero => intro s k i st res s1 st1 hi hl; simp [getLoop] at hl
  | succ fuel ih =>
    intro s k i st res s1 st1 hi hl
    unfold getLoop at hl
    split at hl
    · simp at hl
    · rename_i e s2 hp
      simp only [Option.some.injEq, Prod.mk.injEq] at hl
      obtain ⟨he, hs, hst⟩ := hl
      rw [← hst, ← he]
      refine ⟨?_, ?_, ?_, ?_⟩ <;> (try simp) <;> omega
    · rename_i s2 hp
      have h2 := popIdle_ok_none s s2 hp
      rw [h2] at hl
      split at hl
      · rename_i hbr
        simp only [Option.some.injEq, Prod.mk.injEq] at hl
        obtain ⟨he, hs, hst⟩ := hl
        rw [← hst, ← he]
        refine ⟨?_, ?_, ?_, ?_⟩ <;> (try simp) <;> omega
      · rename_i hbr
        have hi2 : i + 1 < 3 := by omega
        obtain ⟨q1, q2, q3, q4⟩ := ih s (k + 1) (i + 1) _ res s1 st1 hi2 hl
        simp at q1 q2 q4
        refine ⟨by omega, by omega, ?_, by omega⟩
        intro he
        have q5 := q3 he
        simp at q5
        omega
    · rename_i cn s2 hp
      have hlen := popIdle_ok_some s s2 cn hp
      split at hl
      · rename_i cn2 hh
        simp only [Option.some.injEq, Prod.mk.injEq] at hl
        obtain ⟨he, hs, hst⟩ := hl
        rw [← hst, ← he]
        refine ⟨?_, ?_, ?_, ?_⟩ <;> (try simp) <;> omega
      · rename_i hh
        split at hl
        · simp at hl
        · rename_i s3 hac
          have hidle3 : idleLenList s3 = idleLenList s2 := by
            unfold idleLenList
            rw [(asyncCloseConn_spec s2 cn s3 hac).2.2.2.2.2.2.1]
          obtain ⟨q1, q2, q3, q4⟩ := ih s3 (k + 1) i _ res s1 st1 hi hl
          simp at q1 q2 q4
          refine ⟨by omega, by omega, ?_, by omega⟩
          intro he
          have q5 := q3 he
          simp at q5
          omega

/-! Claim C10: `AsyncCloseConn` and the `StaleConns` accounting. -/

theorem reapStaleConn_frame (s : PoolState) (now : Nat) (ck : Bool)
    (o : Option Conn) (s1 : PoolState)
    (h : reapStaleConn s now ck = some (o, s1)) :
    s1.staleConns = s.staleConns ∧ s1.closeLog = s.closeLog ∧
    s1.hits = s.hits ∧ s1.misses = s.misses ∧ s1.cfg = s.cfg ∧
    s1.closedFlag = s.closedFlag ∧ s1.nextId = s.nextId ∧
    s1.queueLen = s.queueLen ∧ s1.timeouts = s.timeouts := by
  unfold reapStaleConn at h
  split at h
  · simp at h
  · simp only [Option.some.injEq, Prod.mk.injEq] at h
    rw [← h.2]
    simp
  · rename_i c rest heq
    split at h
    · cases hrm : removeConn
          { s with idleConns := some rest, idleConnsLen := s.idleConnsLen - 1 } c with
      | none => rw [hrm] at h; simp at h
      | some s2 =>
        rw [hrm, Option.map_some'] at h
        simp only [Option.some.injEq, Prod.mk.injEq] at h
        obtain ⟨f1, f2, f3, f4, f5, f6, f7, f8, f9, f10, f11, f12, f13⟩ :=
          removeConn_frame _ c s2 hrm
        rw [← h.2]
        simp only at f1 f2 f3 f4 f5 f6 f7 f8 f9 ⊢
        exact ⟨f7, f9, f4, f5, f1, f2, f3, f8, f6⟩
    · simp only [Option.some.injEq, Prod.mk.injEq] at h
      rw [← h.2]
      simp

theorem reapLoop_staleConns (h : Nat → Nat × Bool) (fuel : Nat) :
    ∀ (s : PoolState) (k n m : Nat) (s1 : PoolState),
      reapLoop h fuel s k n = some (m, s1) →
      s1.staleConns = s.staleConns := by
  induction fuel with
  | zero => intro s k n m s1 hl; simp [reapLoop] at hl
  | succ fuel ih =>
    intro s k n m s1 hl
    unfold reapLoop at hl
    split at hl
    · simp at hl
    · rename_i s2 hg
      have hg2 := getTurn_frame s s2 hg
      split at hl
      · simp at hl
      · rename_i s3 hr
        split at hl
        · simp at hl
        · rename_i s4 hf
          simp only [Option.some.injEq, Prod.mk.injEq] at hl
          have hr2 := (reapStaleConn_frame s2 _ _ _ s3 hr).1
          have hf2 := freeTurn_frame s3 s4 hf
          rw [← hl.2, hf2, hr2, hg2]
      · rename_i cn s3 hr
        split at hl
        · simp at hl
        · rename_i s4 hf
          have := ih (closeConnLog s4 cn) (k + 1) (n + 1) m s1 hl
          have hr2 := (reapStaleConn_frame s2 _ _ _ s3 hr).1
          have hf2 := freeTurn_frame s3 s4 hf
          rw [this]
          simp [closeConnLog, hf2, hr2, hg2]

/-- C10: `AsyncCloseConn` increments `stats.StaleConns` by exactly one and
leaves the admission channel untouched (the caller's ticket is not
released); hence the health-eviction path of `Get` raises `StaleConns` by
one per evicted candidate while leaving the queue unchanged, adding to the
counts contributed by `CloseConn` (one per call) and the reaper (one per
reaped connection). -/
theorem asyncCloseConn_stale_accounting :
    (∀ (s : PoolState) (cn : Conn) (s1 : PoolState),
      asyncCloseConn s cn = some s1 →
      s1.staleConns = s.staleConns + 1 ∧ s1.queueLen = s.queueLen) ∧
    (∀ (h : Nat → Nat × Bool) (fuel : Nat) (s : PoolState) (k i : Nat)
      (st : LoopStats) (res : LoopRes) (s1 : PoolState) (st1 : LoopStats),
      getLoop h fuel s k i st = some (res, s1, st1) →
      s1.staleConns + st.evicted = s.staleConns + st1.evicted ∧
      s1.queueLen = s.queueLen) ∧
    (∀ (s : PoolState) (cn : Conn) (s1 : PoolState),
      closeConnOp s cn = some s1 →
      s1.staleConns = s.staleConns + 1 ∧ s1.queueLen = s.queueLen) ∧
    (∀ (h : Nat → Nat × Bool) (s : PoolState) (n : Nat) (s1 : PoolState),
      reapOp h s = some (n, s1) → s1.staleConns = s.staleConns + n) := by
  refine ⟨?_, ?_, ?_, ?_⟩
  · intro s cn s1 hac
    obtain ⟨a1, a2, -⟩ := asyncCloseConn_spec s cn s1 hac
    exact ⟨a1, a2⟩
  · intro h fuel s k i st res s1 st1 hl
    obtain ⟨-, -, q3, -, -, -, -, q8⟩ := getLoop_effects h fuel s k i st res s1 st1 hl
    exact ⟨q8, q3⟩
  · intro s cn s1 hcc
    unfold closeConnOp at hcc
    cases hrm : removeConn s cn with
    | none => rw [hrm] at hcc; simp at hcc
    | some s2 =>
      rw [hrm, Option.map_some'] at hcc
      obtain ⟨f1, f2, f3, f4, f5, f6, f7, f8, f9, f10, f11, f12, f13⟩ :=
        removeConn_frame s cn s2 hrm
      simp only [Option.some.injEq] at hcc
      rw [← hcc]
      simp [closeConnLog, f7, f8]
  · intro h s n s1 hro
    unfold reapOp at hro
    cases hrl : reapLoop h (idleLenList s + 1) s 0 0 with
    | none => rw [hrl] at hro; simp at hro
    | some r =>
      rw [hrl, Option.map_some'] at hro
      simp only [Option.some.injEq, Prod.mk.injEq] at hro
      have := reapLoop_staleConns h (idleLenList s + 1) s 0 0 r.1 r.2 (by
        rw [hrl])
      rw [← hro.2]
      simp only
      rw [this, hro.1]

/-- State of `putSt` after `AsyncCloseConn` evicts `pcn`. -/
def evictedSt : PoolState :=
  { putSt with
    conns := some [pcn2], poolSize := 1, staleConns := 1, closeLog := [70] }

/-- Witness for C10: evicting the concrete connection `pcn` from `putSt`
bumps `StaleConns` to one and keeps the single queued ticket. -/
theorem asyncCloseConn_stale_accounting_witness :
    evictedSt.staleConns = putSt.staleConns + 1 ∧
    evictedSt.queueLen = putSt.queueLen :=
  asyncCloseConn_stale_accounting.1 putSt pcn evictedSt (by decide)

/-! Claim C9: over-capacity `newConn` attaches an unpooled connection. -/

theorem checkMinLoop_le (cfg : Options) (fuel : Nat) :
    ∀ (ps il : Int) (pend : Nat),
      (checkMinLoop cfg fuel ps il pend).1 ≤ max ps (cfg.poolSize : Int) ∧
      (checkMinLoop cfg fuel ps il pend).2.1 ≤ max il (cfg.minIdleConns : Int) := by
  induction fuel with
  | zero => intro ps il pend; simp [checkMinLoop]
  | succ fuel ih =>
    intro ps il pend
    unfold checkMinLoop
    split
    · rename_i hc
      obtain ⟨i1, i2⟩ := ih (ps + 1) (il + 1) (pend + 1)
      constructor
      · calc (checkMinLoop cfg fuel (ps + 1) (il + 1) (pend + 1)).1 ≤
            max (ps + 1) (cfg.poolSize : Int) := i1
          _ ≤ max ps (cfg.poolSize : Int) := by omega
      · calc (checkMinLoop cfg fuel (ps + 1) (il + 1) (pend + 1)).2.1 ≤
            max (il + 1) (cfg.minIdleConns : Int) := i2
          _ ≤ max il (cfg.minIdleConns : Int) := by omega
    · simp

theorem checkMinIdleConns_le (s : PoolState) :
    (checkMinIdleConns s).poolSize ≤ max s.poolSize (s.cfg.poolSize : Int) ∧
    (checkMinIdleConns s).idleConnsLen ≤
      max s.idleConnsLen (s.cfg.minIdleConns : Int) := by
  unfold checkMinIdleConns
  split
  · constructor <;> simp
  · obtain ⟨i1, i2⟩ := checkMinLoop_le s.cfg
      ((s.cfg.minIdleConns : Int) - s.idleConnsLen).toNat s.poolSize
      s.idleConnsLen s.pendingFillers
    exact ⟨i1, i2⟩

theorem removeConn_poolSize_le (s : PoolState) (cn : Conn) (s1 : PoolState)
    (h : removeConn s cn = some s1) :
    s1.poolSize ≤ max s.poolSize (s.cfg.poolSize : Int) := by
  unfold removeConn at h
  split at h
  · simp at h
  · split at h
    · split at h
      · rename_i l heq hl hp
        simp only [Option.some.injEq] at h
        rw [← h]
        have := (checkMinIdleConns_le
          { s with conns := some (removeFirstById l cn.id),
                   poolSize := s.poolSize - 1 }).1
        simp only at this
        omega
      · simp only [Option.some.injEq] at h
        rw [← h]
        simp
    · simp only [Option.some.injEq] at h
      rw [← h]
      simp

theorem popIdle_poolSize_le (s : PoolState) (r : Except Err (Option Conn))
    (s1 : PoolState) (h : popIdle s = some (r, s1)) :
    s1.poolSize ≤ max s.poolSize (s.cfg.poolSize : Int) := by
  unfold popIdle at h
  split at h
  · simp only [Option.some.injEq, Prod.mk.injEq] at h
    rw [← h.2]
    simp
  · split at h
    · simp at h
    · simp only [Option.some.injEq, Prod.mk.injEq] at h
      rw [← h.2]
      simp
    · rename_i c rest heq
      simp only [Option.some.injEq, Prod.mk.injEq] at h
      rw [← h.2]
      have := (checkMinIdleConns_le
        { s with idleConns := some (if s.cfg.poolFIFO then rest else (c :: rest).dropLast),
                 idleConnsLen := s.idleConnsLen - 1 }).1
      simp only at this
      omega

theorem asyncCloseConn_poolSize_le (s : PoolState) (cn : Conn) (s1 : PoolState)
    (h : asyncCloseConn s cn = some s1) :
    s1.poolSize ≤ max s.poolSize (s.cfg.poolSize : Int) := by
  unfold asyncCloseConn at h
  cases hrm : removeConn s cn with
  | none => rw [hrm] at h; simp at h
  | some s2 =>
    rw [hrm, Option.map_some'] at h
    simp only [Option.some.injEq] at h
    rw [← h]
    have := removeConn_poolSize_le s cn s2 hrm
    simp only [closeConnLog]
    omega

theorem getLoop_poolSize_le (h : Nat → Nat × Bool) (fuel : Nat) :
    ∀ (s : PoolState) (k i : Nat) (st : LoopStats) (res : LoopRes)
      (s1 : PoolState) (st1 : LoopStats),
      getLoop h fuel s k i st = some (res, s1, st1) →
      s1.poolSize ≤ max s.poolSize (s.cfg.poolSize : Int) := by
  induction fuel with
  | zero => intro s k i st res s1 st1 hl; simp [getLoop] at hl
  | succ fuel ih =>
    intro s k i st res s1 st1 hl
    unfold getLoop at hl
    split at hl
    · simp at hl
    · rename_i e s2 hp
      simp only [Option.some.injEq, Prod.mk.injEq] at hl
      obtain ⟨-, hs, -⟩ := hl
      obtain ⟨h2, -⟩ := popIdle_error s s2 e hp
      rw [← hs, h2]
      simp
    · rename_i s2 hp
      have h2 := popIdle_ok_none s s2 hp
      rw [h2] at hl
      split at hl
      · simp only [Option.some.injEq, Prod.mk.injEq] at hl
        obtain ⟨-, hs, -⟩ := hl
        rw [← hs]
        simp
      · exact ih s (k + 1) (i + 1) _ res s1 st1 hl
    · rename_i cn s2 hp
      have hps := popIdle_poolSize_le s _ s2 hp
      have hcfg := (popIdle_frame s s2 cn hp).1
      split at hl
      · rename_i cn2 hh
        simp only [Option.some.injEq, Prod.mk.injEq] at hl
        obtain ⟨-, hs, -⟩ := hl
        rw [← hs]
        simp only
        omega
      · rename_i hh
        split at hl
        · simp at hl
        · rename_i s3 hac
          have ha := asyncCloseConn_poolSize_le s2 cn s3 hac
          have hacfg := (asyncCloseConn_spec s2 cn s3 hac).2.2.2.2.2.2.2.1
          have := ih s3 (k + 1) i _ res s1 st1 hl
          have hcfg3 : s3.cfg = s.cfg := by rw [hacfg, hcfg]
          rw [hcfg3] at this
          rw [hcfg] at ha
          omega

theorem waitTurn_pool_frame (s : PoolState) (cd : Bool) (t : Nat)
    (race : RaceEvent) :
    (waitTurn s cd t race).2.poolSize = s.poolSize ∧
    (waitTurn s cd t race).2.cfg = s.cfg ∧
    (waitTurn s cd t race).2.conns = s.conns ∧
    (waitTurn s cd t race).2.idleConns = s.idleConns ∧
    (waitTurn s cd t race).2.idleConnsLen = s.idleConnsLen ∧
    (waitTurn s cd t race).2.closeLog = s.closeLog ∧
    (waitTurn s cd t race).2.closedFlag = s.closedFlag ∧
    (waitTurn s cd t race).2.hits = s.hits ∧
    (waitTurn s cd t race).2.misses = s.misses ∧
    (waitTurn s cd t race).2.nextId = s.nextId ∧
    (waitTurn s cd t race).2.staleConns = s.staleConns := by
  unfold waitTurn
  split
  · simp
  · split
    · simp
    · split <;> simp

theorem dialConn_pool_frame (s : PoolState) (pooled : Bool) (d : DialOutcome)
    (rr : Except Err Conn) (b : Bool) (s2 : PoolState)
    (h : dialConn s pooled d = (rr, b, s2)) :
    s2.poolSize = s.poolSize ∧ s2.cfg = s.cfg ∧ s2.conns = s.conns ∧
    s2.idleConns = s.idleConns ∧ s2.idleConnsLen = s.idleConnsLen ∧
    s2.closedFlag = s.closedFlag ∧ s2.queueLen = s.queueLen ∧
    s2.hits = s.hits ∧ s2.misses = s.misses ∧ s2.closeLog = s.closeLog ∧
    s2.staleConns = s.staleConns ∧ s2.timeouts = s.timeouts ∧
    s2.pendingFillers = s.pendingFillers := by
  unfold dialConn at h
  split at h
  · simp only [Prod.mk.injEq] at h; rw [← h.2.2]; simp
  · split at h
    · simp only [Prod.mk.injEq] at h; rw [← h.2.2]; simp
    · split at h
      · simp only [Prod.mk.injEq] at h; rw [← h.2.2]; simp
      · simp only [Prod.mk.injEq] at h; rw [← h.2.2]; simp

theorem newConn_poolSize_le (s : PoolState) (pooled : Bool) (d : DialOutcome)
    (r : Except Err Conn) (s1 : PoolState)
    (h : newConn s pooled d = some (r, s1)) :
    s1.poolSize ≤ max s.poolSize (s.cfg.poolSize : Int) := by
  unfold newConn at h
  split at h
  · rename_i e b s2 heq
    obtain ⟨d1, -⟩ := dialConn_pool_frame s pooled d _ _ s2 heq
    simp only [Option.some.injEq, Prod.mk.injEq] at h
    rw [← h.2, d1]
    simp
  · rename_i cn b s2 heq
    obtain ⟨d1, d2, -⟩ := dialConn_pool_frame s pooled d _ _ s2 heq
    split at h
    · simp only [Option.some.injEq, Prod.mk.injEq] at h
      rw [← h.2]
      simp only [closeConnLog]
      omega
    · split at h
      · simp at h
      · split at h
        · split at h
          · simp only [Option.some.injEq, Prod.mk.injEq] at h
            rw [← h.2]
            simp only
            omega
          · rename_i hlt
            simp only [Option.some.injEq, Prod.mk.injEq] at h
            rw [← h.2]
            simp only
            rw [d2] at hlt
            omega
        · simp only [Option.some.injEq, Prod.mk.injEq] at h
          rw [← h.2]
          simp only
          omega

/-- The connection attached by an over-capacity pooled `newConn`. -/
def overflowConn (s : PoolState) (now : Nat) : Conn :=
  { id := s.nextId, createdAt := now, usedAt := now, pooled := false, buffered := 0 }

/-- C9: when `newConn` runs with `pooled = true` but the pool is already at
`poolSize ≥ PoolSize`, the fresh connection is attached to `conns` with
`pooled` cleared and `poolSize` not incremented; consequently a completing
`Get` never raises `poolSize` above `PoolSize`; and on its next `Put` such
a connection is closed (async eviction) rather than appended to the idle
list. -/
theorem newConn_overflow_unpooled (s : PoolState) (now : Nat) (cl : List Conn)
    (cd : Bool) (t : Nat) (race : RaceEvent) (h : Nat → Nat × Bool)
    (d : DialOutcome) (cn : Conn) :
    (s.closedFlag = false → s.conns = some cl →
      s.dialErrorsNum < s.cfg.poolSize → (s.cfg.poolSize : Int) ≤ s.poolSize →
      newConn s true (DialOutcome.ok now) = some (Except.ok (overflowConn s now),
        { s with conns := some (cl ++ [overflowConn s now]),
                 nextId := s.nextId + 1 })) ∧
    (∀ r s1, get s cd t race h d = some (r, s1) →
      s.poolSize ≤ (s.cfg.poolSize : Int) → s1.poolSize ≤ (s.cfg.poolSize : Int)) ∧
    (cn.pooled = false → cn.buffered = 0 → s.conns = some cl →
      s.queueLen ≠ 0 →
      ∃ s1, put s cn = some (PutRes.evictedNonPooled, s1) ∧
        s1.closeLog = s.closeLog ++ [cn.id] ∧ s1.idleConns = s.idleConns) := by
  refine ⟨?_, ?_, ?_⟩
  · intro hop hc hd hfull
    unfold newConn dialConn
    simp only [hop, Bool.false_eq_true, if_false]
    rw [if_neg (by omega)]
    simp only [hop, Bool.false_eq_true, if_false, hc]
    rw [if_pos hfull]
    rfl
  · intro r s1 hg hle
    unfold get at hg
    split at hg
    · simp only [Option.some.injEq, Prod.mk.injEq] at hg
      rw [← hg.2]
      exact hle
    · rename_i hop
      obtain ⟨w1, w2, -⟩ := waitTurn_pool_frame s cd t race
      split at hg
      · rename_i e s2 hw
        simp only [Option.some.injEq, Prod.mk.injEq] at hg
        rw [← hg.2]
        have : s2 = (waitTurn s cd t race).2 := by rw [hw]
        rw [this, w1]
        exact hle
      · rename_i u s2 hw
        have hs2 : s2 = (waitTurn s cd t race).2 := by rw [hw]
        have hps2 : s2.poolSize = s.poolSize := by rw [hs2, w1]
        have hcfg2 : s2.cfg = s.cfg := by rw [hs2, w2]
        split at hg
        · simp at hg
        · rename_i e s3 st3 hl
          have := getLoop_poolSize_le h _ s2 0 0 _ _ s3 st3 hl
          simp only [Option.some.injEq, Prod.mk.injEq] at hg
          rw [← hg.2]
          rw [hps2, hcfg2] at this
          omega
        · rename_i cnf s3 st3 hl
          have := getLoop_poolSize_le h _ s2 0 0 _ _ _ st3 hl
          simp only [Option.some.injEq, Prod.mk.injEq] at hg
          rw [← hg.2]
          rw [hps2, hcfg2] at this
          simp at this
          omega
        · rename_i s3 st3 hl
          have hl2 := getLoop_poolSize_le h _ s2 0 0 _ _ s3 st3 hl
          have hlcfg := (getLoop_effects h _ s2 0 0 _ _ s3 st3 hl).1
          rw [hps2, hcfg2] at hl2
          have hcfg3 : s3.cfg = s.cfg := by rw [hlcfg, hcfg2]
          split at hg
          · simp at hg
          · rename_i e s4 hn
            have hn2 : newConn { s3 with misses := s3.misses + 1 } true d =
                some (Except.error e, s4) := hn
            have := newConn_poolSize_le _ true d _ s4 hn2
            simp at this
            rw [hcfg3] at this
            cases hft : freeTurn s4 with
            | none => rw [hft] at hg; simp at hg
            | some s5 =>
              rw [hft, Option.map_some'] at hg
              simp only [Option.some.injEq, Prod.mk.injEq] at hg
              have hf2 := freeTurn_frame s4 s5 hft
              rw [← hg.2, hf2]
              simp
              omega
          · rename_i cnn s4 hn
            have := newConn_poolSize_le _ true d _ s4 hn
            simp at this
            rw [hcfg3] at this
            simp only [Option.some.injEq, Prod.mk.injEq] at hg
            rw [← hg.2]
            omega
  · intro hnp hnb hc hq
    obtain ⟨s1, ha, hlog, hqn, hidle, -⟩ := asyncRemove_spec s cn cl hc hq
    refine ⟨s1, ?_, hlog, hidle⟩
    unfold put
    rw [if_neg (by omega), hnp]
    simp only [Bool.not_false, if_true, ha, Option.map_some']

/-- Witness for C9 at a concrete full pool (PoolSize 1, poolSize 1): the
over-capacity `newConn` attaches id 0 with `pooled = false`. -/
theorem newConn_overflow_unpooled_witness :
    newConn fullQueueSt true (DialOutcome.ok 4) =
      some (Except.ok (overflowConn fullQueueSt 4),
        { fullQueueSt with conns := some ([] ++ [overflowConn fullQueueSt 4]),
                           nextId := 1 }) ∧
    (overflowConn fullQueueSt 4).pooled = false :=
  ⟨(newConn_overflow_unpooled fullQueueSt 4 [] false 0 RaceEvent.ctxDone
      (fun _ => (0, true)) (DialOutcome.ok 4) pcn).1
      (by decide) (by decide) (by decide) (by decide),
   by decide⟩

/-! Claim C2: the attempt budget of the idle-candidate loop in `Get`. -/

theorem getLoop_open_no_error (h : Nat → Nat × Bool) (fuel : Nat) :
    ∀ (s : PoolState) (k i : Nat) (st : LoopStats) (res : LoopRes)
      (s1 : PoolState) (st1 : LoopStats) (e : Err),
      s.closedFlag = false →
      getLoop h fuel s k i st = some (res, s1, st1) →
      res ≠ LoopRes.errRes e := by
  induction fuel with
  | zero => intro s k i st res s1 st1 e hop hl; simp [getLoop] at hl
  | succ fuel ih =>
    intro s k i st res s1 st1 e hop hl
    unfold getLoop at hl
    split at hl
    · simp at hl
    · rename_i e2 s2 hp
      obtain ⟨-, -, hcl⟩ := popIdle_error s s2 e2 hp
      rw [hop] at hcl
      cases hcl
    · rename_i s2 hp
      have h2 := popIdle_ok_none s s2 hp
      rw [h2] at hl
      split at hl
      · simp only [Option.some.injEq, Prod.mk.injEq] at hl
        rw [← hl.1]
        simp
      · exact ih s (k + 1) (i + 1) _ res s1 st1 e hop hl
    · rename_i cn s2 hp
      have hcl2 := (popIdle_frame s s2 cn hp).2.1
      split at hl
      · simp only [Option.some.injEq, Prod.mk.injEq] at hl
        rw [← hl.1]
        simp
      · split at hl
        · simp at hl
        · rename_i s3 hac
          have hcl3 := (asyncCloseConn_spec s2 cn s3 hac).2.2.2.2.2.2.2.2.1
          exact ih s3 (k + 1) i _ res s1 st1 e (by rw [hcl3, hcl2, hop]) hl

/-- Concrete open pool holding exactly one idle connection that will fail
its health probe. -/
def evictionSt : PoolState :=
  { fullQueueSt with conns := some [pcn], idleConns := some [pcn],
                     poolSize := 1, idleConnsLen := 1 }

/-- Counterexample to C2 as stated: on a pool with a single unhealthy idle
connection, the idle-candidate loop of `Get` (invoked exactly as `get`
invokes it, after the ticket) performs four `popIdle` calls — more than
three — and the first pop that finds the list empty (the second pop) does
not end the loop: two further empty pops follow before it breaks. -/
theorem get_attempt_budget_counterexample :
    (getLoop (fun _ => (0, false)) (3 * idleLenList evictionSt + 3) evictionSt
        0 0 { pops := 0, empties := 0, evicted := 0 }).map
      (fun r => (r.2.2.pops, r.2.2.empties, r.2.2.evicted)) = some (4, 3, 1) ∧
    ¬ 4 ≤ 3 := by
  constructor
  · decide
  · decide

/-- C2 amended: after a ticket is acquired on an open pool, the loop
performs `empties + evicted (+1 when a healthy connection is found)` pops;
only empty pops count against the attempt budget, and exactly three of
them — not one — are needed before the loop falls through to the miss
path; unhealthy evictions are unbounded by the budget but each consumes an
idle-list element, so the total pop count is at most `idleLen + 3`. -/
theorem get_attempt_budget (h : Nat → Nat × Bool) (s : PoolState)
    (res : LoopRes) (s1 : PoolState) (st1 : LoopStats) :
    s.closedFlag = false →
    getLoop h (3 * idleLenList s + 3) s 0 0
      { pops := 0, empties := 0, evicted := 0 } = some (res, s1, st1) →
    st1.pops = st1.empties + st1.evicted +
      (match res with | LoopRes.broke => 0 | _ => 1) ∧
    st1.empties ≤ 3 ∧
    (res = LoopRes.broke → st1.empties = 3) ∧
    st1.pops ≤ idleLenList s + 3 := by
  intro hop hl
  obtain ⟨q1, ⟨q2a, q2b⟩, q3, q4⟩ := getLoop_counts h _ s 0 0 _ res s1 st1
    (by omega) hl
  simp only at q1 q2a q2b q4
  refine ⟨by omega, by omega, fun hb => by have := q3 hb; simpa using this, ?_⟩
  cases res with
  | errRes e => exact absurd rfl (getLoop_open_no_error h _ s 0 0 _ _ s1 st1 e hop hl)
  | broke => simp at q1; omega
  | found cn => simp at q1 q4; omega

/-- Witness for C2 amended, on the empty just-created pool: three empty
pops, then the loop breaks. -/
theorem get_attempt_budget_witness :
    ({ pops := 3, empties := 3, evicted := 0 } : LoopStats).pops =
      ({ pops := 3, empties := 3, evicted := 0 } : LoopStats).empties +
      ({ pops := 3, empties := 3, evicted := 0 } : LoopStats).evicted + 0 ∧
    ({ pops := 3, empties := 3, evicted := 0 } : LoopStats).empties ≤ 3 ∧
    (LoopRes.broke = LoopRes.broke →
      ({ pops := 3, empties := 3, evicted := 0 } : LoopStats).empties = 3) ∧
    ({ pops := 3, empties := 3, evicted := 0 } : LoopStats).pops ≤
      idleLenList fullQueueSt + 3 := by
  have h := get_attempt_budget (fun _ => (0, true)) fullQueueSt LoopRes.broke
    fullQueueSt { pops := 3, empties := 3, evicted := 0 } (by decide) (by decide)
  exact h

/-! Claim C1: behaviour of the pool after `Close`. -/

/-- Configuration of the basic one-slot pool (no min-idle fillers). -/
def baseCfg : Options :=
  { poolFIFO := false, poolSize := 1, minIdleConns := 0, maxIdleConns := 0,
    connMaxIdleTime := 0, connMaxLifetime := 0 }

/-- The state of `newConnPool baseCfg` right after `Close()` returned. -/
def closedPool1 : PoolState :=
  { newConnPool baseCfg with
    closedFlag := true, conns := none, idleConns := none, poolSize := 0,
    idleConnsLen := 0 }

/-- Counterexample to C1 as stated: after `Close()` on a freshly created
pool, `Len()` does not return `0` (nor `ErrClosed`): it dereferences the
nilled `conns` list and panics; likewise `Put`, `Remove` and `Filter` do
not return `ErrClosed` before doing work — they panic on the nilled
registries. -/
theorem close_semantics_counterexample :
    closePool (newConnPool baseCfg) = some (Except.ok (), closedPool1) ∧
    lenOp closedPool1 = none ∧
    put closedPool1 pcn = none ∧
    removeOp closedPool1 pcn = none ∧
    filterOp closedPool1 (fun _ => true) = none := by
  refine ⟨by decide, by decide, by decide, by decide, rfl⟩

/-- C1 amended: once `Close()` has returned, `Get`, `NewConn` and a second
`Close` return `ErrClosed` before doing any work, and `IdleLen()` returns
`0`; but `Put`, `Remove` (and its async variants), `CloseConn`,
`AsyncCloseConn`, `Filter` and `Len` never check the closed flag — they
dereference the nilled lists instead (a panic, modelled as `none`), so in
particular `Len()` does not return `0`. -/
theorem close_semantics (s s1 : PoolState) (out : Except Err Unit)
    (cd : Bool) (t : Nat) (race : RaceEvent) (h : Nat → Nat × Bool)
    (d : DialOutcome) (cn : Conn) (pred : Conn → Bool) :
    s.closedFlag = false →
    closePool s = some (out, s1) →
    get s1 cd t race h d = some (GetRes.preErr Err.errClosed, s1) ∧
    newConn s1 false d = some (Except.error Err.errClosed, s1) ∧
    closePool s1 = some (Except.error Err.errClosed, s1) ∧
    idleLenOp s1 = 0 ∧
    lenOp s1 = none ∧
    put s1 cn = none ∧
    removeOp s1 cn = none ∧
    asyncRemove s1 cn = none ∧
    closeConnOp s1 cn = none ∧
    asyncCloseConn s1 cn = none ∧
    filterOp s1 pred = none := by
  intro hop hcp
  unfold closePool at hcp
  rw [if_neg (by rw [hop]; simp)] at hcp
  have hfacts : s1.closedFlag = true ∧ s1.conns = none ∧ s1.idleConns = none ∧
      s1.idleConnsLen = 0 := by
    split at hcp
    · simp at hcp
    · simp only [Option.some.injEq, Prod.mk.injEq] at hcp
      rw [← hcp.2]
      simp
  obtain ⟨hcl, hcn, hil, hz⟩ := hfacts
  refine ⟨?_, ?_, ?_, ?_, ?_, ?_, ?_, ?_, ?_, ?_, ?_⟩
  · unfold get
    rw [if_pos hcl]
  · unfold newConn dialConn
    rw [if_pos hcl]
  · unfold closePool
    rw [if_pos hcl]
  · unfold idleLenOp
    rw [hz]
  · unfold lenOp
    rw [hcn]
    rfl
  · unfold put
    split
    · unfold asyncRemove removeConn
      rw [hcn]
      rfl
    · split
      · unfold asyncRemove removeConn
        rw [hcn]
        rfl
      · rw [hil]
  · unfold removeOp removeConn
    rw [hcn]
    rfl
  · unfold asyncRemove removeConn
    rw [hcn]
    rfl
  · unfold closeConnOp removeConn
    rw [hcn]
    rfl
  · unfold asyncCloseConn removeConn
    rw [hcn]
    rfl
  · unfold filterOp
    rw [hcn]

/-- Witness for C1 amended at the concrete closed pool. -/
theorem close_semantics_witness :
    get closedPool1 false 0 RaceEvent.ctxDone (fun _ => (0, true))
        (DialOutcome.ok 0) = some (GetRes.preErr Err.errClosed, closedPool1) ∧
    closePool closedPool1 = some (Except.error Err.errClosed, closedPool1) ∧
    idleLenOp closedPool1 = 0 ∧
    lenOp closedPool1 = none := by
  have h := close_semantics (newConnPool baseCfg) closedPool1 (Except.ok ())
    false 0 RaceEvent.ctxDone (fun _ => (0, true)) (DialOutcome.ok 0) pcn
    (fun _ => true) (by decide) (by decide)
  exact ⟨h.1, h.2.2.1, h.2.2.2.1, h.2.2.2.2.1⟩

/-! Claim C4: the hits/misses accounting of `Get` over whole traces. -/

theorem asyncRemove_frame (s : PoolState) (cn : Conn) (s1 : PoolState)
    (h : asyncRemove s cn = some s1) :
    s1.hits = s.hits ∧ s1.misses = s.misses ∧ s1.staleConns = s.staleConns ∧
    s1.timeouts = s.timeouts ∧ s1.cfg = s.cfg ∧
    s1.closedFlag = s.closedFlag ∧ s1.nextId = s.nextId ∧
    s1.idleConns = s.idleConns := by
  unfold asyncRemove at h
  cases hrm : removeConn s cn with
  | none => rw [hrm] at h; simp at h
  | some s2 =>
    rw [hrm, Option.some_bind] at h
    cases hft : freeTurn s2 with
    | none => rw [hft] at h; simp at h
    | some s3 =>
      rw [hft, Option.map_some'] at h
      obtain ⟨f1, f2, f3, f4, f5, f6, f7, f8, f9, f10, f11, f12, f13⟩ :=
        removeConn_frame s cn s2 hrm
      have hf2 := freeTurn_frame s2 s3 hft
      simp only [Option.some.injEq] at h
      rw [← h, hf2]
      simp [closeConnLog, f1, f2, f3, f4, f5, f6, f7, f10]

theorem newConn_frame (s : PoolState) (pooled : Bool) (d : DialOutcome)
    (r : Except Err Conn) (s1 : PoolState)
    (h : newConn s pooled d = some (r, s1)) :
    s1.hits = s.hits ∧ s1.misses = s.misses ∧ s1.staleConns = s.staleConns ∧
    s1.timeouts = s.timeouts ∧ s1.queueLen = s.queueLen ∧
    s1.idleConns = s.idleConns ∧ s1.idleConnsLen = s.idleConnsLen ∧
    s1.closedFlag = s.closedFlag ∧ s1.cfg = s.cfg ∧
    s1.pendingFillers = s.pendingFillers := by
  unfold newConn at h
  split at h
  · rename_i e b s2 heq
    obtain ⟨d1, d2, d3, d4, d5, d6, d7, d8, d9, d10, d11, d12, d13⟩ :=
      dialConn_pool_frame s pooled d _ _ s2 heq
    simp only [Option.some.injEq, Prod.mk.injEq] at h
    rw [← h.2]
    exact ⟨d8, d9, d11, d12, d7, d4, d5, d6, d2, d13⟩
  · rename_i cn b s2 heq
    obtain ⟨d1, d2, d3, d4, d5, d6, d7, d8, d9, d10, d11, d12, d13⟩ :=
      dialConn_pool_frame s pooled d _ _ s2 heq
    split at h
    · simp only [Option.some.injEq, Prod.mk.injEq] at h
      rw [← h.2]
      simp only [closeConnLog]
      exact ⟨d8, d9, d11, d12, d7, d4, d5, d6, d2, d13⟩
    · split at h
      · simp at h
      · split at h
        · split at h
          · simp only [Option.some.injEq, Prod.mk.injEq] at h
            rw [← h.2]
            exact ⟨d8, d9, d11, d12, d7, d4, d5, d6, d2, d13⟩
          · simp only [Option.some.injEq, Prod.mk.injEq] at h
            rw [← h.2]
            exact ⟨d8, d9, d11, d12, d7, d4, d5, d6, d2, d13⟩
        · simp only [Option.some.injEq, Prod.mk.injEq] at h
          rw [← h.2]
          exact ⟨d8, d9, d11, d12, d7, d4, d5, d6, d2, d13⟩

theorem runFiller_frame (s : PoolState) (d : DialOutcome) (s1 : PoolState)
    (h : runFiller s d = some s1) :
    s1.hits = s.hits ∧ s1.misses = s.misses ∧ s1.staleConns = s.staleConns ∧
    s1.timeouts = s.timeouts ∧ s1.queueLen = s.queueLen ∧
    s1.closedFlag = s.closedFlag ∧ s1.cfg = s.cfg ∧
    s1.idleConnsLen ≤ s.idleConnsLen := by
  unfold runFiller at h
  split at h
  · simp at h
  · split at h
    · rename_i e b s2 heq
      obtain ⟨d1, d2, d3, d4, d5, d6, d7, d8, d9, d10, d11, d12, d13⟩ :=
        dialConn_pool_frame _ true d _ _ s2 heq
      simp only at d1 d2 d3 d4 d5 d6 d7 d8 d9 d10 d11 d12 d13
      split at h
      · simp only [Option.some.injEq] at h
        rw [← h]
        refine ⟨d8, d9, d11, d12, d7, d6, d2, by omega⟩
      · simp only [Option.some.injEq] at h
        rw [← h]
        simp only
        refine ⟨d8, d9, d11, d12, d7, d6, d2, by omega⟩
    · rename_i cn b s2 heq
      obtain ⟨d1, d2, d3, d4, d5, d6, d7, d8, d9, d10, d11, d12, d13⟩ :=
        dialConn_pool_frame _ true d _ _ s2 heq
      simp only at d1 d2 d3 d4 d5 d6 d7 d8 d9 d10 d11 d12 d13
      split at h
      · simp only [Option.some.injEq] at h
        rw [← h]
        simp only [closeConnLog]
        refine ⟨d8, d9, d11, d12, d7, d6, d2, by omega⟩
      · split at h
        · rename_i cl il hcl hil
          simp only [Option.some.injEq] at h
          rw [← h]
          refine ⟨d8, d9, d11, d12, d7, d6, d2,
            by show s2.idleConnsLen ≤ s.idleConnsLen; omega⟩
        · simp at h

theorem closePool_frame (s : PoolState) (out : Except Err Unit)
    (s1 : PoolState) (h : closePool s = some (out, s1)) :
    s1.hits = s.hits ∧ s1.misses = s.misses ∧ s1.staleConns = s.staleConns ∧
    s1.timeouts = s.timeouts ∧ s1.queueLen = s.queueLen ∧
    s1.cfg = s.cfg ∧ s1.nextId = s.nextId ∧
    (s1.idleConnsLen = 0 ∨ s1.idleConnsLen = s.idleConnsLen) := by
  unfold closePool at h
  split at h
  · simp only [Option.some.injEq, Prod.mk.injEq] at h
    rw [← h.2]
    simp
  · split at h
    · simp at h
    · simp only [Option.some.injEq, Prod.mk.injEq] at h
      rw [← h.2]
      simp

theorem filterOp_frame (s : PoolState) (pred : Conn → Bool)
    (out : Except Err Unit) (s1 : PoolState)
    (h : filterOp s pred = some (out, s1)) :
    s1.hits = s.hits ∧ s1.misses = s.misses ∧ s1.staleConns = s.staleConns ∧
    s1.timeouts = s.timeouts ∧ s1.queueLen = s.queueLen ∧
    s1.cfg = s.cfg ∧ s1.idleConnsLen = s.idleConnsLen ∧
    s1.idleConns = s.idleConns ∧ s1.closedFlag = s.closedFlag := by
  unfold filterOp at h
  split at h
  · simp at h
  · simp only [Option.some.injEq, Prod.mk.injEq] at h
    rw [← h.2]
    simp

theorem reapLoop_frame (h : Nat → Nat × Bool) (fuel : Nat) :
    ∀ (s : PoolState) (k n m : Nat) (s1 : PoolState),
      reapLoop h fuel s k n = some (m, s1) →
      s1.hits = s.hits ∧ s1.misses = s.misses ∧ s1.timeouts = s.timeouts ∧
      s1.cfg = s.cfg ∧ s1.closedFlag = s.closedFlag ∧
      s1.nextId = s.nextId ∧ s1.queueLen = s.queueLen := by
  induction fuel with
  | zero => intro s k n m s1 hl; simp [reapLoop] at hl
  | succ fuel ih =>
    intro s k n m s1 hl
    unfold reapLoop at hl
    split at hl
    · simp at hl
    · rename_i s2 hg
      have hg2 := getTurn_frame s s2 hg
      split at hl
      · simp at hl
      · rename_i s3 hr
        split at hl
        · simp at hl
        · rename_i s4 hf
          simp only [Option.some.injEq, Prod.mk.injEq] at hl
          obtain ⟨-, r2, r3, r4, r5, r6, r7, r8, r9⟩ :=
            reapStaleConn_frame s2 _ _ _ s3 hr
          have hf2 := freeTurn_frame s3 s4 hf
          rw [hg2] at r3 r4 r5 r6 r7 r8 r9
          simp only at r3 r4 r5 r6 r7 r8 r9
          rw [← hl.2, hf2]
          exact ⟨r3, r4, r9, r5, r6, r7,
            by show s3.queueLen - 1 = s.queueLen; omega⟩
      · rename_i cn s3 hr
        split at hl
        · simp at hl
        · rename_i s4 hf
          obtain ⟨q1, q2, q3, q4, q5, q6, q7⟩ :=
            ih (closeConnLog s4 cn) (k + 1) (n + 1) m s1 hl
          obtain ⟨-, r2, r3, r4, r5, r6, r7, r8, r9⟩ :=
            reapStaleConn_frame s2 _ _ _ s3 hr
          have hf2 := freeTurn_frame s3 s4 hf
          simp only [closeConnLog] at q1 q2 q3 q4 q5 q6 q7
          rw [hg2] at r3 r4 r5 r6 r7 r8 r9
          rw [hf2] at q1 q2 q3 q4 q5 q6 q7
          simp only at q1 q2 q3 q4 q5 q6 q7 r3 r4 r5 r6 r7 r8 r9
          refine ⟨by rw [q1, r3], by rw [q2, r4], by rw [q3, r9],
            by rw [q4, r5], by rw [q5, r6], by rw [q6, r7], by omega⟩

theorem put_frame (s : PoolState) (cn : Conn) (r : PutRes) (s1 : PoolState)
    (hput : put s cn = some (r, s1)) :
    s1.hits = s.hits ∧ s1.misses = s.misses ∧ s1.timeouts = s.timeouts ∧
    s1.closedFlag = s.closedFlag ∧ s1.cfg = s.cfg ∧ s1.nextId = s.nextId := by
  unfold put at hput
  split at hput
  · cases ha : asyncRemove s cn with
    | none => rw [ha] at hput; simp at hput
    | some s2 =>
      rw [ha, Option.map_some'] at hput
      simp only [Option.some.injEq, Prod.mk.injEq] at hput
      obtain ⟨a1, a2, -, a4, a5, a6, a7, -⟩ := asyncRemove_frame s cn s2 ha
      rw [← hput.2]
      exact ⟨a1, a2, a4, a6, a5, a7⟩
  · split at hput
    · cases ha : asyncRemove s cn with
      | none => rw [ha] at hput; simp at hput
      | some s2 =>
        rw [ha, Option.map_some'] at hput
        simp only [Option.some.injEq, Prod.mk.injEq] at hput
        obtain ⟨a1, a2, -, a4, a5, a6, a7, -⟩ := asyncRemove_frame s cn s2 ha
        rw [← hput.2]
        exact ⟨a1, a2, a4, a6, a5, a7⟩
    · split at hput
      · simp at hput
      · rename_i il hil
        split at hput
        · cases hft : freeTurn { s with idleConns := some (il ++ [cn]), idleConnsLen := s.idleConnsLen + 1 } with
          | none => rw [hft] at hput; simp at hput
          | some s3 =>
            rw [hft, Option.map_some'] at hput
            simp only [Option.some.injEq, Prod.mk.injEq] at hput
            have h2 := freeTurn_frame _ s3 hft
            rw [← hput.2, h2]
            simp
        · cases hrm : removeConn s cn with
          | none => rw [hrm] at hput; simp at hput
          | some s2 =>
            rw [hrm, Option.some_bind] at hput
            cases hft : freeTurn s2 with
            | none => rw [hft] at hput; simp at hput
            | some s3 =>
              rw [hft, Option.map_some'] at hput
              simp only [Option.some.injEq, Prod.mk.injEq] at hput
              obtain ⟨f1, f2, f3, f4, f5, f6, f7, f8, f9, f10, f11, f12, f13⟩ :=
                removeConn_frame s cn s2 hrm
              have h2 := freeTurn_frame s2 s3 hft
              rw [← hput.2, h2]
              simp only [closeConnLog]
              exact ⟨f4, f5, f6, f2, f1, f3⟩

/-- Hits/misses contribution of one `Get` result, as the source increments
them. -/
def getResWeight : GetRes → Nat
  | GetRes.hitRes _ => 1
  | GetRes.missRes _ => 1
  | GetRes.postMissErr _ => 1
  | GetRes.preErr _ => 0

theorem get_hm (s : PoolState) (cd : Bool) (t : Nat) (race : RaceEvent)
    (h : Nat → Nat × Bool) (d : DialOutcome) (r : GetRes) (s1 : PoolState)
    (hg : get s cd t race h d = some (r, s1)) :
    s1.hits + s1.misses = s.hits + s.misses + getResWeight r := by
  unfold get at hg
  split at hg
  · simp only [Option.some.injEq, Prod.mk.injEq] at hg
    rw [← hg.2, ← hg.1]
    simp [getResWeight]
  · rename_i hop
    obtain ⟨-, -, -, -, -, -, -, w8, w9, -⟩ := waitTurn_pool_frame s cd t race
    split at hg
    · rename_i e s2 hw
      simp only [Option.some.injEq, Prod.mk.injEq] at hg
      rw [← hg.2, ← hg.1]
      have hs2 : s2 = (waitTurn s cd t race).2 := by rw [hw]
      rw [hs2, w8, w9]
      simp [getResWeight]
    · rename_i u s2 hw
      have hs2 : s2 = (waitTurn s cd t race).2 := by rw [hw]
      have hh2 : s2.hits = s.hits := by rw [hs2, w8]
      have hm2 : s2.misses = s.misses := by rw [hs2, w9]
      split at hg
      · simp at hg
      · rename_i e s3 st3 hl
        obtain ⟨-, -, -, l4, -, -, l7, -⟩ := getLoop_effects h _ s2 0 0 _ _ s3 st3 hl
        simp at l7
        simp only [Option.some.injEq, Prod.mk.injEq] at hg
        rw [← hg.2, ← hg.1]
        simp only [getResWeight]
        omega
      · rename_i cnf s3 st3 hl
        obtain ⟨-, -, -, l4, -, -, l7, -⟩ := getLoop_effects h _ s2 0 0 _ _ s3 st3 hl
        simp at l7
        simp only [Option.some.injEq, Prod.mk.injEq] at hg
        rw [← hg.2, ← hg.1]
        simp only [getResWeight]
        omega
      · rename_i s3 st3 hl
        obtain ⟨-, -, -, l4, -, -, l7, -⟩ := getLoop_effects h _ s2 0 0 _ _ s3 st3 hl
        simp at l7
        split at hg
        · simp at hg
        · rename_i e s4 hn
          obtain ⟨n1, n2, -⟩ := newConn_frame _ true d _ s4 hn
          simp only at n1 n2
          cases hft : freeTurn s4 with
          | none => rw [hft] at hg; simp at hg
          | some s5 =>
            rw [hft, Option.map_some'] at hg
            simp only [Option.some.injEq, Prod.mk.injEq] at hg
            have hf2 := freeTurn_frame s4 s5 hft
            rw [← hg.2, ← hg.1, hf2]
            simp only [getResWeight]
            omega
        · rename_i cnn s4 hn
          obtain ⟨n1, n2, -⟩ := newConn_frame _ true d _ s4 hn
          simp only at n1 n2
          simp only [Option.some.injEq, Prod.mk.injEq] at hg
          rw [← hg.2, ← hg.1]
          simp only [getResWeight]
          omega

/-- Hits/misses contribution of one operation's output. -/
def outWeight : Out → Nat
  | Out.got r => getResWeight r
  | _ => 0

theorem step_hm (s : PoolState) (op : Op) (o : Out) (s1 : PoolState)
    (hs : step s op = some (o, s1)) :
    s1.hits + s1.misses = s.hits + s.misses + outWeight o := by
  cases op with
  | opGet cd t race h d =>
    simp only [step] at hs
    cases hg : get s cd t race h d with
    | none => rw [hg] at hs; simp at hs
    | some p =>
      rw [hg, Option.map_some'] at hs
      simp only [Option.some.injEq, Prod.mk.injEq] at hs
      rw [← hs.2, ← hs.1]
      have := get_hm s cd t race h d p.1 p.2 (by rw [hg])
      simpa [outWeight] using this
  | opPut cn =>
    simp only [step] at hs
    cases hp : put s cn with
    | none => rw [hp] at hs; simp at hs
    | some p =>
      rw [hp, Option.map_some'] at hs
      simp only [Option.some.injEq, Prod.mk.injEq] at hs
      rw [← hs.2, ← hs.1]
      obtain ⟨a1, a2, -⟩ := put_frame s cn p.1 p.2 (by rw [hp])
      simp [outWeight, a1, a2]
  | opRemove cn =>
    simp only [step, removeOp] at hs
    cases ha : asyncRemove s cn with
    | none => rw [← asyncRemove] at hs; rw [ha] at hs; simp at hs
    | some s2 =>
      rw [← asyncRemove, ha, Option.map_some'] at hs
      simp only [Option.some.injEq, Prod.mk.injEq] at hs
      rw [← hs.2, ← hs.1]
      obtain ⟨a1, a2, -⟩ := asyncRemove_frame s cn s2 ha
      simp [outWeight, a1, a2]
  | opAsyncRemove cn =>
    simp only [step] at hs
    cases ha : asyncRemove s cn with
    | none => rw [ha] at hs; simp at hs
    | some s2 =>
      rw [ha, Option.map_some'] at hs
      simp only [Option.some.injEq, Prod.mk.injEq] at hs
      rw [← hs.2, ← hs.1]
      obtain ⟨a1, a2, -⟩ := asyncRemove_frame s cn s2 ha
      simp [outWeight, a1, a2]
  | opCloseConn cn =>
    simp only [step] at hs
    cases ha : closeConnOp s cn with
    | none => rw [ha] at hs; simp at hs
    | some s2 =>
      rw [ha, Option.map_some'] at hs
      simp only [Option.some.injEq, Prod.mk.injEq] at hs
      rw [← hs.2, ← hs.1]
      obtain ⟨-, -, -, a4, a5, -⟩ := asyncCloseConn_spec s cn s2 ha
      simp [outWeight, a4, a5]
  | opAsyncCloseConn cn =>
    simp only [step] at hs
    cases ha : asyncCloseConn s cn with
    | none => rw [ha] at hs; simp at hs
    | some s2 =>
      rw [ha, Option.map_some'] at hs
      simp only [Option.some.injEq, Prod.mk.injEq] at hs
      rw [← hs.2, ← hs.1]
      obtain ⟨-, -, -, a4, a5, -⟩ := asyncCloseConn_spec s cn s2 ha
      simp [outWeight, a4, a5]
  | opNewConn d =>
    simp only [step] at hs
    cases hn : newConn s false d with
    | none => rw [hn] at hs; simp at hs
    | some p =>
      rw [hn, Option.map_some'] at hs
      simp only [Option.some.injEq, Prod.mk.injEq] at hs
      rw [← hs.2, ← hs.1]
      obtain ⟨n1, n2, -⟩ := newConn_frame s false d p.1 p.2 (by rw [hn])
      simp [outWeight, n1, n2]
  | opFilter pred =>
    simp only [step] at hs
    cases hf : filterOp s pred with
    | none => rw [hf] at hs; simp at hs
    | some p =>
      rw [hf, Option.map_some'] at hs
      simp only [Option.some.injEq, Prod.mk.injEq] at hs
      rw [← hs.2, ← hs.1]
      obtain ⟨f1, f2, -⟩ := filterOp_frame s pred p.1 p.2 (by rw [hf])
      simp [outWeight, f1, f2]
  | opClose =>
    simp only [step] at hs
    cases hc : closePool s with
    | none => rw [hc] at hs; simp at hs
    | some p =>
      rw [hc, Option.map_some'] at hs
      simp only [Option.some.injEq, Prod.mk.injEq] at hs
      rw [← hs.2, ← hs.1]
      obtain ⟨c1, c2, -⟩ := closePool_frame s p.1 p.2 (by rw [hc])
      simp [outWeight, c1, c2]
  | opReap h =>
    simp only [step] at hs
    cases hr : reapOp h s with
    | none => rw [hr] at hs; simp at hs
    | some p =>
      rw [hr, Option.map_some'] at hs
      simp only [Option.some.injEq, Prod.mk.injEq] at hs
      rw [← hs.2, ← hs.1]
      unfold reapOp at hr
      cases hrl : reapLoop h (idleLenList s + 1) s 0 0 with
      | none => rw [hrl] at hr; simp at hr
      | some q =>
        rw [hrl, Option.map_some'] at hr
        simp only [Option.some.injEq] at hr
        obtain ⟨l1, l2, -⟩ := reapLoop_frame h (idleLenList s + 1) s 0 0 q.1 q.2
          (by rw [hrl])
        rw [← hr]
        simp [outWeight, l1, l2]
  | opFiller d =>
    simp only [step] at hs
    cases hf : runFiller s d with
    | none => rw [hf] at hs; simp at hs
    | some s2 =>
      rw [hf, Option.map_some'] at hs
      simp only [Option.some.injEq, Prod.mk.injEq] at hs
      rw [← hs.2, ← hs.1]
      obtain ⟨f1, f2, -⟩ := runFiller_frame s d s2 hf
      simp [outWeight, f1, f2]

/-- Number of `Get` calls in a trace that returned a connection. -/
def countOk : List Out → Nat
  | [] => 0
  | Out.got (GetRes.hitRes _) :: rest => countOk rest + 1
  | Out.got (GetRes.missRes _) :: rest => countOk rest + 1
  | _ :: rest => countOk rest

/-- Number of `Get` calls in a trace that incremented `misses` and then
failed in `newConn` (returning the dial error after releasing the ticket). -/
def countPostMissErr : List Out → Nat
  | [] => 0
  | Out.got (GetRes.postMissErr _) :: rest => countPostMissErr rest + 1
  | _ :: rest => countPostMissErr rest

theorem countOk_postMiss_cons (o : Out) (os : List Out) :
    countOk (o :: os) + countPostMissErr (o :: os) =
      outWeight o + (countOk os + countPostMissErr os) := by
  cases o with
  | got r => cases r <;> simp [countOk, countPostMissErr, outWeight, getResWeight] <;> omega
  | putOut r => simp [countOk, countPostMissErr, outWeight]
  | unitOut => simp [countOk, countPostMissErr, outWeight]
  | connRes r => simp [countOk, countPostMissErr, outWeight]
  | closeRes r => simp [countOk, countPostMissErr, outWeight]
  | reapedOut n => simp [countOk, countPostMissErr, outWeight]

/-- C4 amended: at every quiescent point of every operation sequence,
`stats.hits + stats.misses` equals its initial value plus the number of
`Get` calls that returned a connection plus the number of `Get` calls that
incremented `misses` and then failed dialing (the claim as stated fails on
the latter: such a `Get` does not return successfully but has already been
counted as a miss). -/
theorem hits_misses_accounting (ops : List Op) :
    ∀ (s : PoolState) (outs : List Out) (s1 : PoolState),
      runOuts s ops = some (outs, s1) →
      s1.hits + s1.misses =
        s.hits + s.misses + countOk outs + countPostMissErr outs := by
  induction ops with
  | nil =>
    intro s outs s1 hr
    simp only [runOuts, Option.some.injEq, Prod.mk.injEq] at hr
    rw [← hr.2, ← hr.1]
    simp [countOk, countPostMissErr]
  | cons op rest ih =>
    intro s outs s1 hr
    unfold runOuts at hr
    split at hr
    · simp at hr
    · rename_i o s2 hst
      split at hr
      · simp at hr
      · rename_i os s3 hrest
        simp only [Option.some.injEq, Prod.mk.injEq] at hr
        have h1 := step_hm s op o s2 hst
        have h2 := ih s2 os s3 hrest
        rw [← hr.2, ← hr.1]
        have h3 := countOk_postMiss_cons o os
        omega

/-- Counterexample to C4 as stated: a single `Get` on an empty fresh pool
whose dial fails leaves `hits + misses = 1` although no `Get` returned
successfully. -/
theorem hits_misses_counterexample :
    (runOuts (newConnPool baseCfg)
        [Op.opGet false 0 RaceEvent.timerFired (fun _ => (0, true))
          (DialOutcome.fail 7)]).map
      (fun r => (r.2.hits + r.2.misses, countOk r.1)) = some (1, 0) ∧
    (1 : Nat) ≠ 0 :=
  ⟨by decide, by decide⟩

/-- The connection created by the witness trace for C4. -/
def c4Conn : Conn :=
  { id := 0, createdAt := 5, usedAt := 5, pooled := true, buffered := 0 }

/-- State after the witness trace for C4: one missed `Get` that dialled
successfully. -/
def c4St : PoolState :=
  { newConnPool baseCfg with
    queueLen := 1, misses := 1, conns := some [c4Conn], poolSize := 1,
    nextId := 1 }

/-- Witness for C4 amended: a fresh pool, one successful `Get` via the
miss path gives `hits + misses = 1 = countOk`. -/
theorem hits_misses_accounting_witness :
    c4St.hits + c4St.misses =
      (newConnPool baseCfg).hits + (newConnPool baseCfg).misses +
      countOk [Out.got (GetRes.missRes c4Conn)] +
      countPostMissErr [Out.got (GetRes.missRes c4Conn)] :=
  hits_misses_accounting
    [Op.opGet false 0 RaceEvent.timerFired (fun _ => (0, true))
      (DialOutcome.ok 5)]
    (newConnPool baseCfg) [Out.got (GetRes.missRes c4Conn)] c4St (by decide)

/-! Claim C5: the `MaxIdleConns` cap on `idleConnsLen`. -/

theorem removeConn_idle_le (s : PoolState) (cn : Conn) (s1 : PoolState)
    (h : removeConn s cn = some s1) :
    s1.idleConnsLen ≤ max s.idleConnsLen (s.cfg.minIdleConns : Int) := by
  unfold removeConn at h
  split at h
  · simp at h
  · split at h
    · split at h
      · rename_i l heq hl hp
        simp only [Option.some.injEq] at h
        rw [← h]
        have := (checkMinIdleConns_le
          { s with conns := some (removeFirstById l cn.id),
                   poolSize := s.poolSize - 1 }).2
        simp only at this
        omega
      · simp only [Option.some.injEq] at h
        rw [← h]
        simp
    · simp only [Option.some.injEq] at h
      rw [← h]
      simp

theorem popIdle_idle_le (s : PoolState) (r : Except Err (Option Conn))
    (s1 : PoolState) (h : popIdle s = some (r, s1)) :
    s1.idleConnsLen ≤ max s.idleConnsLen (s.cfg.minIdleConns : Int) := by
  unfold popIdle at h
  split at h
  · simp only [Option.some.injEq, Prod.mk.injEq] at h
    rw [← h.2]
    simp
  · split at h
    · simp at h
    · simp only [Option.some.injEq, Prod.mk.injEq] at h
      rw [← h.2]
      simp
    · rename_i c rest heq
      simp only [Option.some.injEq, Prod.mk.injEq] at h
      rw [← h.2]
      have := (checkMinIdleConns_le
        { s with idleConns := some (if s.cfg.poolFIFO then rest else (c :: rest).dropLast),
                 idleConnsLen := s.idleConnsLen - 1 }).2
      simp only at this
      omega

theorem asyncCloseConn_idle_le (s : PoolState) (cn : Conn) (s1 : PoolState)
    (h : asyncCloseConn s cn = some s1) :
    s1.idleConnsLen ≤ max s.idleConnsLen (s.cfg.minIdleConns : Int) := by
  unfold asyncCloseConn at h
  cases hrm : removeConn s cn with
  | none => rw [hrm] at h; simp at h
  | some s2 =>
    rw [hrm, Option.map_some'] at h
    simp only [Option.some.injEq] at h
    rw [← h]
    have := removeConn_idle_le s cn s2 hrm
    simp only [closeConnLog]
    omega

theorem getLoop_idle_le (h : Nat → Nat × Bool) (fuel : Nat) :
    ∀ (s : PoolState) (k i : Nat) (st : LoopStats) (res : LoopRes)
      (s1 : PoolState) (st1 : LoopStats) (B : Int),
      (s.cfg.minIdleConns : Int) ≤ B → s.idleConnsLen ≤ B →
      getLoop h fuel s k i st = some (res, s1, st1) →
      s1.idleConnsLen ≤ B := by
  induction fuel with
  | zero => intro s k i st res s1 st1 B hmin hle hl; simp [getLoop] at hl
  | succ fuel ih =>
    intro s k i st res s1 st1 B hmin hle hl
    unfold getLoop at hl
    split at hl
    · simp at hl
    · rename_i e s2 hp
      simp only [Option.some.injEq, Prod.mk.injEq] at hl
      obtain ⟨h2, -⟩ := popIdle_error s s2 e hp
      rw [← hl.2.1, h2]
      exact hle
    · rename_i s2 hp
      have h2 := popIdle_ok_none s s2 hp
      rw [h2] at hl
      split at hl
      · simp only [Option.some.injEq, Prod.mk.injEq] at hl
        rw [← hl.2.1]
        exact hle
      · exact ih s (k + 1) (i + 1) _ res s1 st1 B hmin hle hl
    · rename_i cn s2 hp
      have hb2 := popIdle_idle_le s _ s2 hp
      have hcfg2 := (popIdle_frame s s2 cn hp).1
      have hle2 : s2.idleConnsLen ≤ B := by omega
      split at hl
      · simp only [Option.some.injEq, Prod.mk.injEq] at hl
        rw [← hl.2.1]
        exact hle2
      · split at hl
        · simp at hl
        · rename_i s3 hac
          have hb3 := asyncCloseConn_idle_le s2 cn s3 hac
          have hcfg3 := (asyncCloseConn_spec s2 cn s3 hac).2.2.2.2.2.2.2.1
          refine ih s3 (k + 1) i _ res s1 st1 B ?_ ?_ hl
          · rw [hcfg3, hcfg2]
            exact hmin
          · rw [hcfg2] at hb3
            omega

theorem get_frame (s : PoolState) (cd : Bool) (t : Nat) (race : RaceEvent)
    (h : Nat → Nat × Bool) (d : DialOutcome) (r : GetRes) (s1 : PoolState)
    (hg : get s cd t race h d = some (r, s1)) :
    s1.cfg = s.cfg ∧ s1.closedFlag = s.closedFlag := by
  unfold get at hg
  split at hg
  · simp only [Option.some.injEq, Prod.mk.injEq] at hg
    rw [← hg.2]
    exact ⟨rfl, rfl⟩
  · obtain ⟨-, w2, -, -, -, -, w7, -⟩ := waitTurn_pool_frame s cd t race
    split at hg
    · rename_i e s2 hw
      simp only [Option.some.injEq, Prod.mk.injEq] at hg
      rw [← hg.2]
      have hs2 : s2 = (waitTurn s cd t race).2 := by rw [hw]
      rw [hs2, w2, w7]
      exact ⟨rfl, rfl⟩
    · rename_i u s2 hw
      have hs2 : s2 = (waitTurn s cd t race).2 := by rw [hw]
      have hc2 : s2.cfg = s.cfg := by rw [hs2, w2]
      have hf2 : s2.closedFlag = s.closedFlag := by rw [hs2, w7]
      split at hg
      · simp at hg
      · rename_i e s3 st3 hl
        obtain ⟨l1, l2, -⟩ := getLoop_effects h _ s2 0 0 _ _ s3 st3 hl
        simp only [Option.some.injEq, Prod.mk.injEq] at hg
        rw [← hg.2]
        exact ⟨by rw [l1, hc2], by rw [l2, hf2]⟩
      · rename_i cnf s3 st3 hl
        obtain ⟨l1, l2, -⟩ := getLoop_effects h _ s2 0 0 _ _ s3 st3 hl
        simp only [Option.some.injEq, Prod.mk.injEq] at hg
        rw [← hg.2]
        exact ⟨by rw [l1, hc2], by rw [l2, hf2]⟩
      · rename_i s3 st3 hl
        obtain ⟨l1, l2, -⟩ := getLoop_effects h _ s2 0 0 _ _ s3 st3 hl
        split at hg
        · simp at hg
        · rename_i e s4 hn
          obtain ⟨-, -, -, -, -, -, -, n8, n9, -⟩ := newConn_frame _ true d _ s4 hn
          simp only at n8 n9
          cases hft : freeTurn s4 with
          | none => rw [hft] at hg; simp at hg
          | some s5 =>
            rw [hft, Option.map_some'] at hg
            simp only [Option.some.injEq, Prod.mk.injEq] at hg
            have hff := freeTurn_frame s4 s5 hft
            rw [← hg.2, hff]
            simp only
            exact ⟨by rw [n9, l1, hc2], by rw [n8, l2, hf2]⟩
        · rename_i cnn s4 hn
          obtain ⟨-, -, -, -, -, -, -, n8, n9, -⟩ := newConn_frame _ true d _ s4 hn
          simp only at n8 n9
          simp only [Option.some.injEq, Prod.mk.injEq] at hg
          rw [← hg.2]
          exact ⟨by rw [n9, l1, hc2], by rw [n8, l2, hf2]⟩

theorem get_idle_le (s : PoolState) (cd : Bool) (t : Nat) (race : RaceEvent)
    (h : Nat → Nat × Bool) (d : DialOutcome) (r : GetRes) (s1 : PoolState)
    (B : Int) (hmin : (s.cfg.minIdleConns : Int) ≤ B)
    (hle : s.idleConnsLen ≤ B)
    (hg : get s cd t race h d = some (r, s1)) :
    s1.idleConnsLen ≤ B := by
  unfold get at hg
  split at hg
  · simp only [Option.some.injEq, Prod.mk.injEq] at hg
    rw [← hg.2]
    exact hle
  · obtain ⟨-, w2, -, -, w5, -⟩ := waitTurn_pool_frame s cd t race
    split at hg
    · rename_i e s2 hw
      simp only [Option.some.injEq, Prod.mk.injEq] at hg
      rw [← hg.2]
      have hs2 : s2 = (waitTurn s cd t race).2 := by rw [hw]
      rw [hs2, w5]
      exact hle
    · rename_i u s2 hw
      have hs2 : s2 = (waitTurn s cd t race).2 := by rw [hw]
      have hc2 : s2.cfg = s.cfg := by rw [hs2, w2]
      have hi2 : s2.idleConnsLen = s.idleConnsLen := by rw [hs2, w5]
      have hmin2 : (s2.cfg.minIdleConns : Int) ≤ B := by rw [hc2]; exact hmin
      have hle2 : s2.idleConnsLen ≤ B := by rw [hi2]; exact hle
      split at hg
      · simp at hg
      · rename_i e s3 st3 hl
        have := getLoop_idle_le h _ s2 0 0 _ _ s3 st3 B hmin2 hle2 hl
        simp only [Option.some.injEq, Prod.mk.injEq] at hg
        rw [← hg.2]
        exact this
      · rename_i cnf s3 st3 hl
        have := getLoop_idle_le h _ s2 0 0 _ _ _ st3 B hmin2 hle2 hl
        simp only [Option.some.injEq, Prod.mk.injEq] at hg
        rw [← hg.2]
        exact this
      · rename_i s3 st3 hl
        have hl3 := getLoop_idle_le h _ s2 0 0 _ _ s3 st3 B hmin2 hle2 hl
        split at hg
        · simp at hg
        · rename_i e s4 hn
          obtain ⟨-, -, -, -, -, -, n7, -⟩ := newConn_frame _ true d _ s4 hn
          simp only at n7
          cases hft : freeTurn s4 with
          | none => rw [hft] at hg; simp at hg
          | some s5 =>
            rw [hft, Option.map_some'] at hg
            simp only [Option.some.injEq, Prod.mk.injEq] at hg
            have hff := freeTurn_frame s4 s5 hft
            rw [← hg.2, hff]
            simp only
            omega
        · rename_i cnn s4 hn
          obtain ⟨-, -, -, -, -, -, n7, -⟩ := newConn_frame _ true d _ s4 hn
          simp only at n7
          simp only [Option.some.injEq, Prod.mk.injEq] at hg
          rw [← hg.2]
          omega

theorem asyncRemove_idle_le (s : PoolState) (cn : Conn) (s1 : PoolState)
    (h : asyncRemove s cn = some s1) :
    s1.idleConnsLen ≤ max s.idleConnsLen (s.cfg.minIdleConns : Int) := by
  unfold asyncRemove at h
  cases hrm : removeConn s cn with
  | none => rw [hrm] at h; simp at h
  | some s2 =>
    rw [hrm, Option.some_bind] at h
    cases hft : freeTurn s2 with
    | none => rw [hft] at h; simp at h
    | some s3 =>
      rw [hft, Option.map_some'] at h
      simp only [Option.some.injEq] at h
      have hb := removeConn_idle_le s cn s2 hrm
      have hff := freeTurn_frame s2 s3 hft
      rw [← h, hff]
      simp only [closeConnLog]
      omega

theorem put_idle_le (s : PoolState) (cn : Conn) (r : PutRes) (s1 : PoolState)
    (hmax : 0 < s.cfg.maxIdleConns)
    (hmin : s.cfg.minIdleConns ≤ s.cfg.maxIdleConns)
    (hle : s.idleConnsLen ≤ (s.cfg.maxIdleConns : Int))
    (hput : put s cn = some (r, s1)) :
    s1.idleConnsLen ≤ (s.cfg.maxIdleConns : Int) := by
  unfold put at hput
  split at hput
  · cases ha : asyncRemove s cn with
    | none => rw [ha] at hput; simp at hput
    | some s2 =>
      rw [ha, Option.map_some'] at hput
      simp only [Option.some.injEq, Prod.mk.injEq] at hput
      rw [← hput.2]
      have := asyncRemove_idle_le s cn s2 ha
      omega
  · split at hput
    · cases ha : asyncRemove s cn with
      | none => rw [ha] at hput; simp at hput
      | some s2 =>
        rw [ha, Option.map_some'] at hput
        simp only [Option.some.injEq, Prod.mk.injEq] at hput
        rw [← hput.2]
        have := asyncRemove_idle_le s cn s2 ha
        omega
    · split at hput
      · simp at hput
      · rename_i il hil
        split at hput
        · rename_i hroom
          cases hft : freeTurn { s with idleConns := some (il ++ [cn]), idleConnsLen := s.idleConnsLen + 1 } with
          | none => rw [hft] at hput; simp at hput
          | some s3 =>
            rw [hft, Option.map_some'] at hput
            simp only [Option.some.injEq, Prod.mk.injEq] at hput
            have hff := freeTurn_frame _ s3 hft
            rw [← hput.2, hff]
            simp only
            rcases hroom with h0 | hlt
            · simp only [beq_iff_eq] at h0
              omega
            · omega
        · cases hrm : removeConn s cn with
          | none => rw [hrm] at hput; simp at hput
          | some s2 =>
            rw [hrm, Option.some_bind] at hput
            cases hft : freeTurn s2 with
            | none => rw [hft] at hput; simp at hput
            | some s3 =>
              rw [hft, Option.map_some'] at hput
              simp only [Option.some.injEq, Prod.mk.injEq] at hput
              have hb := removeConn_idle_le s cn s2 hrm
              have hff := freeTurn_frame s2 s3 hft
              rw [← hput.2, hff]
              simp only [closeConnLog]
              omega

theorem reapStaleConn_idle_le (s : PoolState) (now : Nat) (ck : Bool)
    (o : Option Conn) (s1 : PoolState)
    (h : reapStaleConn s now ck = some (o, s1)) :
    s1.idleConnsLen ≤ max s.idleConnsLen (s.cfg.minIdleConns : Int) := by
  unfold reapStaleConn at h
  split at h
  · simp at h
  · simp only [Option.some.injEq, Prod.mk.injEq] at h
    rw [← h.2]
    simp
  · rename_i c rest heq
    split at h
    · cases hrm : removeConn
          { s with idleConns := some rest, idleConnsLen := s.idleConnsLen - 1 } c with
      | none => rw [hrm] at h; simp at h
      | some s2 =>
        rw [hrm, Option.map_some'] at h
        simp only [Option.some.injEq, Prod.mk.injEq] at h
        have hb := removeConn_idle_le _ c s2 hrm
        simp only at hb
        rw [← h.2]
        omega
    · simp only [Option.some.injEq, Prod.mk.injEq] at h
      rw [← h.2]
      simp

theorem reapLoop_idle_le (h : Nat → Nat × Bool) (fuel : Nat) :
    ∀ (s : PoolState) (k n m : Nat) (s1 : PoolState) (B : Int),
      (s.cfg.minIdleConns : Int) ≤ B → s.idleConnsLen ≤ B →
      reapLoop h fuel s k n = some (m, s1) →
      s1.idleConnsLen ≤ B := by
  induction fuel with
  | zero => intro s k n m s1 B hmin hle hl; simp [reapLoop] at hl
  | succ fuel ih =>
    intro s k n m s1 B hmin hle hl
    unfold reapLoop at hl
    split at hl
    · simp at hl
    · rename_i s2 hg
      have hg2 := getTurn_frame s s2 hg
      split at hl
      · simp at hl
      · rename_i s3 hr
        split at hl
        · simp at hl
        · rename_i s4 hf
          simp only [Option.some.injEq, Prod.mk.injEq] at hl
          have hb := reapStaleConn_idle_le s2 _ _ _ s3 hr
          have hff := freeTurn_frame s3 s4 hf
          rw [hg2] at hb
          simp only at hb
          rw [← hl.2, hff]
          simp only
          omega
      · rename_i cn s3 hr
        split at hl
        · simp at hl
        · rename_i s4 hf
          have hb := reapStaleConn_idle_le s2 _ _ _ s3 hr
          have hcfg3 := (reapStaleConn_frame s2 _ _ _ s3 hr).2.2.2.2.1
          have hff := freeTurn_frame s3 s4 hf
          rw [hg2] at hb hcfg3
          simp only at hb hcfg3
          refine ih (closeConnLog s4 cn) (k + 1) (n + 1) m s1 B ?_ ?_ hl
          · simp only [closeConnLog]
            rw [hff]
            simp only
            rw [hcfg3]
            exact hmin
          · simp only [closeConnLog]
            rw [hff]
            simp only
            omega

theorem step_cfg (s : PoolState) (op : Op) (o : Out) (s1 : PoolState)
    (hs : step s op = some (o, s1)) : s1.cfg = s.cfg := by
  cases op with
  | opGet cd t race h d =>
    simp only [step] at hs
    cases hg : get s cd t race h d with
    | none => rw [hg] at hs; simp at hs
    | some p =>
      rw [hg, Option.map_some'] at hs
      simp only [Option.some.injEq, Prod.mk.injEq] at hs
      rw [← hs.2]
      exact (get_frame s cd t race h d p.1 p.2 (by rw [hg])).1
  | opPut cn =>
    simp only [step] at hs
    cases hp : put s cn with
    | none => rw [hp] at hs; simp at hs
    | some p =>
      rw [hp, Option.map_some'] at hs
      simp only [Option.some.injEq, Prod.mk.injEq] at hs
      rw [← hs.2]
      exact (put_frame s cn p.1 p.2 (by rw [hp])).2.2.2.2.1
  | opRemove cn =>
    simp only [step, removeOp] at hs
    rw [← asyncRemove] at hs
    cases ha : asyncRemove s cn with
    | none => rw [ha] at hs; simp at hs
    | some s2 =>
      rw [ha, Option.map_some'] at hs
      simp only [Option.some.injEq, Prod.mk.injEq] at hs
      rw [← hs.2]
      exact (asyncRemove_frame s cn s2 ha).2.2.2.2.1
  | opAsyncRemove cn =>
    simp only [step] at hs
    cases ha : asyncRemove s cn with
    | none => rw [ha] at hs; simp at hs
    | some s2 =>
      rw [ha, Option.map_some'] at hs
      simp only [Option.some.injEq, Prod.mk.injEq] at hs
      rw [← hs.2]
      exact (asyncRemove_frame s cn s2 ha).2.2.2.2.1
  | opCloseConn cn =>
    simp only [step] at hs
    cases ha : closeConnOp s cn with
    | none => rw [ha] at hs; simp at hs
    | some s2 =>
      rw [ha, Option.map_some'] at hs
      simp only [Option.some.injEq, Prod.mk.injEq] at hs
      rw [← hs.2]
      exact (asyncCloseConn_spec s cn s2 ha).2.2.2.2.2.2.2.1
  | opAsyncCloseConn cn =>
    simp only [step] at hs
    cases ha : asyncCloseConn s cn with
    | none => rw [ha] at hs; simp at hs
    | some s2 =>
      rw [ha, Option.map_some'] at hs
      simp only [Option.some.injEq, Prod.mk.injEq] at hs
      rw [← hs.2]
      exact (asyncCloseConn_spec s cn s2 ha).2.2.2.2.2.2.2.1
  | opNewConn d =>
    simp only [step] at hs
    cases hn : newConn s false d with
    | none => rw [hn] at hs; simp at hs
    | some p =>
      rw [hn, Option.map_some'] at hs
      simp only [Option.some.injEq, Prod.mk.injEq] at hs
      rw [← hs.2]
      exact (newConn_frame s false d p.1 p.2 (by rw [hn])).2.2.2.2.2.2.2.2.1
  | opFilter pred =>
    simp only [step] at hs
    cases hf : filterOp s pred with
    | none => rw [hf] at hs; simp at hs
    | some p =>
      rw [hf, Option.map_some'] at hs
      simp only [Option.some.injEq, Prod.mk.injEq] at hs
      rw [← hs.2]
      exact (filterOp_frame s pred p.1 p.2 (by rw [hf])).2.2.2.2.2.1
  | opClose =>
    simp only [step] at hs
    cases hc : closePool s with
    | none => rw [hc] at hs; simp at hs
    | some p =>
      rw [hc, Option.map_some'] at hs
      simp only [Option.some.injEq, Prod.mk.injEq] at hs
      rw [← hs.2]
      exact (closePool_frame s p.1 p.2 (by rw [hc])).2.2.2.2.2.1
  | opReap h =>
    simp only [step] at hs
    cases hr : reapOp h s with
    | none => rw [hr] at hs; simp at hs
    | some p =>
      rw [hr, Option.map_some'] at hs
      simp only [Option.some.injEq, Prod.mk.injEq] at hs
      rw [← hs.2]
      unfold reapOp at hr
      cases hrl : reapLoop h (idleLenList s + 1) s 0 0 with
      | none => rw [hrl] at hr; simp at hr
      | some q =>
        rw [hrl, Option.map_some'] at hr
        simp only [Option.some.injEq] at hr
        rw [← hr]
        simp only
        exact (reapLoop_frame h (idleLenList s + 1) s 0 0 q.1 q.2
          (by rw [hrl])).2.2.2.1
  | opFiller d =>
    simp only [step] at hs
    cases hf : runFiller s d with
    | none => rw [hf] at hs; simp at hs
    | some s2 =>
      rw [hf, Option.map_some'] at hs
      simp only [Option.some.injEq, Prod.mk.injEq] at hs
      rw [← hs.2]
      exact (runFiller_frame s d s2 hf).2.2.2.2.2.2.1

theorem step_idle_le (s : PoolState) (op : Op) (o : Out) (s1 : PoolState)
    (hmin : (s.cfg.minIdleConns : Int) ≤ (s.cfg.maxIdleConns : Int))
    (hle : s.idleConnsLen ≤ (s.cfg.maxIdleConns : Int))
    (hmax : 0 < s.cfg.maxIdleConns)
    (hs : step s op = some (o, s1)) :
    s1.idleConnsLen ≤ (s.cfg.maxIdleConns : Int) := by
  cases op with
  | opGet cd t race h d =>
    simp only [step] at hs
    cases hg : get s cd t race h d with
    | none => rw [hg] at hs; simp at hs
    | some p =>
      rw [hg, Option.map_some'] at hs
      simp only [Option.some.injEq, Prod.mk.injEq] at hs
      rw [← hs.2]
      exact get_idle_le s cd t race h d p.1 p.2 _ hmin hle (by rw [hg])
  | opPut cn =>
    simp only [step] at hs
    cases hp : put s cn with
    | none => rw [hp] at hs; simp at hs
    | some p =>
      rw [hp, Option.map_some'] at hs
      simp only [Option.some.injEq, Prod.mk.injEq] at hs
      rw [← hs.2]
      exact put_idle_le s cn p.1 p.2 hmax (by omega) hle (by rw [hp])
  | opRemove cn =>
    simp only [step, removeOp] at hs
    rw [← asyncRemove] at hs
    cases ha : asyncRemove s cn with
    | none => rw [ha] at hs; simp at hs
    | some s2 =>
      rw [ha, Option.map_some'] at hs
      simp only [Option.some.injEq, Prod.mk.injEq] at hs
      rw [← hs.2]
      have := asyncRemove_idle_le s cn s2 ha
      omega
  | opAsyncRemove cn =>
    simp only [step] at hs
    cases ha : asyncRemove s cn with
    | none => rw [ha] at hs; simp at hs
    | some s2 =>
      rw [ha, Option.map_some'] at hs
      simp only [Option.some.injEq, Prod.mk.injEq] at hs
      rw [← hs.2]
      have := asyncRemove_idle_le s cn s2 ha
      omega
  | opCloseConn cn =>
    simp only [step] at hs
    cases ha : closeConnOp s cn with
    | none => rw [ha] at hs; simp at hs
    | some s2 =>
      rw [ha, Option.map_some'] at hs
      simp only [Option.some.injEq, Prod.mk.injEq] at hs
      rw [← hs.2]
      unfold closeConnOp at ha
      cases hrm : removeConn s cn with
      | none => rw [hrm] at ha; simp at ha
      | some s3 =>
        rw [hrm, Option.map_some'] at ha
        simp only [Option.some.injEq] at ha
        have := removeConn_idle_le s cn s3 hrm
        rw [← ha]
        simp only [closeConnLog]
        omega
  | opAsyncCloseConn cn =>
    simp only [step] at hs
    cases ha : asyncCloseConn s cn with
    | none => rw [ha] at hs; simp at hs
    | some s2 =>
      rw [ha, Option.map_some'] at hs
      simp only [Option.some.injEq, Prod.mk.injEq] at hs
      rw [← hs.2]
      have := asyncCloseConn_idle_le s cn s2 ha
      omega
  | opNewConn d =>
    simp only [step] at hs
    cases hn : newConn s false d with
    | none => rw [hn] at hs; simp at hs
    | some p =>
      rw [hn, Option.map_some'] at hs
      simp only [Option.some.injEq, Prod.mk.injEq] at hs
      rw [← hs.2]
      have := (newConn_frame s false d p.1 p.2 (by rw [hn])).2.2.2.2.2.2.1
      omega
  | opFilter pred =>
    simp only [step] at hs
    cases hf : filterOp s pred with
    | none => rw [hf] at hs; simp at hs
    | some p =>
      rw [hf, Option.map_some'] at hs
      simp only [Option.some.injEq, Prod.mk.injEq] at hs
      rw [← hs.2]
      have := (filterOp_frame s pred p.1 p.2 (by rw [hf])).2.2.2.2.2.2.1
      omega
  | opClose =>
    simp only [step] at hs
    cases hc : closePool s with
    | none => rw [hc] at hs; simp at hs
    | some p =>
      rw [hc, Option.map_some'] at hs
      simp only [Option.some.injEq, Prod.mk.injEq] at hs
      rw [← hs.2]
      have := (closePool_frame s p.1 p.2 (by rw [hc])).2.2.2.2.2.2.2
      rcases this with h0 | heq
      · omega
      · omega
  | opReap h =>
    simp only [step] at hs
    cases hr : reapOp h s with
    | none => rw [hr] at hs; simp at hs
    | some p =>
      rw [hr, Option.map_some'] at hs
      simp only [Option.some.injEq, Prod.mk.injEq] at hs
      rw [← hs.2]
      unfold reapOp at hr
      cases hrl : reapLoop h (idleLenList s + 1) s 0 0 with
      | none => rw [hrl] at hr; simp at hr
      | some q =>
        rw [hrl, Option.map_some'] at hr
        simp only [Option.some.injEq] at hr
        rw [← hr]
        simp only
        exact reapLoop_idle_le h (idleLenList s + 1) s 0 0 q.1 q.2 _ hmin hle
          (by rw [hrl])
  | opFiller d =>
    simp only [step] at hs
    cases hf : runFiller s d with
    | none => rw [hf] at hs; simp at hs
    | some s2 =>
      rw [hf, Option.map_some'] at hs
      simp only [Option.some.injEq, Prod.mk.injEq] at hs
      rw [← hs.2]
      have := (runFiller_frame s d s2 hf).2.2.2.2.2.2.2
      omega

theorem runOuts_cfg (ops : List Op) :
    ∀ (s : PoolState) (outs : List Out) (s1 : PoolState),
      runOuts s ops = some (outs, s1) → s1.cfg = s.cfg := by
  induction ops with
  | nil =>
    intro s outs s1 hr
    simp only [runOuts, Option.some.injEq, Prod.mk.injEq] at hr
    rw [← hr.2]
  | cons op rest ih =>
    intro s outs s1 hr
    unfold runOuts at hr
    split at hr
    · simp at hr
    · rename_i o s2 hst
      split at hr
      · simp at hr
      · rename_i os s3 hrest
        simp only [Option.some.injEq, Prod.mk.injEq] at hr
        rw [← hr.2, ih s2 os s3 hrest, step_cfg s op o s2 hst]

theorem runOuts_idle_le (ops : List Op) :
    ∀ (s : PoolState) (outs : List Out) (s1 : PoolState),
      0 < s.cfg.maxIdleConns →
      s.cfg.minIdleConns ≤ s.cfg.maxIdleConns →
      s.idleConnsLen ≤ (s.cfg.maxIdleConns : Int) →
      runOuts s ops = some (outs, s1) →
      s1.idleConnsLen ≤ (s.cfg.maxIdleConns : Int) := by
  induction ops with
  | nil =>
    intro s outs s1 hmax hmin hle hr
    simp only [runOuts, Option.some.injEq, Prod.mk.injEq] at hr
    rw [← hr.2]
    exact hle
  | cons op rest ih =>
    intro s outs s1 hmax hmin hle hr
    unfold runOuts at hr
    split at hr
    · simp at hr
    · rename_i o s2 hst
      split at hr
      · simp at hr
      · rename_i os s3 hrest
        simp only [Option.some.injEq, Prod.mk.injEq] at hr
        have hcfg := step_cfg s op o s2 hst
        have h2 := step_idle_le s op o s2 (by exact_mod_cast hmin) hle hmax hst
        have h3 := ih s2 os s3 (by rw [hcfg]; exact hmax) (by rw [hcfg]; exact hmin)
          (by rw [hcfg]; exact h2) hrest
        rw [← hr.2]
        rw [hcfg] at h3
        exact h3

/-- C5 amended: for pools configured with `MaxIdleConns > 0` **and**
`MinIdleConns ≤ MaxIdleConns`, `idleConnsLen ≤ MaxIdleConns` holds after
construction and after every completed operation of every trace (the
min-idle filler included); the claim as stated fails because
`checkMinIdleConns` never consults `MaxIdleConns`, so a configuration with
`MinIdleConns > MaxIdleConns` violates the cap already at `NewConnPool`. -/
theorem idle_cap (ops : List Op) (cfg : Options) (s s1 : PoolState) :
    (cfg.minIdleConns ≤ cfg.maxIdleConns →
      (newConnPool cfg).idleConnsLen ≤ (cfg.maxIdleConns : Int)) ∧
    (0 < s.cfg.maxIdleConns →
      s.cfg.minIdleConns ≤ s.cfg.maxIdleConns →
      s.idleConnsLen ≤ (s.cfg.maxIdleConns : Int) →
      runPool s ops = some s1 →
      s1.idleConnsLen ≤ (s1.cfg.maxIdleConns : Int)) := by
  constructor
  · intro hmin
    unfold newConnPool
    have := (checkMinIdleConns_le
      { cfg := cfg, dialErrorsNum := 0, lastDialError := none, queueLen := 0,
        conns := some [], idleConns := some [], poolSize := 0, idleConnsLen := 0,
        hits := 0, misses := 0, timeouts := 0, staleConns := 0,
        closedFlag := false, pendingFillers := 0, proberSpawns := 0,
        closeLog := [], nextId := 0 }).2
    simp only at this
    have hc : (cfg.minIdleConns : Int) ≤ (cfg.maxIdleConns : Int) := by
      exact_mod_cast hmin
    omega
  · intro hmax hmin hle hr
    unfold runPool at hr
    cases hro : runOuts s ops with
    | none => rw [hro] at hr; simp at hr
    | some p =>
      rw [hro, Option.map_some'] at hr
      simp only [Option.some.injEq] at hr
      have hcfg := runOuts_cfg ops s p.1 p.2 (by rw [hro])
      have := runOuts_idle_le ops s p.1 p.2 hmax hmin hle (by rw [hro])
      rw [← hr, hcfg]
      exact this

/-- Configuration violating the idle cap at construction:
`MinIdleConns = 3 > 2 = MaxIdleConns`. -/
def cfgC5 : Options :=
  { poolFIFO := false, poolSize := 5, minIdleConns := 3, maxIdleConns := 2,
    connMaxIdleTime := 0, connMaxLifetime := 0 }

/-- Counterexample to C5 as stated: with `MaxIdleConns = 2 > 0` and
`MinIdleConns = 3`, the min-idle reservation performed by `NewConnPool`
itself leaves `idleConnsLen = 3 > 2 = MaxIdleConns`. -/
theorem idle_cap_counterexample :
    (newConnPool cfgC5).idleConnsLen = 3 ∧
    0 < cfgC5.maxIdleConns ∧
    ¬ (newConnPool cfgC5).idleConnsLen ≤ (cfgC5.maxIdleConns : Int) := by
  refine ⟨by decide, by decide, by decide⟩

/-- Configuration for the C5 witness: `MinIdleConns = 1 ≤ 1 = MaxIdleConns`. -/
def cfgC5w : Options :=
  { poolFIFO := false, poolSize := 2, minIdleConns := 1, maxIdleConns := 1,
    connMaxIdleTime := 0, connMaxLifetime := 0 }

/-- Connection created by the C5 witness filler. -/
def c5wConn : Conn :=
  { id := 0, createdAt := 3, usedAt := 3, pooled := true, buffered := 0 }

/-- State after the C5 witness trace (one completed min-idle filler). -/
def c5wSt : PoolState :=
  { newConnPool cfgC5w with
    pendingFillers := 0, conns := some [c5wConn], idleConns := some [c5wConn],
    nextId := 1 }

/-- Witness for C5 amended: running the min-idle filler on a fresh
compliant pool keeps `idleConnsLen ≤ MaxIdleConns`. -/
theorem idle_cap_witness :
    runPool (newConnPool cfgC5w) [Op.opFiller (DialOutcome.ok 3)] = some c5wSt ∧
    c5wSt.idleConnsLen ≤ (c5wSt.cfg.maxIdleConns : Int) :=
  ⟨by decide,
   (idle_cap [Op.opFiller (DialOutcome.ok 3)] cfgC5w (newConnPool cfgC5w)
      c5wSt).2 (by decide) (by decide) (by decide) (by decide)⟩

/-! Claim C3: close-once discipline. Identity of connections is their
pointer id; `closeLog` records every dispatched `cn.Close()`. -/

/-- Pointer ids of a list of connections. -/
def connIds (l : List Conn) : List Nat := l.map (fun c => c.id)

/-- Ids of all registered connections (empty when the list is nil). -/
def connsIds (s : PoolState) : List Nat := connIds (s.conns.getD [])

/-- Ids of the idle connections (empty when the list is nil). -/
def idleIds (s : PoolState) : List Nat := connIds (s.idleConns.getD [])

theorem connIds_removeFirstById (l : List Conn) (i : Nat) :
    connIds (removeFirstById l i) = (connIds l).erase i := by
  induction l with
  | nil => simp [removeFirstById, connIds]
  | cons c rest ih =>
    unfold removeFirstById
    by_cases hc : c.id = i
    · simp [connIds, hc, List.erase_cons_head]
    · simp only [hc, beq_iff_eq, if_false, if_neg hc]
      simp only [connIds, List.map_cons] at ih ⊢
      rw [ih, List.erase_cons_tail]
      simp [hc]

theorem connIds_removeGhost (l : List Conn) (cn : Conn) :
    connIds (removeGhost l cn) = (connIds l).filter (fun j => !(j == cn.id)) := by
  unfold removeGhost connIds
  induction l with
  | nil => simp
  | cons c rest ih =>
    simp only [List.filter_cons, List.map_cons]
    by_cases hc : c.id = cn.id <;> simp [hc, ih]

theorem mem_connIds_removeGhost (l : List Conn) (cn : Conn) (j : Nat) :
    j ∈ connIds (removeGhost l cn) ↔ j ∈ connIds l ∧ j ≠ cn.id := by
  rw [connIds_removeGhost]
  simp [List.mem_filter]

theorem nodup_connIds_removeGhost (l : List Conn) (cn : Conn)
    (h : (connIds l).Nodup) : (connIds (removeGhost l cn)).Nodup := by
  rw [connIds_removeGhost]
  exact h.filter _

/-- Detailed specification of a successful `popIdle`: the popped connection
comes from the idle list, the new idle list is the old one with that
occurrence removed, and everything else is untouched. -/
theorem popIdle_pop_spec (s s1 : PoolState) (cn : Conn)
    (h : popIdle s = some (Except.ok (some cn), s1)) :
    s1.conns = s.conns ∧ s1.closeLog = s.closeLog ∧
    s1.nextId = s.nextId ∧ s1.closedFlag = s.closedFlag ∧
    cn.id ∈ idleIds s ∧
    (∀ j ∈ idleIds s1, j ∈ idleIds s) ∧
    ((idleIds s).Nodup → (idleIds s1).Nodup ∧ cn.id ∉ idleIds s1) := by
  obtain ⟨p1, p2, -, -, -, -, -, p8, p9, p10, -⟩ := popIdle_frame s s1 cn h
  refine ⟨p9, p10, p8, p2, ?_⟩
  unfold popIdle at h
  split at h
  · simp at h
  · split at h
    · simp at h
    · simp at h
    · rename_i c rest heq
      simp only [Option.some.injEq, Prod.mk.injEq, Except.ok.injEq] at h
      obtain ⟨hcn, hs1⟩ := h
      have hidle1 : s1.idleConns =
          some (if s.cfg.poolFIFO then rest else (c :: rest).dropLast) := by
        rw [← hs1, checkMinIdleConns_idleConns]
      by_cases hf : s.cfg.poolFIFO = true
      · rw [if_pos hf] at hidle1
        rw [if_pos hf] at hcn
        unfold idleIds
        rw [hidle1, heq]
        simp only [Option.getD_some]
        refine ⟨by rw [← hcn]; simp [connIds], ?_, ?_⟩
        · intro j hj
          simp only [connIds, List.map_cons] at hj ⊢
          exact List.mem_cons_of_mem _ hj
        · intro hnd
          simp only [connIds, List.map_cons, List.nodup_cons] at hnd
          rw [← hcn]
          exact ⟨hnd.2, hnd.1⟩
      · rw [if_neg hf] at hidle1
        rw [if_neg hf] at hcn
        unfold idleIds
        rw [hidle1, heq]
        simp only [Option.getD_some]
        have hsplit : (c :: rest).dropLast ++
            [(c :: rest).getLast (List.cons_ne_nil c rest)] = c :: rest :=
          List.dropLast_append_getLast (List.cons_ne_nil c rest)
        refine ⟨?_, ?_, ?_⟩
        · rw [← hcn]
          simp only [connIds]
          exact List.mem_map_of_mem _ (List.getLast_mem _)
        · intro j hj
          rw [← hsplit]
          simp only [connIds, List.map_append] at hj ⊢
          exact List.mem_append_left _ hj
        · intro hnd
          rw [← hsplit] at hnd
          simp only [connIds, List.map_append, List.nodup_append] at hnd
          refine ⟨hnd.1, ?_⟩
          rw [← hcn]
          intro hmem
          exact hnd.2.2 hmem (by simp [connIds])

/-- Detailed specification of `removeConn` at the id level. -/
theorem removeConn_ids_spec (s : PoolState) (cn : Conn) (s1 : PoolState)
    (h : removeConn s cn = some s1) :
    (∀ j ∈ connsIds s1, j ∈ connsIds s) ∧
    ((connsIds s).Nodup → (connsIds s1).Nodup) ∧
    ((connsIds s).Nodup → cn.id ∈ connsIds s → cn.id ∉ connsIds s1) ∧
    (∀ j ∈ connsIds s, j ≠ cn.id → j ∈ connsIds s1) := by
  unfold removeConn at h
  split at h
  · simp at h
  · rename_i l heq
    have hids : connsIds s = connIds l := by unfold connsIds; rw [heq]; rfl
    split at h
    · rename_i hfound
      have hkey : connsIds s1 = (connIds l).erase cn.id := by
        split at h
        · simp only [Option.some.injEq] at h
          rw [← h]
          unfold connsIds
          rw [(checkMinIdleConns_frame _).2.2.2.2.2.2.2.2.2.1]
          simp only [Option.getD_some]
          exact connIds_removeFirstById l cn.id
        · simp only [Option.some.injEq] at h
          rw [← h]
          unfold connsIds
          simp only [Option.getD_some]
          exact connIds_removeFirstById l cn.id
      rw [hkey, hids]
      refine ⟨fun j hj => List.mem_of_mem_erase hj,
        fun hnd => hnd.erase _, fun hnd hin => ?_, fun j hj hne => ?_⟩
      · intro hmem
        exact ((List.Nodup.mem_erase_iff hnd).1 hmem).1 rfl
      · exact (List.mem_erase_of_ne hne).2 hj
    · simp only [Option.some.injEq] at h
      rw [← h]
      exact ⟨fun j hj => hj, fun hnd => hnd, fun hnd hin hmem => by
        rename_i hnotfound
        apply hnotfound
        rw [hids] at hin
        simp only [connIds, List.mem_map] at hin
        obtain ⟨c, hc, hcid⟩ := hin
        simp only [List.any_eq_true, beq_iff_eq]
        exact ⟨c, hc, hcid⟩, fun j hj hne => hj⟩

/-- Registry/ghost invariant for the close-once property: the close log has
no duplicates and is disjoint from the registry; registry, idle list and
ghost lists are duplicate-free and suitably related; ids are dominated by
the allocation counter; after `Close` both lists are nil. -/
structure Inv (s : PoolState) (g : Ghost) : Prop where
  log_nodup : s.closeLog.Nodup
  log_disj : ∀ i ∈ s.closeLog, i ∉ connsIds s
  conns_nodup : (connsIds s).Nodup
  idle_nodup : (idleIds s).Nodup
  idle_sub : ∀ i ∈ idleIds s, i ∈ connsIds s
  co_sub : s.closedFlag = false → ∀ i ∈ connIds g.checkedOut, i ∈ connsIds s
  ad_sub : s.closedFlag = false → ∀ i ∈ connIds g.adHoc, i ∈ connsIds s
  idle_co : ∀ i ∈ idleIds s, i ∉ connIds g.checkedOut
  idle_ad : ∀ i ∈ idleIds s, i ∉ connIds g.adHoc
  co_ad : ∀ i ∈ connIds g.checkedOut, i ∉ connIds g.adHoc
  co_nodup : (connIds g.checkedOut).Nodup
  ad_nodup : (connIds g.adHoc).Nodup
  fresh_conns : ∀ i ∈ connsIds s, i < s.nextId
  fresh_log : ∀ i ∈ s.closeLog, i < s.nextId
  fresh_co : ∀ i ∈ connIds g.checkedOut, i < s.nextId
  fresh_ad : ∀ i ∈ connIds g.adHoc, i < s.nextId
  closed_none : s.closedFlag = true → s.conns = none ∧ s.idleConns = none

/-- Transfer of the invariant along a state that agrees on every field the
invariant mentions. -/
theorem inv_congr (s s1 : PoolState) (g : Ghost)
    (hlog : s1.closeLog = s.closeLog) (hconns : s1.conns = s.conns)
    (hidle : s1.idleConns = s.idleConns) (hcl : s1.closedFlag = s.closedFlag)
    (hnext : s1.nextId = s.nextId) (hi : Inv s g) : Inv s1 g := by
  have hc : connsIds s1 = connsIds s := by unfold connsIds; rw [hconns]
  have hii : idleIds s1 = idleIds s := by unfold idleIds; rw [hidle]
  exact ⟨hlog ▸ hi.log_nodup,
    by rw [hlog, hc]; exact hi.log_disj,
    by rw [hc]; exact hi.conns_nodup,
    by rw [hii]; exact hi.idle_nodup,
    by rw [hii, hc]; exact hi.idle_sub,
    by rw [hcl, hc]; exact hi.co_sub,
    by rw [hcl, hc]; exact hi.ad_sub,
    by rw [hii]; exact hi.idle_co,
    by rw [hii]; exact hi.idle_ad,
    hi.co_ad, hi.co_nodup, hi.ad_nodup,
    by rw [hc, hnext]; exact hi.fresh_conns,
    by rw [hlog, hnext]; exact hi.fresh_log,
    by rw [hnext]; exact hi.fresh_co,
    by rw [hnext]; exact hi.fresh_ad,
    by rw [hcl, hconns, hidle]; exact hi.closed_none⟩

theorem popIdle_error_eq (s s1 : PoolState) (e : Err)
    (h : popIdle s = some (Except.error e, s1)) : s1 = s := by
  unfold popIdle at h
  split at h
  · simp only [Option.some.injEq, Prod.mk.injEq] at h
    exact h.2.symm
  · split at h <;> simp at h

theorem reapStaleConn_none_eq (s : PoolState) (now : Nat) (ck : Bool)
    (s1 : PoolState) (h : reapStaleConn s now ck = some (none, s1)) : s1 = s := by
  unfold reapStaleConn at h
  split at h
  · simp at h
  · simp only [Option.some.injEq, Prod.mk.injEq] at h
    exact h.2.symm
  · split at h
    · cases hr : removeConn
        { s with idleConns := _, idleConnsLen := s.idleConnsLen - 1 } _ with
      | none => rw [hr] at h; simp at h
      | some s2 => rw [hr] at h; simp at h
    · simp only [Option.some.injEq, Prod.mk.injEq] at h
      exact h.2.symm

theorem popIdle_ok_some_open (s s1 : PoolState) (cn : Conn)
    (h : popIdle s = some (Except.ok (some cn), s1)) :
    s.closedFlag = false := by
  unfold popIdle at h
  split at h
  · simp at h
  · rename_i hcl
    simpa using hcl

theorem dialConn_ok_open (s : PoolState) (pooled : Bool) (d : DialOutcome)
    (cn : Conn) (b : Bool) (s2 : PoolState)
    (h : dialConn s pooled d = (Except.ok cn, b, s2)) :
    s.closedFlag = false ∧ cn.id = s.nextId ∧ s2.nextId = s.nextId + 1 := by
  unfold dialConn at h
  split at h
  · simp at h
  · rename_i hcl
    split at h
    · simp at h
    · split at h
      · simp at h
      · simp only [Prod.mk.injEq, Except.ok.injEq] at h
        refine ⟨by simpa using hcl, ?_, ?_⟩
        · rw [← h.1]
        · rw [← h.2.2]

theorem isHealthyConn_id (cfg : Options) (now : Nat) (ck : Bool) (cn : Conn) :
    (isHealthyConn cfg now ck cn).2.id = cn.id := by
  unfold isHealthyConn
  split
  · rfl
  · split
    · rfl
    · split <;> rfl

/-- Eviction of a just-popped idle connection preserves the invariant. -/
theorem inv_asyncCloseConn (s : PoolState) (g : Ghost) (cn : Conn)
    (s1 : PoolState) (hi : Inv s g) (hin : cn.id ∈ connsIds s)
    (hnco : cn.id ∉ connIds g.checkedOut) (hnad : cn.id ∉ connIds g.adHoc)
    (hnidle : cn.id ∉ idleIds s) (hopen : s.closedFlag = false)
    (h : asyncCloseConn s cn = some s1) :
    Inv s1 g ∧ s1.closedFlag = s.closedFlag := by
  unfold asyncCloseConn at h
  cases hrm : removeConn s cn with
  | none => rw [hrm] at h; simp at h
  | some s2 =>
    rw [hrm, Option.map_some'] at h
    simp only [Option.some.injEq] at h
    obtain ⟨r1, r2, r3, r4⟩ := removeConn_ids_spec s cn s2 hrm
    obtain ⟨f1, f2, f3, f4, f5, f6, f7, f8, f9, f10, f11, f12, f13⟩ :=
      removeConn_frame s cn s2 hrm
    have hclog : s1.closeLog = s.closeLog ++ [cn.id] := by
      rw [← h]; simp [closeConnLog, f9]
    have hcids : connsIds s1 = connsIds s2 := by
      rw [← h]; unfold connsIds; simp [closeConnLog]
    have hiids : idleIds s1 = idleIds s := by
      rw [← h]; unfold idleIds; simp [closeConnLog, f10]
    have hcl1 : s1.closedFlag = s.closedFlag := by
      rw [← h]; simp [closeConnLog, f2]
    have hnext1 : s1.nextId = s.nextId := by
      rw [← h]; simp [closeConnLog, f3]
    have hnotrm : cn.id ∉ connsIds s2 := r3 hi.conns_nodup hin
    refine ⟨⟨?_, ?_, ?_, ?_, ?_, ?_, ?_, ?_, ?_, hi.co_ad, hi.co_nodup,
      hi.ad_nodup, ?_, ?_, ?_, ?_, ?_⟩, hcl1⟩
    · rw [hclog]
      refine List.Nodup.append hi.log_nodup (by simp) ?_
      intro a ha hb
      simp only [List.mem_singleton] at hb
      subst hb
      exact hi.log_disj _ ha hin
    · rw [hclog, hcids]
      intro i hmem
      rcases List.mem_append.1 hmem with hl | hr
      · exact fun hc => hi.log_disj i hl (r1 i hc)
      · simp only [List.mem_singleton] at hr
        subst hr
        exact hnotrm
    · rw [hcids]
      exact r2 hi.conns_nodup
    · rw [hiids]; exact hi.idle_nodup
    · rw [hiids, hcids]
      intro i hmem
      have hne : i ≠ cn.id := fun he => hnidle (he ▸ hmem)
      exact r4 i (hi.idle_sub i hmem) hne
    · rw [hcl1, hcids]
      intro hop i hmem
      have hne : i ≠ cn.id := fun he => hnco (he ▸ hmem)
      exact r4 i (hi.co_sub hop i hmem) hne
    · rw [hcl1, hcids]
      intro hop i hmem
      have hne : i ≠ cn.id := fun he => hnad (he ▸ hmem)
      exact r4 i (hi.ad_sub hop i hmem) hne
    · rw [hiids]; exact hi.idle_co
    · rw [hiids]; exact hi.idle_ad
    · rw [hcids, hnext1]
      intro i hmem
      exact hi.fresh_conns i (r1 i hmem)
    · rw [hclog, hnext1]
      intro i hmem
      rcases List.mem_append.1 hmem with hl | hr
      · exact hi.fresh_log i hl
      · simp only [List.mem_singleton] at hr
        subst hr
        exact hi.fresh_conns _ hin
    · rw [hnext1]; exact hi.fresh_co
    · rw [hnext1]; exact hi.fresh_ad
    · rw [hcl1, hopen]
      intro hfalse
      cases hfalse

theorem dialConn_ok_state (s : PoolState) (pooled : Bool) (d : DialOutcome)
    (cn : Conn) (b : Bool) (s2 : PoolState)
    (h : dialConn s pooled d = (Except.ok cn, b, s2)) :
    s.closedFlag = false ∧ cn.id = s.nextId ∧
    s2 = { s with nextId := s.nextId + 1 } := by
  unfold dialConn at h
  split at h
  · simp at h
  · rename_i hcl
    split at h
    · simp at h
    · split at h
      · simp at h
      · simp only [Prod.mk.injEq, Except.ok.injEq] at h
        exact ⟨by simpa using hcl, by rw [← h.1], h.2.2.symm⟩

theorem dialConn_error_frame (s : PoolState) (pooled : Bool) (d : DialOutcome)
    (e : Err) (b : Bool) (s2 : PoolState)
    (h : dialConn s pooled d = (Except.error e, b, s2)) :
    s2.closeLog = s.closeLog ∧ s2.conns = s.conns ∧ s2.idleConns = s.idleConns ∧
    s2.closedFlag = s.closedFlag ∧ s2.nextId = s.nextId := by
  unfold dialConn at h
  split at h
  · simp only [Prod.mk.injEq] at h
    rw [← h.2.2]
    exact ⟨rfl, rfl, rfl, rfl, rfl⟩
  · split at h
    · simp only [Prod.mk.injEq] at h
      rw [← h.2.2]
      exact ⟨rfl, rfl, rfl, rfl, rfl⟩
    · split at h
      · simp only [Prod.mk.injEq] at h
        rw [← h.2.2]
        exact ⟨rfl, rfl, rfl, rfl, rfl⟩
      · simp at h

/-- Workhorse transfer: the invariant survives any state change that keeps
the close log, registry, closed flag and id counter and only shrinks the
idle list (duplicate-freely). -/
theorem inv_set_idle_sub (s s1 : PoolState) (g : Ghost)
    (hlog : s1.closeLog = s.closeLog) (hconns : s1.conns = s.conns)
    (hcl : s1.closedFlag = s.closedFlag) (hnext : s1.nextId = s.nextId)
    (hsub : ∀ i ∈ idleIds s1, i ∈ idleIds s)
    (hnodup : (idleIds s).Nodup → (idleIds s1).Nodup)
    (hclosed : s1.closedFlag = true → s1.idleConns = none)
    (hi : Inv s g) : Inv s1 g := by
  have hc : connsIds s1 = connsIds s := by unfold connsIds; rw [hconns]
  refine ⟨hlog ▸ hi.log_nodup,
    by rw [hlog, hc]; exact hi.log_disj,
    by rw [hc]; exact hi.conns_nodup,
    hnodup hi.idle_nodup,
    ?_, ?_, ?_, ?_, ?_,
    hi.co_ad, hi.co_nodup, hi.ad_nodup,
    by rw [hc, hnext]; exact hi.fresh_conns,
    by rw [hlog, hnext]; exact hi.fresh_log,
    by rw [hnext]; exact hi.fresh_co,
    by rw [hnext]; exact hi.fresh_ad, ?_⟩
  · intro i hmem
    rw [hc]
    exact hi.idle_sub i (hsub i hmem)
  · rw [hcl, hc]
    exact hi.co_sub
  · rw [hcl, hc]
    exact hi.ad_sub
  · intro i hmem
    exact hi.idle_co i (hsub i hmem)
  · intro i hmem
    exact hi.idle_ad i (hsub i hmem)
  · intro hcl1
    refine ⟨?_, hclosed hcl1⟩
    rw [hconns]
    exact ((hi.closed_none (by rw [← hcl, hcl1])).1)

/-- A successful `popIdle` preserves the invariant. -/
theorem inv_popIdle (s s1 : PoolState) (g : Ghost) (cn : Conn)
    (hi : Inv s g) (h : popIdle s = some (Except.ok (some cn), s1)) :
    Inv s1 g := by
  obtain ⟨p1, p2, p3, p4, p5, p6, p7⟩ := popIdle_pop_spec s s1 cn h
  have hopen := popIdle_ok_some_open s s1 cn h
  exact inv_set_idle_sub s s1 g p2 p1 p4 p3 p6 (fun hn => (p7 hn).1)
    (fun hcl => by rw [p4, hopen] at hcl; cases hcl) hi

/-- General removal-then-close step: `removeConn` followed by a dispatch of
`cn.Close()` preserves the invariant for any new ghost whose lists only
lose entries and in particular lose `cn`. -/
theorem inv_close_general (s s2 s1 : PoolState) (g g1 : Ghost) (cn : Conn)
    (hi : Inv s g) (hin : cn.id ∈ connsIds s) (hnidle : cn.id ∉ idleIds s)
    (hopen : s.closedFlag = false)
    (hrm : removeConn s cn = some s2)
    (hlog : s1.closeLog = s2.closeLog ++ [cn.id])
    (hconns : s1.conns = s2.conns) (hidle : s1.idleConns = s2.idleConns)
    (hcl : s1.closedFlag = s2.closedFlag) (hnext : s1.nextId = s2.nextId)
    (hco : ∀ i ∈ connIds g1.checkedOut, i ∈ connIds g.checkedOut ∧ i ≠ cn.id)
    (had : ∀ i ∈ connIds g1.adHoc, i ∈ connIds g.adHoc ∧ i ≠ cn.id)
    (hcon : (connIds g1.checkedOut).Nodup) (hadn : (connIds g1.adHoc).Nodup) :
    Inv s1 g1 ∧ s1.closedFlag = false := by
  obtain ⟨r1, r2, r3, r4⟩ := removeConn_ids_spec s cn s2 hrm
  obtain ⟨f1, f2, f3, f4, f5, f6, f7, f8, f9, f10, f11, f12, f13⟩ :=
    removeConn_frame s cn s2 hrm
  have hclog : s1.closeLog = s.closeLog ++ [cn.id] := by rw [hlog, f9]
  have hcids : connsIds s1 = connsIds s2 := by unfold connsIds; rw [hconns]
  have hiids : idleIds s1 = idleIds s := by unfold idleIds; rw [hidle, f10]
  have hcl1 : s1.closedFlag = s.closedFlag := by rw [hcl, f2]
  have hnext1 : s1.nextId = s.nextId := by rw [hnext, f3]
  have hnotrm : cn.id ∉ connsIds s2 := r3 hi.conns_nodup hin
  refine ⟨⟨?_, ?_, ?_, ?_, ?_, ?_, ?_, ?_, ?_, ?_, hcon, hadn,
    ?_, ?_, ?_, ?_, ?_⟩, by rw [hcl1, hopen]⟩
  · rw [hclog]
    refine List.Nodup.append hi.log_nodup (by simp) ?_
    intro a ha hb
    simp only [List.mem_singleton] at hb
    subst hb
    exact hi.log_disj _ ha hin
  · rw [hclog, hcids]
    intro i hmem
    rcases List.mem_append.1 hmem with hl | hr
    · exact fun hc => hi.log_disj i hl (r1 i hc)
    · simp only [List.mem_singleton] at hr
      subst hr
      exact hnotrm
  · rw [hcids]
    exact r2 hi.conns_nodup
  · rw [hiids]; exact hi.idle_nodup
  · rw [hiids, hcids]
    intro i hmem
    have hne : i ≠ cn.id := fun he => hnidle (he ▸ hmem)
    exact r4 i (hi.idle_sub i hmem) hne
  · rw [hcl1, hcids]
    intro hop i hmem
    exact r4 i (hi.co_sub hop i (hco i hmem).1) (hco i hmem).2
  · rw [hcl1, hcids]
    intro hop i hmem
    exact r4 i (hi.ad_sub hop i (had i hmem).1) (had i hmem).2
  · rw [hiids]
    intro i hmem hc
    exact hi.idle_co i hmem (hco i hc).1
  · rw [hiids]
    intro i hmem hc
    exact hi.idle_ad i hmem (had i hc).1
  · intro i hmem hc
    exact hi.co_ad i (hco i hmem).1 (had i hc).1
  · rw [hcids, hnext1]
    intro i hmem
    exact hi.fresh_conns i (r1 i hmem)
  · rw [hclog, hnext1]
    intro i hmem
    rcases List.mem_append.1 hmem with hl | hr
    · exact hi.fresh_log i hl
    · simp only [List.mem_singleton] at hr
      subst hr
      exact hi.fresh_conns _ hin
  · rw [hnext1]
    intro i hmem
    exact hi.fresh_co i (hco i hmem).1
  · rw [hnext1]
    intro i hmem
    exact hi.fresh_ad i (had i hmem).1
  · rw [hcl1, hopen]
    intro hfalse
    cases hfalse

/-- Adding a connection known to be registered, not idle and not yet
tracked to the checked-out ghost list preserves the invariant. -/
theorem inv_add_co (s : PoolState) (g : Ghost) (cn : Conn)
    (hi : Inv s g) (hin : cn.id ∈ connsIds s) (hni : cn.id ∉ idleIds s)
    (hnco : cn.id ∉ connIds g.checkedOut) (hnad : cn.id ∉ connIds g.adHoc) :
    Inv s { g with checkedOut := g.checkedOut ++ [cn] } := by
  have hids : connIds (g.checkedOut ++ [cn]) = connIds g.checkedOut ++ [cn.id] := by
    unfold connIds
    simp
  refine ⟨hi.log_nodup, hi.log_disj, hi.conns_nodup, hi.idle_nodup, hi.idle_sub,
    ?_, hi.ad_sub, ?_, hi.idle_ad, ?_, ?_, hi.ad_nodup,
    hi.fresh_conns, hi.fresh_log, ?_, hi.fresh_ad, hi.closed_none⟩
  · intro hop i hmem
    simp only [hids, List.mem_append, List.mem_singleton] at hmem
    rcases hmem with hl | hr
    · exact hi.co_sub hop i hl
    · subst hr
      exact hin
  · intro i hmem
    simp only [hids, List.mem_append, List.mem_singleton]
    rintro (hl | hr)
    · exact hi.idle_co i hmem hl
    · subst hr
      exact hni hmem
  · intro i hmem
    simp only [hids, List.mem_append, List.mem_singleton] at hmem
    rcases hmem with hl | hr
    · exact hi.co_ad i hl
    · subst hr
      exact hnad
  · rw [hids]
    refine List.Nodup.append hi.co_nodup (by simp) ?_
    intro a ha hb
    simp only [List.mem_singleton] at hb
    subst hb
    exact hnco ha
  · intro i hmem
    simp only [hids, List.mem_append, List.mem_singleton] at hmem
    rcases hmem with hl | hr
    · exact hi.fresh_co i hl
    · subst hr
      exact hi.fresh_conns _ hin

/-- Adding a connection known to be registered, not idle and not yet
tracked to the ad-hoc ghost list preserves the invariant. -/
theorem inv_add_ad (s : PoolState) (g : Ghost) (cn : Conn)
    (hi : Inv s g) (hin : cn.id ∈ connsIds s) (hni : cn.id ∉ idleIds s)
    (hnco : cn.id ∉ connIds g.checkedOut) (hnad : cn.id ∉ connIds g.adHoc) :
    Inv s { g with adHoc := g.adHoc ++ [cn] } := by
  have hids : connIds (g.adHoc ++ [cn]) = connIds g.adHoc ++ [cn.id] := by
    unfold connIds
    simp
  refine ⟨hi.log_nodup, hi.log_disj, hi.conns_nodup, hi.idle_nodup, hi.idle_sub,
    hi.co_sub, ?_, hi.idle_co, ?_, ?_, hi.co_nodup, ?_,
    hi.fresh_conns, hi.fresh_log, hi.fresh_co, ?_, hi.closed_none⟩
  · intro hop i hmem
    simp only [hids, List.mem_append, List.mem_singleton] at hmem
    rcases hmem with hl | hr
    · exact hi.ad_sub hop i hl
    · subst hr
      exact hin
  · intro i hmem
    simp only [hids, List.mem_append, List.mem_singleton]
    rintro (hl | hr)
    · exact hi.idle_ad i hmem hl
    · subst hr
      exact hni hmem
  · intro i hmem
    simp only [hids, List.mem_append, List.mem_singleton]
    rintro (hl | hr)
    · exact hi.co_ad i hmem hl
    · subst hr
      exact hnco hmem
  · rw [hids]
    refine List.Nodup.append hi.ad_nodup (by simp) ?_
    intro a ha hb
    simp only [List.mem_singleton] at hb
    subst hb
    exact hnad ha
  · intro i hmem
    simp only [hids, List.mem_append, List.mem_singleton] at hmem
    rcases hmem with hl | hr
    · exact hi.fresh_ad i hl
    · subst hr
      exact hi.fresh_conns _ hin

/-- Registering a freshly dialed connection (id = the allocation counter)
preserves the invariant, and the new connection is tracked nowhere else. -/
theorem inv_append_conn (s s1 : PoolState) (g : Ghost) (cn : Conn) (l : List Conn)
    (hi : Inv s g) (hconns0 : s.conns = some l) (hid : cn.id = s.nextId)
    (hopen : s.closedFlag = false)
    (hlog : s1.closeLog = s.closeLog) (hconns : s1.conns = some (l ++ [cn]))
    (hidle : s1.idleConns = s.idleConns) (hcl : s1.closedFlag = s.closedFlag)
    (hnext : s1.nextId = s.nextId + 1) :
    Inv s1 g ∧ cn.id ∈ connsIds s1 ∧ cn.id ∉ idleIds s1 ∧
    cn.id ∉ connIds g.checkedOut ∧ cn.id ∉ connIds g.adHoc ∧
    s1.closedFlag = false := by
  have hcid0 : connsIds s = connIds l := by unfold connsIds; rw [hconns0]; rfl
  have hcid1 : connsIds s1 = connsIds s ++ [cn.id] := by
    unfold connsIds connIds
    rw [hconns, hconns0]
    simp
  have hiids : idleIds s1 = idleIds s := by unfold idleIds; rw [hidle]
  have hfco : cn.id ∉ connIds g.checkedOut := by
    intro hc
    have := hi.fresh_co cn.id hc
    omega
  have hfad : cn.id ∉ connIds g.adHoc := by
    intro hc
    have := hi.fresh_ad cn.id hc
    omega
  have hfidle : cn.id ∉ idleIds s := by
    intro hc
    have := hi.fresh_conns cn.id (hi.idle_sub cn.id hc)
    omega
  refine ⟨⟨hlog ▸ hi.log_nodup, ?_, ?_, hiids ▸ hi.idle_nodup, ?_, ?_, ?_,
    hiids ▸ hi.idle_co, hiids ▸ hi.idle_ad, hi.co_ad, hi.co_nodup, hi.ad_nodup,
    ?_, ?_, ?_, ?_, ?_⟩, ?_, ?_, hfco, hfad, by rw [hcl, hopen]⟩
  · rw [hlog, hcid1]
    intro i hmem
    simp only [List.mem_append, List.mem_singleton]
    rintro (hl | hr)
    · exact hi.log_disj i hmem hl
    · subst hr
      have := hi.fresh_log cn.id hmem
      omega
  · rw [hcid1]
    refine List.Nodup.append hi.conns_nodup (by simp) ?_
    intro a ha hb
    simp only [List.mem_singleton] at hb
    subst hb
    have := hi.fresh_conns cn.id ha
    omega
  · rw [hiids, hcid1]
    intro i hmem
    exact List.mem_append_left _ (hi.idle_sub i hmem)
  · rw [hcl, hopen, hcid1]
    intro hop i hmem
    exact List.mem_append_left _ (hi.co_sub hopen i hmem)
  · rw [hcl, hopen, hcid1]
    intro hop i hmem
    exact List.mem_append_left _ (hi.ad_sub hopen i hmem)
  · rw [hcid1, hnext]
    intro i hmem
    rcases List.mem_append.1 hmem with hl | hr
    · have := hi.fresh_conns i hl
      omega
    · simp only [List.mem_singleton] at hr
      omega
  · rw [hlog, hnext]
    intro i hmem
    have := hi.fresh_log i hmem
    omega
  · rw [hnext]
    intro i hmem
    have := hi.fresh_co i hmem
    omega
  · rw [hnext]
    intro i hmem
    have := hi.fresh_ad i hmem
    omega
  · rw [hcl, hopen]
    intro hfalse
    cases hfalse
  · rw [hcid1]
    simp
  · rw [hiids]
    exact hfidle

/-- `newConn` preserves the invariant; a successful result is a registered
connection tracked nowhere else. -/
theorem inv_newConn (s : PoolState) (g : Ghost) (pooled : Bool) (d : DialOutcome)
    (r : Except Err Conn) (s1 : PoolState) (hi : Inv s g)
    (h : newConn s pooled d = some (r, s1)) :
    (∀ e, r = Except.error e → Inv s1 g ∧ s1.closedFlag = s.closedFlag) ∧
    (∀ cn, r = Except.ok cn → Inv s1 g ∧ cn.id ∈ connsIds s1 ∧
      cn.id ∉ idleIds s1 ∧ cn.id ∉ connIds g.checkedOut ∧
      cn.id ∉ connIds g.adHoc ∧ s1.closedFlag = false) := by
  unfold newConn at h
  split at h
  · rename_i e b s2 heq
    simp only [Option.some.injEq, Prod.mk.injEq] at h
    obtain ⟨d1, d2, d3, d4, d5⟩ := dialConn_error_frame s pooled d e b s2 heq
    refine ⟨?_, ?_⟩
    · intro e2 hre
      rw [← h.2]
      exact ⟨inv_congr s s2 g d1 d2 d3 d4 d5 hi, d4⟩
    · intro cn hok
      rw [← h.1] at hok
      exact Except.noConfusion hok
  · rename_i cn0 b s2 heq
    obtain ⟨hopen, hid, hst⟩ := dialConn_ok_state s pooled d cn0 b s2 heq
    subst hst
    rw [if_neg (by simp [hopen])] at h
    split at h
    · simp at h
    · rename_i l heq2
      have hconns0 : s.conns = some l := heq2
      split at h
      · split at h
        · simp only [Option.some.injEq, Prod.mk.injEq] at h
          refine ⟨?_, ?_⟩
          · intro e2 hre
            rw [← h.1] at hre
            exact Except.noConfusion hre
          · intro cn hok
            rw [← h.1] at hok
            simp only [Except.ok.injEq] at hok
            subst hok
            exact inv_append_conn s s1 g _ l hi hconns0 hid hopen
              (by rw [← h.2]) (by rw [← h.2]) (by rw [← h.2]) (by rw [← h.2])
              (by rw [← h.2])
        · simp only [Option.some.injEq, Prod.mk.injEq] at h
          refine ⟨?_, ?_⟩
          · intro e2 hre
            rw [← h.1] at hre
            exact Except.noConfusion hre
          · intro cn hok
            rw [← h.1] at hok
            simp only [Except.ok.injEq] at hok
            subst hok
            exact inv_append_conn s s1 g _ l hi hconns0 hid hopen
              (by rw [← h.2]) (by rw [← h.2]) (by rw [← h.2]) (by rw [← h.2])
              (by rw [← h.2])
      · simp only [Option.some.injEq, Prod.mk.injEq] at h
        refine ⟨?_, ?_⟩
        · intro e2 hre
          rw [← h.1] at hre
          exact Except.noConfusion hre
        · intro cn hok
          rw [← h.1] at hok
          simp only [Except.ok.injEq] at hok
          subst hok
          exact inv_append_conn s s1 g _ l hi hconns0 hid hopen
            (by rw [← h.2]) (by rw [← h.2]) (by rw [← h.2]) (by rw [← h.2])
            (by rw [← h.2])

/-- The idle-candidate loop of `Get` preserves the invariant; a found
connection is registered, no longer idle and tracked by neither ghost
list. -/
theorem getLoop_inv (hOr : Nat → Nat × Bool) (fuel : Nat) :
    ∀ (s : PoolState) (k i : Nat) (st : LoopStats) (g : Ghost)
      (res : LoopRes) (s1 : PoolState) (st1 : LoopStats),
      Inv s g → getLoop hOr fuel s k i st = some (res, s1, st1) →
      Inv s1 g ∧ s1.closedFlag = s.closedFlag ∧
      (∀ cn, res = LoopRes.found cn →
        cn.id ∈ connsIds s1 ∧ cn.id ∉ idleIds s1 ∧
        cn.id ∉ connIds g.checkedOut ∧ cn.id ∉ connIds g.adHoc ∧
        s.closedFlag = false) := by
  induction fuel with
  | zero => intro s k i st g res s1 st1 hi hl; simp [getLoop] at hl
  | succ fuel ih =>
    intro s k i st g res s1 st1 hi hl
    unfold getLoop at hl
    split at hl
    · simp at hl
    · rename_i e s2 hp
      simp only [Option.some.injEq, Prod.mk.injEq] at hl
      obtain ⟨hres, hs, -⟩ := hl
      obtain ⟨h2, -, -⟩ := popIdle_error s s2 e hp
      rw [← hs, h2]
      refine ⟨hi, rfl, ?_⟩
      intro cn hr
      rw [← hres] at hr
      exact LoopRes.noConfusion hr
    · rename_i s2 hp
      have h2 := popIdle_ok_none s s2 hp
      rw [h2] at hl
      split at hl
      · simp only [Option.some.injEq, Prod.mk.injEq] at hl
        obtain ⟨hres, hs, -⟩ := hl
        rw [← hs]
        refine ⟨hi, rfl, ?_⟩
        intro cn hr
        rw [← hres] at hr
        exact LoopRes.noConfusion hr
      · exact ih s (k + 1) (i + 1) _ g res s1 st1 hi hl
    · rename_i cn s2 hp
      obtain ⟨p1, p2, p3, p4, p5, p6, p7⟩ := popIdle_pop_spec s s2 cn hp
      have hopen := popIdle_ok_some_open s s2 cn hp
      have hi2 : Inv s2 g := inv_popIdle s s2 g cn hi hp
      have hnin2 : cn.id ∉ idleIds s2 := (p7 hi.idle_nodup).2
      have hin2 : cn.id ∈ connsIds s2 := by
        unfold connsIds
        rw [p1]
        exact hi.idle_sub cn.id p5
      split at hl
      · rename_i cn2 hh
        simp only [Option.some.injEq, Prod.mk.injEq] at hl
        obtain ⟨hres, hs, -⟩ := hl
        have hid : cn2.id = cn.id := by
          rw [← isHealthyConn_id s2.cfg (hOr k).1 (hOr k).2 cn, hh]
        refine ⟨?_, ?_, ?_⟩
        · rw [← hs]
          exact inv_congr s2 _ g rfl rfl rfl rfl rfl hi2
        · rw [← hs]
          exact p4
        · intro cnr hr
          rw [← hres] at hr
          cases hr
          rw [← hs]
          refine ⟨?_, ?_, ?_, ?_, hopen⟩
          · show cn2.id ∈ connsIds s2
            rw [hid]
            exact hin2
          · show cn2.id ∉ idleIds s2
            rw [hid]
            exact hnin2
          · rw [hid]
            exact hi.idle_co cn.id p5
          · rw [hid]
            exact hi.idle_ad cn.id p5
      · rename_i hh
        split at hl
        · simp at hl
        · rename_i s3 hac
          obtain ⟨hi3, hcl3⟩ := inv_asyncCloseConn s2 g cn s3 hi2 hin2
            (hi.idle_co cn.id p5) (hi.idle_ad cn.id p5) hnin2
            (by rw [p4, hopen]) hac
          obtain ⟨q1, q2, q3⟩ := ih s3 (k + 1) i _ g res s1 st1 hi3 hl
          refine ⟨q1, by rw [q2, hcl3, p4], ?_⟩
          intro cnr hr
          obtain ⟨w1, w2, w3, w4, -⟩ := q3 cnr hr
          exact ⟨w1, w2, w3, w4, hopen⟩

/-- `Get` preserves the invariant: a returned connection (hit or miss) can
be added to the checked-out ghost list, an error leaves the ghost alone. -/
theorem inv_get (s : PoolState) (g : Ghost) (cd : Bool) (t : Nat)
    (race : RaceEvent) (hOr : Nat → Nat × Bool) (d : DialOutcome)
    (r : GetRes) (s1 : PoolState) (hi : Inv s g)
    (h : get s cd t race hOr d = some (r, s1)) :
    (∀ cn, r = GetRes.hitRes cn →
      Inv s1 { g with checkedOut := g.checkedOut ++ [cn] }) ∧
    (∀ cn, r = GetRes.missRes cn →
      Inv s1 { g with checkedOut := g.checkedOut ++ [cn] }) ∧
    (∀ e, r = GetRes.preErr e → Inv s1 g) ∧
    (∀ e, r = GetRes.postMissErr e → Inv s1 g) := by
  unfold get at h
  split at h
  · simp only [Option.some.injEq, Prod.mk.injEq] at h
    obtain ⟨hres, hs⟩ := h
    refine ⟨?_, ?_, ?_, ?_⟩ <;> intro x hr <;> rw [← hres] at hr
    · exact GetRes.noConfusion hr
    · exact GetRes.noConfusion hr
    · rw [← hs]; exact hi
    · exact GetRes.noConfusion hr
  · split at h
    · rename_i e s1' heq
      simp only [Option.some.injEq, Prod.mk.injEq] at h
      obtain ⟨hres, hs⟩ := h
      have hw := waitTurn_pool_frame s cd t race
      rw [heq] at hw
      simp only at hw
      obtain ⟨-, -, w3, w4, -, w6, w7, -, -, w10, -⟩ := hw
      refine ⟨?_, ?_, ?_, ?_⟩ <;> intro x hr <;> rw [← hres] at hr
      · exact GetRes.noConfusion hr
      · exact GetRes.noConfusion hr
      · rw [← hs]
        exact inv_congr s s1' g w6 w3 w4 w7 w10 hi
      · exact GetRes.noConfusion hr
    · rename_i s1' heq
      have hw := waitTurn_pool_frame s cd t race
      rw [heq] at hw
      simp only at hw
      obtain ⟨-, -, w3, w4, -, w6, w7, -, -, w10, -⟩ := hw
      have hi1 : Inv s1' g := inv_congr s s1' g w6 w3 w4 w7 w10 hi
      split at h
      · simp at h
      · rename_i e s2 st2 hloop
        simp only [Option.some.injEq, Prod.mk.injEq] at h
        obtain ⟨hres, hs⟩ := h
        obtain ⟨q1, -, -⟩ :=
          getLoop_inv hOr _ s1' 0 0 _ g _ s2 st2 hi1 hloop
        refine ⟨?_, ?_, ?_, ?_⟩ <;> intro x hr <;> rw [← hres] at hr
        · exact GetRes.noConfusion hr
        · exact GetRes.noConfusion hr
        · rw [← hs]; exact q1
        · exact GetRes.noConfusion hr
      · rename_i cn s2 st2 hloop
        simp only [Option.some.injEq, Prod.mk.injEq] at h
        obtain ⟨hres, hs⟩ := h
        obtain ⟨q1, -, q3⟩ :=
          getLoop_inv hOr _ s1' 0 0 _ g _ s2 st2 hi1 hloop
        obtain ⟨w1, w2, wco, wad, -⟩ := q3 cn rfl
        refine ⟨?_, ?_, ?_, ?_⟩ <;> intro x hr <;> rw [← hres] at hr
        · simp only [GetRes.hitRes.injEq] at hr
          subst hr
          rw [← hs]
          exact inv_add_co s2 g cn q1 w1 w2 wco wad
        · exact GetRes.noConfusion hr
        · exact GetRes.noConfusion hr
        · exact GetRes.noConfusion hr
      · rename_i s2 st2 hloop
        obtain ⟨q1, -, -⟩ :=
          getLoop_inv hOr _ s1' 0 0 _ g _ s2 st2 hi1 hloop
        have him : Inv { s2 with misses := s2.misses + 1 } g :=
          inv_congr s2 _ g rfl rfl rfl rfl rfl q1
        split at h
        · simp at h
        · rename_i e s4 hnc
          obtain ⟨hiv, -⟩ :=
            (inv_newConn _ g true d _ s4 him hnc).1 e rfl
          cases hf : freeTurn s4 with
          | none => rw [hf] at h; simp at h
          | some s5 =>
            rw [hf, Option.map_some'] at h
            simp only [Option.some.injEq, Prod.mk.injEq] at h
            obtain ⟨hres, hs⟩ := h
            have hff := freeTurn_frame s4 s5 hf
            have hi5 : Inv s5 g := by
              rw [hff]
              exact inv_congr s4 _ g rfl rfl rfl rfl rfl hiv
            refine ⟨?_, ?_, ?_, ?_⟩ <;> intro x hr <;> rw [← hres] at hr
            · exact GetRes.noConfusion hr
            · exact GetRes.noConfusion hr
            · exact GetRes.noConfusion hr
            · rw [← hs]; exact hi5
        · rename_i cn s4 hnc
          simp only [Option.some.injEq, Prod.mk.injEq] at h
          obtain ⟨hres, hs⟩ := h
          obtain ⟨hiv, w1, w2, wco, wad, -⟩ :=
            (inv_newConn _ g true d _ s4 him hnc).2 cn rfl
          refine ⟨?_, ?_, ?_, ?_⟩ <;> intro x hr <;> rw [← hres] at hr
          · exact GetRes.noConfusion hr
          · simp only [GetRes.missRes.injEq] at hr
            subst hr
            rw [← hs]
            exact inv_add_co s4 g cn hiv w1 w2 wco wad
          · exact GetRes.noConfusion hr
          · exact GetRes.noConfusion hr

theorem removeGhost_eq_self (l : List Conn) (cn : Conn)
    (h : cn.id ∉ connIds l) : removeGhost l cn = l := by
  unfold removeGhost
  rw [List.filter_eq_self]
  intro c hc
  simp only [Bool.not_eq_true', beq_eq_false_iff_ne]
  intro he
  apply h
  rw [← he]
  exact List.mem_map_of_mem _ hc

/-- `AsyncRemove` (and `Remove`) of a tracked connection preserves the
invariant with the connection dropped from both ghost lists. -/
theorem inv_asyncRemove_both (s : PoolState) (g : Ghost) (cn : Conn)
    (s1 : PoolState) (hi : Inv s g)
    (hmem : cn.id ∈ connIds g.checkedOut ∨ cn.id ∈ connIds g.adHoc)
    (h : asyncRemove s cn = some s1) :
    Inv s1 { checkedOut := removeGhost g.checkedOut cn,
             adHoc := removeGhost g.adHoc cn } ∧ s1.closedFlag = false := by
  unfold asyncRemove at h
  cases hrm : removeConn s cn with
  | none => rw [hrm] at h; simp at h
  | some s2 =>
    rw [hrm, Option.some_bind] at h
    cases hf : freeTurn s2 with
    | none => rw [hf] at h; simp at h
    | some s3 =>
      rw [hf, Option.map_some'] at h
      simp only [Option.some.injEq] at h
      have hopen : s.closedFlag = false := by
        cases hcf : s.closedFlag with
        | false => rfl
        | true =>
          have hnone := (hi.closed_none hcf).1
          unfold removeConn at hrm
          rw [hnone] at hrm
          exact Option.noConfusion hrm
      have hnidle : cn.id ∉ idleIds s := by
        intro hmem2
        cases hmem with
        | inl hc => exact hi.idle_co cn.id hmem2 hc
        | inr hc => exact hi.idle_ad cn.id hmem2 hc
      have hin : cn.id ∈ connsIds s := by
        cases hmem with
        | inl hc => exact hi.co_sub hopen cn.id hc
        | inr hc => exact hi.ad_sub hopen cn.id hc
      have hff := freeTurn_frame s2 s3 hf
      refine inv_close_general s s2 s1 g _ cn hi hin hnidle hopen hrm
        ?_ ?_ ?_ ?_ ?_ ?_ ?_
        (nodup_connIds_removeGhost _ cn hi.co_nodup)
        (nodup_connIds_removeGhost _ cn hi.ad_nodup)
      · rw [← h, hff]; simp [closeConnLog]
      · rw [← h, hff]; simp [closeConnLog]
      · rw [← h, hff]; simp [closeConnLog]
      · rw [← h, hff]; simp [closeConnLog]
      · rw [← h, hff]; simp [closeConnLog]
      · intro i hmemi
        exact (mem_connIds_removeGhost _ cn i).1 hmemi
      · intro i hmemi
        exact (mem_connIds_removeGhost _ cn i).1 hmemi

/-- `AsyncCloseConn` (and `CloseConn`) of a tracked connection preserves
the invariant with the connection dropped from both ghost lists. -/
theorem inv_asyncCloseConn_both (s : PoolState) (g : Ghost) (cn : Conn)
    (s1 : PoolState) (hi : Inv s g)
    (hmem : cn.id ∈ connIds g.checkedOut ∨ cn.id ∈ connIds g.adHoc)
    (h : asyncCloseConn s cn = some s1) :
    Inv s1 { checkedOut := removeGhost g.checkedOut cn,
             adHoc := removeGhost g.adHoc cn } ∧ s1.closedFlag = false := by
  unfold asyncCloseConn at h
  cases hrm : removeConn s cn with
  | none => rw [hrm] at h; simp at h
  | some s2 =>
    rw [hrm, Option.map_some'] at h
    simp only [Option.some.injEq] at h
    have hopen : s.closedFlag = false := by
      cases hcf : s.closedFlag with
      | false => rfl
      | true =>
        have hnone := (hi.closed_none hcf).1
        unfold removeConn at hrm
        rw [hnone] at hrm
        exact Option.noConfusion hrm
    have hnidle : cn.id ∉ idleIds s := by
      intro hmem2
      cases hmem with
      | inl hc => exact hi.idle_co cn.id hmem2 hc
      | inr hc => exact hi.idle_ad cn.id hmem2 hc
    have hin : cn.id ∈ connsIds s := by
      cases hmem with
      | inl hc => exact hi.co_sub hopen cn.id hc
      | inr hc => exact hi.ad_sub hopen cn.id hc
    refine inv_close_general s s2 s1 g _ cn hi hin hnidle hopen hrm
      ?_ ?_ ?_ ?_ ?_ ?_ ?_
      (nodup_connIds_removeGhost _ cn hi.co_nodup)
      (nodup_connIds_removeGhost _ cn hi.ad_nodup)
    · rw [← h]; simp [closeConnLog]
    · rw [← h]; simp [closeConnLog]
    · rw [← h]; simp [closeConnLog]
    · rw [← h]; simp [closeConnLog]
    · rw [← h]; simp [closeConnLog]
    · intro i hmemi
      exact (mem_connIds_removeGhost _ cn i).1 hmemi
    · intro i hmemi
      exact (mem_connIds_removeGhost _ cn i).1 hmemi

/-- `Put` of a checked-out connection preserves the invariant with the
connection dropped from the checked-out ghost list. -/
theorem inv_put (s : PoolState) (g : Ghost) (cn : Conn) (pr : PutRes)
    (s1 : PoolState) (hi : Inv s g) (hwf : cn ∈ g.checkedOut)
    (h : put s cn = some (pr, s1)) :
    Inv s1 { g with checkedOut := removeGhost g.checkedOut cn } := by
  have hco0 : cn.id ∈ connIds g.checkedOut := List.mem_map_of_mem _ hwf
  have hnad0 : cn.id ∉ connIds g.adHoc := hi.co_ad cn.id hco0
  have hgad : removeGhost g.adHoc cn = g.adHoc := removeGhost_eq_self _ cn hnad0
  have hG : ({ g with checkedOut := removeGhost g.checkedOut cn } : Ghost) =
      { checkedOut := removeGhost g.checkedOut cn,
        adHoc := removeGhost g.adHoc cn } := by
    rw [hgad]
  unfold put at h
  split at h
  · cases har : asyncRemove s cn with
    | none => rw [har] at h; simp at h
    | some s2 =>
      rw [har, Option.map_some'] at h
      simp only [Option.some.injEq, Prod.mk.injEq] at h
      rw [hG, ← h.2]
      exact (inv_asyncRemove_both s g cn s2 hi (Or.inl hco0) har).1
  · split at h
    · cases har : asyncRemove s cn with
      | none => rw [har] at h; simp at h
      | some s2 =>
        rw [har, Option.map_some'] at h
        simp only [Option.some.injEq, Prod.mk.injEq] at h
        rw [hG, ← h.2]
        exact (inv_asyncRemove_both s g cn s2 hi (Or.inl hco0) har).1
    · split at h
      · simp at h
      · rename_i l heq
        have hopen : s.closedFlag = false := by
          cases hcf : s.closedFlag with
          | false => rfl
          | true =>
            have hid := (hi.closed_none hcf).2
            rw [heq] at hid
            exact Option.noConfusion hid
        have hin : cn.id ∈ connsIds s := hi.co_sub hopen cn.id hco0
        have hnidle : cn.id ∉ idleIds s := fun hm => hi.idle_co cn.id hm hco0
        split at h
        · cases hf : freeTurn { s with
            idleConns := some (l ++ [cn]), idleConnsLen := s.idleConnsLen + 1 } with
          | none => rw [hf] at h; simp at h
          | some s3 =>
            rw [hf, Option.map_some'] at h
            simp only [Option.some.injEq, Prod.mk.injEq] at h
            obtain ⟨-, hs⟩ := h
            have hff := freeTurn_frame _ s3 hf
            have hiid1 : idleIds s1 = idleIds s ++ [cn.id] := by
              rw [← hs, hff]
              unfold idleIds connIds
              rw [heq]
              simp
            have hlog1 : s1.closeLog = s.closeLog := by rw [← hs, hff]
            have hconns1 : s1.conns = s.conns := by rw [← hs, hff]
            have hcl1 : s1.closedFlag = s.closedFlag := by rw [← hs, hff]
            have hnext1 : s1.nextId = s.nextId := by rw [← hs, hff]
            have hcids : connsIds s1 = connsIds s := by
              unfold connsIds
              rw [hconns1]
            refine ⟨hlog1 ▸ hi.log_nodup, ?_, ?_, ?_, ?_, ?_, ?_, ?_, ?_, ?_,
              nodup_connIds_removeGhost _ cn hi.co_nodup, hi.ad_nodup,
              ?_, ?_, ?_, ?_, ?_⟩
            · rw [hlog1, hcids]
              exact hi.log_disj
            · rw [hcids]
              exact hi.conns_nodup
            · rw [hiid1]
              refine List.Nodup.append hi.idle_nodup (by simp) ?_
              intro a ha hb
              simp only [List.mem_singleton] at hb
              subst hb
              exact hnidle ha
            · rw [hiid1, hcids]
              intro i hm
              rcases List.mem_append.1 hm with hl | hr
              · exact hi.idle_sub i hl
              · simp only [List.mem_singleton] at hr
                subst hr
                exact hin
            · rw [hcids]
              intro hop i hm
              exact hi.co_sub hopen i ((mem_connIds_removeGhost _ cn i).1 hm).1
            · rw [hcids]
              intro hop i hm
              exact hi.ad_sub hopen i hm
            · rw [hiid1]
              intro i hm hc
              obtain ⟨hcl', hne⟩ := (mem_connIds_removeGhost _ cn i).1 hc
              rcases List.mem_append.1 hm with hl | hr
              · exact hi.idle_co i hl hcl'
              · simp only [List.mem_singleton] at hr
                exact hne hr
            · rw [hiid1]
              intro i hm
              rcases List.mem_append.1 hm with hl | hr
              · exact hi.idle_ad i hl
              · simp only [List.mem_singleton] at hr
                subst hr
                exact hnad0
            · intro i hm
              exact hi.co_ad i ((mem_connIds_removeGhost _ cn i).1 hm).1
            · rw [hcids, hnext1]
              exact hi.fresh_conns
            · rw [hlog1, hnext1]
              exact hi.fresh_log
            · rw [hnext1]
              intro i hm
              exact hi.fresh_co i ((mem_connIds_removeGhost _ cn i).1 hm).1
            · rw [hnext1]
              exact hi.fresh_ad
            · rw [hcl1, hopen]
              intro hfalse
              cases hfalse
        · cases hrm : removeConn s cn with
          | none => rw [hrm] at h; simp at h
          | some s2 =>
            rw [hrm, Option.some_bind] at h
            cases hf : freeTurn s2 with
            | none => rw [hf] at h; simp at h
            | some s3 =>
              rw [hf, Option.map_some'] at h
              simp only [Option.some.injEq, Prod.mk.injEq] at h
              have har : asyncRemove s cn = some s1 := by
                unfold asyncRemove
                rw [hrm, Option.some_bind, hf, Option.map_some', h.2]
              rw [hG]
              exact (inv_asyncRemove_both s g cn s1 hi (Or.inl hco0) har).1

/-- `Close` preserves the invariant: all registered ids are appended to the
log exactly once, and both lists become nil. -/
theorem inv_closePool (s : PoolState) (g : Ghost) (r : Except Err Unit)
    (s1 : PoolState) (hi : Inv s g) (h : closePool s = some (r, s1)) :
    Inv s1 g := by
  unfold closePool at h
  split at h
  · simp only [Option.some.injEq, Prod.mk.injEq] at h
    rw [← h.2]
    exact hi
  · rename_i hcl
    split at h
    · simp at h
    · rename_i l heq
      simp only [Option.some.injEq, Prod.mk.injEq] at h
      have hcid0 : connsIds s = connIds l := by unfold connsIds; rw [heq]; rfl
      rw [← h.2]
      refine ⟨?_, ?_, ?_, ?_, ?_, ?_, ?_, ?_, ?_, hi.co_ad, hi.co_nodup,
        hi.ad_nodup, ?_, ?_, ?_, ?_, ?_⟩
      · show (s.closeLog ++ l.map (fun c => c.id)).Nodup
        refine List.Nodup.append hi.log_nodup ?_ ?_
        · show (connIds l).Nodup
          rw [← hcid0]
          exact hi.conns_nodup
        · intro a ha hb
          exact hi.log_disj a ha (hcid0 ▸ hb)
      · intro i hm hc
        simp [connsIds, connIds] at hc
      · show (connIds ((none : Option (List Conn)).getD [])).Nodup
        simp [connIds]
      · show (connIds ((none : Option (List Conn)).getD [])).Nodup
        simp [connIds]
      · intro i hm
        simp only [idleIds, connIds, Option.getD_none, List.map_nil] at hm
        exact absurd hm (List.not_mem_nil i)
      · intro hop
        exact absurd hop (by simp)
      · intro hop
        exact absurd hop (by simp)
      · intro i hm
        simp only [idleIds, connIds, Option.getD_none, List.map_nil] at hm
        exact absurd hm (List.not_mem_nil i)
      · intro i hm
        simp only [idleIds, connIds, Option.getD_none, List.map_nil] at hm
        exact absurd hm (List.not_mem_nil i)
      · intro i hm
        simp only [connsIds, connIds, Option.getD_none, List.map_nil] at hm
        exact absurd hm (List.not_mem_nil i)
      · show ∀ i ∈ s.closeLog ++ l.map (fun c => c.id), i < s.nextId
        intro i hm
        rcases List.mem_append.1 hm with hl | hr
        · exact hi.fresh_log i hl
        · refine hi.fresh_conns i ?_
          rw [hcid0]
          exact hr
      · exact hi.fresh_co
      · exact hi.fresh_ad
      · intro hcl1
        exact ⟨rfl, rfl⟩

/-- Appending a registered, untracked connection to the idle list preserves
the invariant. -/
theorem inv_idle_append (t t1 : PoolState) (g : Ghost) (cn : Conn)
    (il : List Conn) (hi : Inv t g) (hidle0 : t.idleConns = some il)
    (hin : cn.id ∈ connsIds t) (hni : cn.id ∉ idleIds t)
    (hnco : cn.id ∉ connIds g.checkedOut) (hnad : cn.id ∉ connIds g.adHoc)
    (hopen : t.closedFlag = false)
    (hlog : t1.closeLog = t.closeLog) (hconns : t1.conns = t.conns)
    (hidle : t1.idleConns = some (il ++ [cn])) (hcl : t1.closedFlag = t.closedFlag)
    (hnext : t1.nextId = t.nextId) : Inv t1 g := by
  have hcids : connsIds t1 = connsIds t := by unfold connsIds; rw [hconns]
  have hiid1 : idleIds t1 = idleIds t ++ [cn.id] := by
    unfold idleIds connIds
    rw [hidle, hidle0]
    simp
  refine ⟨hlog ▸ hi.log_nodup, ?_, ?_, ?_, ?_, ?_, ?_, ?_, ?_, hi.co_ad,
    hi.co_nodup, hi.ad_nodup, ?_, ?_, ?_, ?_, ?_⟩
  · rw [hlog, hcids]
    exact hi.log_disj
  · rw [hcids]
    exact hi.conns_nodup
  · rw [hiid1]
    refine List.Nodup.append hi.idle_nodup (by simp) ?_
    intro a ha hb
    simp only [List.mem_singleton] at hb
    subst hb
    exact hni ha
  · rw [hiid1, hcids]
    intro i hm
    rcases List.mem_append.1 hm with hl | hr
    · exact hi.idle_sub i hl
    · simp only [List.mem_singleton] at hr
      subst hr
      exact hin
  · rw [hcl, hopen, hcids]
    intro hop
    exact hi.co_sub hopen
  · rw [hcl, hopen, hcids]
    intro hop
    exact hi.ad_sub hopen
  · rw [hiid1]
    intro i hm
    rcases List.mem_append.1 hm with hl | hr
    · exact hi.idle_co i hl
    · simp only [List.mem_singleton] at hr
      subst hr
      exact hnco
  · rw [hiid1]
    intro i hm
    rcases List.mem_append.1 hm with hl | hr
    · exact hi.idle_ad i hl
    · simp only [List.mem_singleton] at hr
      subst hr
      exact hnad
  · rw [hcids, hnext]
    exact hi.fresh_conns
  · rw [hlog, hnext]
    exact hi.fresh_log
  · rw [hnext]
    exact hi.fresh_co
  · rw [hnext]
    exact hi.fresh_ad
  · rw [hcl, hopen]
    intro hfalse
    cases hfalse

/-- One min-idle filler run preserves the invariant. -/
theorem inv_runFiller (s : PoolState) (g : Ghost) (d : DialOutcome)
    (s1 : PoolState) (hi : Inv s g) (h : runFiller s d = some s1) :
    Inv s1 g := by
  unfold runFiller at h
  split at h
  · simp at h
  · split at h
    · rename_i e b s2 heq
      obtain ⟨d1, d2, d3, d4, d5⟩ :=
        dialConn_error_frame { s with pendingFillers := s.pendingFillers - 1 }
          true d e b s2 heq
      split at h
      · simp only [Option.some.injEq] at h
        rw [← h]
        exact inv_congr s s2 g d1 d2 d3 d4 d5 hi
      · simp only [Option.some.injEq] at h
        rw [← h]
        exact inv_congr s _ g d1 d2 d3 d4 d5 hi
    · rename_i cn b s2 heq
      obtain ⟨hopen, hid, hst⟩ :=
        dialConn_ok_state { s with pendingFillers := s.pendingFillers - 1 }
          true d cn b s2 heq
      have hopen' : s.closedFlag = false := hopen
      subst hst
      split at h
      · rename_i hcf
        exact absurd hcf (by simp [hopen'])
      · split at h
        · rename_i cl il heq2 heq3
          simp only [Option.some.injEq] at h
          have hconns0 : s.conns = some cl := heq2
          have hidle0 : s.idleConns = some il := heq3
          obtain ⟨hmid, w1, w2, wco, wad, -⟩ :=
            inv_append_conn s { s with
              conns := some (cl ++ [cn]), nextId := s.nextId + 1 }
              g cn cl hi hconns0 hid hopen' rfl rfl rfl rfl rfl
          refine inv_idle_append _ s1 g cn il hmid hidle0 w1 w2 wco wad hopen'
            ?_ ?_ ?_ ?_ ?_ <;> rw [← h]
        · simp at h

/-- A stale-head removal followed by a close dispatch preserves the
invariant (the reaper's loop body between turn handling). -/
theorem inv_reapStale_close (s : PoolState) (g : Ghost) (now : Nat) (ck : Bool)
    (cn : Conn) (s2 t : PoolState) (hi : Inv s g)
    (h : reapStaleConn s now ck = some (some cn, s2))
    (hlog : t.closeLog = s2.closeLog ++ [cn.id])
    (hconns : t.conns = s2.conns) (hidle : t.idleConns = s2.idleConns)
    (hcl : t.closedFlag = s2.closedFlag) (hnext : t.nextId = s2.nextId) :
    Inv t g ∧ t.closedFlag = false := by
  unfold reapStaleConn at h
  split at h
  · simp at h
  · simp at h
  · rename_i c rest heq
    split at h
    · cases hrm : removeConn { s with
          idleConns := some rest, idleConnsLen := s.idleConnsLen - 1 } c with
      | none => rw [hrm] at h; simp at h
      | some s2' =>
        rw [hrm, Option.map_some'] at h
        simp only [Option.some.injEq, Prod.mk.injEq] at h
        obtain ⟨hcn, hs2⟩ := h
        subst hcn
        subst hs2
        have hopen : s.closedFlag = false := by
          cases hcf : s.closedFlag with
          | false => rfl
          | true =>
            have hid := (hi.closed_none hcf).2
            rw [heq] at hid
            exact Option.noConfusion hid
        have hiid0 : idleIds s = c.id :: connIds rest := by
          unfold idleIds connIds
          rw [heq]
          rfl
        have hhead : c.id ∈ idleIds s := by
          rw [hiid0]
          exact List.mem_cons_self _ _
        have hnco : c.id ∉ connIds g.checkedOut := hi.idle_co c.id hhead
        have hnad : c.id ∉ connIds g.adHoc := hi.idle_ad c.id hhead
        have hnrest : c.id ∉ connIds rest := by
          have hnd := hi.idle_nodup
          rw [hiid0] at hnd
          exact (List.nodup_cons.1 hnd).1
        have hmid : Inv { s with
            idleConns := some rest, idleConnsLen := s.idleConnsLen - 1 } g := by
          refine inv_set_idle_sub s _ g rfl rfl rfl rfl ?_ ?_ ?_ hi
          · intro i hm
            rw [hiid0]
            exact List.mem_cons_of_mem _ hm
          · intro hnd
            rw [hiid0] at hnd
            exact (List.nodup_cons.1 hnd).2
          · intro hcf
            exact absurd hcf (by simp [hopen])
        refine inv_close_general _ s2' t g g c hmid ?_ hnrest hopen hrm
          hlog hconns hidle hcl hnext ?_ ?_ hi.co_nodup hi.ad_nodup
        · show c.id ∈ connsIds s
          exact hi.idle_sub c.id hhead
        · intro i hm
          exact ⟨hm, fun he => hnco (he ▸ hm)⟩
        · intro i hm
          exact ⟨hm, fun he => hnad (he ▸ hm)⟩
    · simp at h

/-- The reaper loop preserves the invariant. -/
theorem reapLoop_inv (hOr : Nat → Nat × Bool) (fuel : Nat) :
    ∀ (s : PoolState) (k n : Nat) (g : Ghost) (r : Nat) (s1 : PoolState),
      Inv s g → reapLoop hOr fuel s k n = some (r, s1) → Inv s1 g := by
  induction fuel with
  | zero => intro s k n g r s1 hi hl; simp [reapLoop] at hl
  | succ fuel ih =>
    intro s k n g r s1 hi hl
    unfold reapLoop at hl
    split at hl
    · simp at hl
    · rename_i s1' hgt
      have hgf := getTurn_frame s s1' hgt
      have hi1 : Inv s1' g := by
        rw [hgf]
        exact inv_congr s _ g rfl rfl rfl rfl rfl hi
      split at hl
      · simp at hl
      · rename_i s2 hrs
        have hs2 := reapStaleConn_none_eq s1' _ _ s2 hrs
        split at hl
        · simp at hl
        · rename_i s3 hf
          simp only [Option.some.injEq, Prod.mk.injEq] at hl
          rw [← hl.2]
          have hff := freeTurn_frame s2 s3 hf
          rw [hff, hs2]
          exact inv_congr s1' _ g rfl rfl rfl rfl rfl hi1
      · rename_i cn s2 hrs
        split at hl
        · simp at hl
        · rename_i s3 hf
          have hff := freeTurn_frame s2 s3 hf
          refine ih (closeConnLog s3 cn) (k + 1) (n + 1) g r s1 ?_ hl
          refine (inv_reapStale_close s1' g _ _ cn s2 _ hi1 hrs ?_ ?_ ?_ ?_ ?_).1
            <;> rw [hff] <;> simp [closeConnLog]

/-- Every operation permitted by the client discipline preserves the
invariant, with the ghost updated by `ghostAfter`. -/
theorem inv_step (s : PoolState) (g : Ghost) (op : Op) (o : Out)
    (s1 : PoolState) (hi : Inv s g) (hwf : wfOp g op = true)
    (h : step s op = some (o, s1)) : Inv s1 (ghostAfter g op o) := by
  cases op with
  | opGet cd t race hOr d =>
    simp only [step] at h
    cases hg : get s cd t race hOr d with
    | none => rw [hg] at h; simp at h
    | some p =>
      rw [hg, Option.map_some'] at h
      simp only [Option.some.injEq, Prod.mk.injEq] at h
      obtain ⟨ho, hs⟩ := h
      obtain ⟨ih1, ih2, ih3, ih4⟩ := inv_get s g cd t race hOr d p.1 p.2 hi
        (by rw [hg])
      subst hs
      rw [← ho]
      cases hr : p.1 with
      | hitRes cn => exact ih1 cn hr
      | missRes cn => exact ih2 cn hr
      | preErr e => exact ih3 e hr
      | postMissErr e => exact ih4 e hr
  | opPut cn =>
    have hwf' : cn ∈ g.checkedOut := of_decide_eq_true hwf
    simp only [step] at h
    cases hp : put s cn with
    | none => rw [hp] at h; simp at h
    | some p =>
      rw [hp, Option.map_some'] at h
      simp only [Option.some.injEq, Prod.mk.injEq] at h
      obtain ⟨ho, hs⟩ := h
      subst hs
      rw [← ho]
      exact inv_put s g cn p.1 p.2 hi hwf' (by rw [hp])
  | opRemove cn =>
    have hwf' : cn ∈ g.checkedOut ∨ cn ∈ g.adHoc := of_decide_eq_true hwf
    have hmem : cn.id ∈ connIds g.checkedOut ∨ cn.id ∈ connIds g.adHoc :=
      hwf'.imp (List.mem_map_of_mem _) (List.mem_map_of_mem _)
    simp only [step] at h
    cases hro : removeOp s cn with
    | none => rw [hro] at h; simp at h
    | some s2 =>
      rw [hro, Option.map_some'] at h
      simp only [Option.some.injEq, Prod.mk.injEq] at h
      obtain ⟨ho, hs⟩ := h
      subst hs
      rw [← ho]
      exact (inv_asyncRemove_both s g cn s2 hi hmem hro).1
  | opAsyncRemove cn =>
    have hwf' : cn ∈ g.checkedOut ∨ cn ∈ g.adHoc := of_decide_eq_true hwf
    have hmem : cn.id ∈ connIds g.checkedOut ∨ cn.id ∈ connIds g.adHoc :=
      hwf'.imp (List.mem_map_of_mem _) (List.mem_map_of_mem _)
    simp only [step] at h
    cases hro : asyncRemove s cn with
    | none => rw [hro] at h; simp at h
    | some s2 =>
      rw [hro, Option.map_some'] at h
      simp only [Option.some.injEq, Prod.mk.injEq] at h
      obtain ⟨ho, hs⟩ := h
      subst hs
      rw [← ho]
      exact (inv_asyncRemove_both s g cn s2 hi hmem hro).1
  | opCloseConn cn =>
    have hwf' : cn ∈ g.checkedOut ∨ cn ∈ g.adHoc := of_decide_eq_true hwf
    have hmem : cn.id ∈ connIds g.checkedOut ∨ cn.id ∈ connIds g.adHoc :=
      hwf'.imp (List.mem_map_of_mem _) (List.mem_map_of_mem _)
    simp only [step] at h
    cases hro : closeConnOp s cn with
    | none => rw [hro] at h; simp at h
    | some s2 =>
      rw [hro, Option.map_some'] at h
      simp only [Option.some.injEq, Prod.mk.injEq] at h
      obtain ⟨ho, hs⟩ := h
      subst hs
      rw [← ho]
      exact (inv_asyncCloseConn_both s g cn s2 hi hmem hro).1
  | opAsyncCloseConn cn =>
    have hwf' : cn ∈ g.checkedOut ∨ cn ∈ g.adHoc := of_decide_eq_true hwf
    have hmem : cn.id ∈ connIds g.checkedOut ∨ cn.id ∈ connIds g.adHoc :=
      hwf'.imp (List.mem_map_of_mem _) (List.mem_map_of_mem _)
    simp only [step] at h
    cases hro : asyncCloseConn s cn with
    | none => rw [hro] at h; simp at h
    | some s2 =>
      rw [hro, Option.map_some'] at h
      simp only [Option.some.injEq, Prod.mk.injEq] at h
      obtain ⟨ho, hs⟩ := h
      subst hs
      rw [← ho]
      exact (inv_asyncCloseConn_both s g cn s2 hi hmem hro).1
  | opNewConn d =>
    simp only [step] at h
    cases hnc : newConn s false d with
    | none => rw [hnc] at h; simp at h
    | some p =>
      rw [hnc, Option.map_some'] at h
      simp only [Option.some.injEq, Prod.mk.injEq] at h
      obtain ⟨ho, hs⟩ := h
      obtain ⟨ih1, ih2⟩ := inv_newConn s g false d p.1 p.2 hi (by rw [hnc])
      subst hs
      rw [← ho]
      cases hr : p.1 with
      | error e => exact (ih1 e hr).1
      | ok cn =>
        obtain ⟨hiv, w1, w2, wco, wad, -⟩ := ih2 cn hr
        exact inv_add_ad p.2 g cn hiv w1 w2 wco wad
  | opFilter pred => simp [wfOp] at hwf
  | opClose =>
    simp only [step] at h
    cases hc : closePool s with
    | none => rw [hc] at h; simp at h
    | some p =>
      rw [hc, Option.map_some'] at h
      simp only [Option.some.injEq, Prod.mk.injEq] at h
      obtain ⟨ho, hs⟩ := h
      subst hs
      rw [← ho]
      exact inv_closePool s g p.1 p.2 hi (by rw [hc])
  | opReap hOr =>
    simp only [step] at h
    cases hr : reapOp hOr s with
    | none => rw [hr] at h; simp at h
    | some p =>
      rw [hr, Option.map_some'] at h
      simp only [Option.some.injEq, Prod.mk.injEq] at h
      obtain ⟨ho, hs⟩ := h
      subst hs
      rw [← ho]
      unfold reapOp at hr
      cases hrl : reapLoop hOr (idleLenList s + 1) s 0 0 with
      | none => rw [hrl] at hr; simp at hr
      | some rr =>
        rw [hrl, Option.map_some'] at hr
        simp only [Option.some.injEq] at hr
        have hiv := reapLoop_inv hOr _ s 0 0 g rr.1 rr.2 hi (by rw [hrl])
        rw [← hr]
        exact inv_congr rr.2 _ g rfl rfl rfl rfl rfl hiv
  | opFiller d =>
    simp only [step] at h
    cases hf : runFiller s d with
    | none => rw [hf] at h; simp at h
    | some s2 =>
      rw [hf, Option.map_some'] at h
      simp only [Option.some.injEq, Prod.mk.injEq] at h
      obtain ⟨ho, hs⟩ := h
      subst hs
      rw [← ho]
      exact inv_runFiller s g d s2 hi hf

/-- Well-formed runs preserve the invariant. -/
theorem runWF_inv : ∀ (ops : List Op) (s : PoolState) (g : Ghost)
    (s1 : PoolState) (g1 : Ghost), Inv s g →
    runWF s g ops = some (s1, g1) → Inv s1 g1 := by
  intro ops
  induction ops with
  | nil =>
    intro s g s1 g1 hi h
    simp only [runWF, Option.some.injEq, Prod.mk.injEq] at h
    rw [← h.1, ← h.2]
    exact hi
  | cons op rest ih =>
    intro s g s1 g1 hi h
    unfold runWF at h
    split at h
    · rename_i hwf
      split at h
      · exact Option.noConfusion h
      · rename_i o s2 hstep
        exact ih s2 (ghostAfter g op o) s1 g1 (inv_step s g op o s2 hi hwf hstep) h
    · exact Option.noConfusion h

/-- The fresh state built by `NewConnPool` before the initial
`checkMinIdleConns`. -/
def initState (cfg : Options) : PoolState :=
  { cfg := cfg, dialErrorsNum := 0, lastDialError := none, queueLen := 0,
    conns := some [], idleConns := some [], poolSize := 0, idleConnsLen := 0,
    hits := 0, misses := 0, timeouts := 0, staleConns := 0,
    closedFlag := false, pendingFillers := 0, proberSpawns := 0,
    closeLog := [], nextId := 0 }

/-- A fresh pool with an empty ghost satisfies the invariant. -/
theorem inv_init (cfg : Options) :
    Inv (newConnPool cfg) { checkedOut := [], adHoc := [] } := by
  have hbase : Inv (initState cfg) { checkedOut := [], adHoc := [] } := by
    refine ⟨?_, ?_, ?_, ?_, ?_, ?_, ?_, ?_, ?_, ?_, ?_, ?_, ?_, ?_, ?_, ?_, ?_⟩
      <;> simp [initState, connsIds, idleIds, connIds]
  have hnp : newConnPool cfg = checkMinIdleConns (initState cfg) := rfl
  obtain ⟨c1, c2, c3, c4, c5, c6, c7, c8, c9, c10, c11, c12, c13, c14⟩ :=
    checkMinIdleConns_frame (initState cfg)
  rw [hnp]
  exact inv_congr (initState cfg) _ _ c9 c10 c11 c2 c3 hbase

/-- C3 counterexample: as stated over all operation sequences the claim is
false. `Filter` closes matching connections without removing them from
`conns`, so a subsequent `Close` closes the same connection again: after
`NewConn`, `Filter (fun _ => true)`, `Close` the close log is `[0, 0]` —
connection 0's underlying `Close` was dispatched twice. -/
theorem close_once_counterexample :
    (runPool (newConnPool baseCfg)
        [Op.opNewConn (DialOutcome.ok 0), Op.opFilter (fun _ => true),
         Op.opClose]).map (fun s => s.closeLog) = some [0, 0] ∧
    ¬ (([0, 0] : List Nat)).Nodup :=
  ⟨by decide, by decide⟩

/-- C3 (amended): under the client discipline — `Filter` unused, every
`Put`/`Remove`/`CloseConn` targets a connection previously handed out by
`Get` or `NewConn` and not yet returned — each connection's underlying
`Close` is invoked at most once: the close log of every reachable state is
duplicate-free. -/
theorem close_once (cfg : Options) (ops : List Op) (s1 : PoolState)
    (g1 : Ghost)
    (h : runWF (newConnPool cfg) { checkedOut := [], adHoc := [] } ops =
      some (s1, g1)) : s1.closeLog.Nodup :=
  (runWF_inv ops (newConnPool cfg) { checkedOut := [], adHoc := [] } s1 g1
    (inv_init cfg) h).log_nodup

/-- Connection created by the C3 witness trace. -/
def c3Conn : Conn :=
  { id := 0, createdAt := 7, usedAt := 7, pooled := false, buffered := 0 }

/-- Operations of the C3 witness trace: create a connection ad hoc, close
it through the pool, then close the pool. -/
def c3WfOps : List Op :=
  [Op.opNewConn (DialOutcome.ok 7), Op.opAsyncCloseConn c3Conn, Op.opClose]

/-- Final state of the C3 witness trace. -/
def c3S1 : PoolState :=
  { cfg := baseCfg, dialErrorsNum := 0, lastDialError := none, queueLen := 0,
    conns := none, idleConns := none, poolSize := 0, idleConnsLen := 0,
    hits := 0, misses := 0, timeouts := 0, staleConns := 1,
    closedFlag := true, pendingFillers := 0, proberSpawns := 0,
    closeLog := [0], nextId := 1 }

/-- Witness for C3 amended: a well-formed trace that creates, closes and
then shuts down ends with the duplicate-free close log `[0]`. -/
theorem close_once_witness :
    runWF (newConnPool baseCfg) { checkedOut := [], adHoc := [] } c3WfOps =
      some (c3S1, { checkedOut := [], adHoc := [] }) ∧
    c3S1.closeLog.Nodup :=
  ⟨by decide,
   close_once baseCfg c3WfOps c3S1 { checkedOut := [], adHoc := [] }
     (by decide)⟩

end GoRedisPool
